import Mathlib

/-!
Verification development for the OVN matching-expression compiler whose
public interface is `ovn/lib/expr.h`.

The repository sources contain only the header `expr.h`; the bodies of the
declared functions (`expr_parse`, `expr_annotate`, `expr_simplify`,
`expr_normalize`, `expr_honors_invariants`, `expr_to_matches`, the symbol
table registration functions, ...) live in a file that is not part of the
sources.  Definitions below whose doc comment starts with "Modelled from
the spec:" are therefore translated from the specification text (and from
the extensive documentation comments inside `expr.h` itself), not from C
function bodies.

Machine integers are modelled as `Nat` with explicit masking: a field of
width `w` carries values `< 2 ^ w`, and every comparison carries a
`(value, mask)` pair of `Nat`s.
-/

namespace Ovn

/-- Measurement level of a field: `enum expr_level` in `expr.h`
    (`EXPR_L_NOMINAL`, `EXPR_L_BOOLEAN`, `EXPR_L_ORDINAL`). -/
inductive expr_level where
  | nominal
  | boolean
  | ordinal
deriving DecidableEq, Repr

/-- Relational operator: `enum expr_relop` in `expr.h`. -/
inductive expr_relop where
  | eq
  | ne
  | lt
  | le
  | gt
  | ge
deriving DecidableEq, Repr

/-- External field descriptor (`struct mf_field`, external to the core);
    only the attributes the spec relies on: bit width and maskability. -/
structure mf_field where
  id : Nat
  width : Nat
  maskable : Bool
deriving DecidableEq, Repr

/-- A constant of the surface grammar (§6): integer, masked integer
    `v/m`, double-quoted string, or Boolean literal. -/
inductive SConst where
  | int (n : Nat)
  | masked (v m : Nat)
  | str (t : String)
  | bool (b : Bool)
deriving DecidableEq, Repr

/-- Modelled from the spec: the parse tree delivered by the grammar of
    §4.2 before desugaring.  The lexer and the context-free structure
    recovery are external collaborators (spec §1), so the parser model
    takes this tree instead of a raw token stream.  It still contains the
    concepts that are not part of the abstract syntax tree (header
    comment of `expr.h`, lines 38-53): logical NOT, set membership,
    reversed comparisons and range expressions. -/
inductive Surface where
  | lit (b : Bool)
  | bare (x : String)
  | scmp (x : String) (op : expr_relop) (c : SConst)
  | srcmp (c : SConst) (op : expr_relop) (x : String)
  | srange (c1 : SConst) (op1 : expr_relop) (x : String) (op2 : expr_relop) (c2 : SConst)
  | sset (x : String) (op : expr_relop) (cs : List SConst)
  | snot (s : Surface)
  | sand (a b : Surface)
  | sor (a b : Surface)
deriving DecidableEq, Repr

/-- A symbol: `struct expr_symbol` in `expr.h`.  `prereqs` and
    `expansion` are stored by the C code as strings that are parsed
    lazily under the same grammar; since the lexer is external, the model
    stores their grammar trees directly. -/
structure expr_symbol where
  name : String
  width : Nat
  field : Option mf_field
  expansion : Option Surface
  level : expr_level
  prereqs : Option Surface
  must_crossproduct : Bool
deriving DecidableEq, Repr

/-- Operand of an `EXPR_T_CMP` node: the anonymous union in `struct
    expr`, either a `(value, mask)` pair or a string. -/
inductive Operand where
  | num (value mask : Nat)
  | str (t : String)
deriving DecidableEq, Repr

/-- Abstract syntax tree: `struct expr` in `expr.h` (`EXPR_T_CMP`,
    `EXPR_T_AND`, `EXPR_T_OR`, `EXPR_T_BOOLEAN`).  The intrusive sibling
    list becomes an ordinary list of children. -/
inductive expr where
  | cmp (s : expr_symbol) (op : expr_relop) (o : Operand)
  | eand (es : List expr)
  | eor (es : List expr)
  | bool (b : Bool)
deriving Repr

/-- Is this node an `EXPR_T_AND`? -/
def isAnd : expr → Bool
  | .eand _ => true
  | _ => false

/-- Is this node an `EXPR_T_OR`? -/
def isOr : expr → Bool
  | .eor _ => true
  | _ => false

/-- Nonterminal nodes are the `EXPR_T_AND` and `EXPR_T_OR` nodes
    (header comment, lines 35-36). -/
def isNonterminal (e : expr) : Bool :=
  isAnd e || isOr e

/-- Invariant 3 of `struct expr`: a comparison has a nonzero mask and no
    1-bit of value where the mask has a 0-bit (`value & ~mask == 0`,
    expressed as `value &&& mask = value`).  String comparisons carry no
    mask. -/
def cmpOperandOk : Operand → Bool
  | .num v m => m != 0 && v &&& m == v
  | .str _ => true

mutual

/-- Modelled from the spec: `expr_honors_invariants` (declared at
    `expr.h:358`; body not in the sources).  It checks exactly the three
    invariants documented at `struct expr` (`expr.h:289-303`): an AND/OR
    node never has a child of its own type, AND/OR nodes have at least
    two children, and comparisons have a nonzero mask with
    `value & ~mask == 0`. -/
def expr_honors_invariants : expr → Bool
  | .cmp _ _ o => cmpOperandOk o
  | .bool _ => true
  | .eand es => decide (2 ≤ es.length) && honorsAndKids es
  | .eor es => decide (2 ≤ es.length) && honorsOrKids es

/-- Child check for an `EXPR_T_AND` node: no child is itself an AND, and
    every child honors the invariants. -/
def honorsAndKids : List expr → Bool
  | [] => true
  | c :: cs => (!isAnd c && expr_honors_invariants c) && honorsAndKids cs

/-- Child check for an `EXPR_T_OR` node: no child is itself an OR, and
    every child honors the invariants. -/
def honorsOrKids : List expr → Bool
  | [] => true
  | c :: cs => (!isOr c && expr_honors_invariants c) && honorsOrKids cs

end

/-- Evaluation of a relational operator on naturals. -/
def relopEval : expr_relop → Nat → Nat → Bool
  | .eq, a, b => a == b
  | .ne, a, b => a != b
  | .lt, a, b => decide (a < b)
  | .le, a, b => decide (a ≤ b)
  | .gt, a, b => decide (a > b)
  | .ge, a, b => decide (a ≥ b)

/-- Semantics of one comparison.  A packet `p` assigns a numeric value to
    every symbol name; `r` resolves port names (string literals) to
    numeric ids.  A numeric comparison relates the masked field value to
    the stored value; a string comparison relates the field to the
    resolved id, and an unresolvable name can match no packet. -/
def evalCmp (p : String → Nat) (r : String → Option Nat)
    (s : expr_symbol) (op : expr_relop) : Operand → Bool
  | .num v m => relopEval op (p s.name &&& m) v
  | .str t =>
    match op, r t with
    | .eq, some n => p s.name == n
    | .ne, some n => p s.name != n
    | .eq, none => false
    | .ne, none => true
    | .lt, _ => false
    | .le, _ => false
    | .gt, _ => true
    | .ge, _ => true

mutual

/-- Boolean function denoted by an AST over an assignment of its field
    variables. -/
def eval (p : String → Nat) (r : String → Option Nat) : expr → Bool
  | .cmp s op o => evalCmp p r s op o
  | .eand es => evalAll p r es
  | .eor es => evalAny p r es
  | .bool b => b

/-- Conjunction of the children of an AND node. -/
def evalAll (p : String → Nat) (r : String → Option Nat) : List expr → Bool
  | [] => true
  | c :: cs => eval p r c && evalAll p r cs

/-- Disjunction of the children of an OR node. -/
def evalAny (p : String → Nat) (r : String → Option Nat) : List expr → Bool
  | [] => false
  | c :: cs => eval p r c || evalAny p r cs

end

/-- Children of a node (empty for terminal nodes). -/
def children : expr → List expr
  | .eand es => es
  | .eor es => es
  | _ => []

/-- All nodes at a given distance from the root. -/
def nodesAtDepth : Nat → expr → List expr
  | 0, e => [e]
  | d + 1, e => (children e).flatMap (nodesAtDepth d)

/-- The connective expected at distance `d` from a root connective of
    type `r` (`true` = AND): connective types alternate by depth. -/
def altType (r : Bool) (d : Nat) : Bool :=
  if d % 2 = 0 then r else !r

lemma altType_succ (r : Bool) (d : Nat) : altType r (d + 1) = altType (!r) d := by
  unfold altType
  rcases Nat.mod_two_eq_zero_or_one d with h | h <;>
    simp [h, Nat.add_mod]

lemma honorsAndKids_mem {es : List expr} (h : honorsAndKids es = true) :
    ∀ c ∈ es, isAnd c = false ∧ expr_honors_invariants c = true := by
  induction es with
  | nil => intro c hc; exact absurd hc (List.not_mem_nil c)
  | cons a as ih =>
    rw [honorsAndKids] at h
    simp only [Bool.and_eq_true, Bool.not_eq_true'] at h
    intro c hc
    rcases List.mem_cons.mp hc with h1 | h1
    · subst h1; exact ⟨h.1.1, h.1.2⟩
    · exact ih h.2 c h1

lemma honorsOrKids_mem {es : List expr} (h : honorsOrKids es = true) :
    ∀ c ∈ es, isOr c = false ∧ expr_honors_invariants c = true := by
  induction es with
  | nil => intro c hc; exact absurd hc (List.not_mem_nil c)
  | cons a as ih =>
    rw [honorsOrKids] at h
    simp only [Bool.and_eq_true, Bool.not_eq_true'] at h
    intro c hc
    rcases List.mem_cons.mp hc with h1 | h1
    · subst h1; exact ⟨h.1.1, h.1.2⟩
    · exact ih h.2 c h1

lemma honors_eand_elim {es : List expr}
    (h : expr_honors_invariants (.eand es) = true) :
    2 ≤ es.length ∧ ∀ c ∈ es, isAnd c = false ∧ expr_honors_invariants c = true := by
  rw [expr_honors_invariants] at h
  simp only [Bool.and_eq_true, decide_eq_true_eq] at h
  exact ⟨h.1, honorsAndKids_mem h.2⟩

lemma honors_eor_elim {es : List expr}
    (h : expr_honors_invariants (.eor es) = true) :
    2 ≤ es.length ∧ ∀ c ∈ es, isOr c = false ∧ expr_honors_invariants c = true := by
  rw [expr_honors_invariants] at h
  simp only [Bool.and_eq_true, decide_eq_true_eq] at h
  exact ⟨h.1, honorsOrKids_mem h.2⟩

lemma honors_child {e c : expr} (he : expr_honors_invariants e = true)
    (hc : c ∈ children e) : expr_honors_invariants c = true := by
  cases e with
  | eand es => exact ((honors_eand_elim he).2 c hc).2
  | eor es => exact ((honors_eor_elim he).2 c hc).2
  | cmp s op o => simp [children] at hc
  | bool b => simp [children] at hc

lemma honors_child_flip {e c : expr} (he : expr_honors_invariants e = true)
    (hNTe : isNonterminal e = true) (hc : c ∈ children e)
    (hNTc : isNonterminal c = true) : isAnd c = !isAnd e := by
  cases e with
  | eand es =>
    have h1 := ((honors_eand_elim he).2 c hc).1
    rw [show isAnd (expr.eand es) = true from rfl, Bool.not_true]
    exact h1
  | eor es =>
    have h1 := ((honors_eor_elim he).2 c hc).1
    have h2 : isAnd c = true := by
      cases c <;> simp_all [isNonterminal, isAnd, isOr]
    rw [show isAnd (expr.eor es) = false from rfl, Bool.not_false]
    exact h2
  | cmp s op o => simp [isNonterminal, isAnd, isOr] at hNTe
  | bool b => simp [isNonterminal, isAnd, isOr] at hNTe

lemma nodesAtDepth_terminal {c : expr} (h : isNonterminal c = false) (d : Nat) :
    nodesAtDepth d c = [c] ∨ nodesAtDepth d c = [] := by
  cases d with
  | zero => left; rfl
  | succ d =>
    right
    cases c <;> simp_all [isNonterminal, isAnd, isOr, children, nodesAtDepth]

lemma nodesAtDepth_nt_type (d : Nat) :
    ∀ (e : expr), expr_honors_invariants e = true → isNonterminal e = true →
      ∀ x ∈ nodesAtDepth d e, isNonterminal x = true →
        isAnd x = altType (isAnd e) d := by
  induction d with
  | zero =>
    intro e _ _ x hx _
    simp only [nodesAtDepth, List.mem_singleton] at hx
    subst hx
    simp [altType]
  | succ d ih =>
    intro e he hNTe x hx hNTx
    rw [nodesAtDepth] at hx
    simp only [List.mem_flatMap] at hx
    obtain ⟨c, hc, hxc⟩ := hx
    by_cases hNTc : isNonterminal c = true
    · have hhc := honors_child he hc
      have hflip := honors_child_flip he hNTe hc hNTc
      have := ih c hhc hNTc x hxc hNTx
      rw [this, hflip, altType_succ]
    · rcases nodesAtDepth_terminal (Bool.not_eq_true _ ▸ hNTc) d with h1 | h1
      · rw [h1] at hxc
        simp only [List.mem_singleton] at hxc
        subst hxc
        exact absurd hNTx hNTc
      · rw [h1] at hxc
        exact absurd hxc (List.not_mem_nil x)

/-- C9: in every AST satisfying the structural invariants, all
    nonterminal (AND/OR) nodes at the same distance from the root have
    the same type, and the connective type strictly alternates with
    depth: a nonterminal one level deeper has the opposite type. -/
theorem C9_nonterminal_same_depth_same_type (e : expr) (d : Nat) (a b : expr)
    (he : expr_honors_invariants e = true)
    (ha : a ∈ nodesAtDepth d e) (hb : b ∈ nodesAtDepth d e)
    (hNa : isNonterminal a = true) (hNb : isNonterminal b = true) :
    (isAnd a = isAnd b ∧ isOr a = isOr b) ∧
      (∀ x ∈ nodesAtDepth (d + 1) e, isNonterminal x = true →
        isAnd x = !isAnd a ∧ isOr x = !isOr a) := by
  have hor : ∀ y : expr, isNonterminal y = true → isOr y = !isAnd y := by
    intro y hy
    cases y <;> simp_all [isNonterminal, isAnd, isOr]
  by_cases hNTe : isNonterminal e = true
  · have hA := nodesAtDepth_nt_type d e he hNTe a ha hNa
    have hB := nodesAtDepth_nt_type d e he hNTe b hb hNb
    refine ⟨⟨hA.trans hB.symm, ?_⟩, fun x hx hNx => ?_⟩
    · rw [hor a hNa, hor b hNb, hA, hB]
    · have hX := nodesAtDepth_nt_type (d + 1) e he hNTe x hx hNx
      constructor
      · rw [hX, hA, altType_succ]
        unfold altType
        rcases Nat.mod_two_eq_zero_or_one d with h | h <;> simp [h]
      · rw [hor x hNx, hor a hNa, hX, hA, altType_succ]
        unfold altType
        rcases Nat.mod_two_eq_zero_or_one d with h | h <;> simp [h]
  · exfalso
    have hterm := nodesAtDepth_terminal (Bool.not_eq_true _ ▸ hNTe) d
    rcases hterm with h1 | h1
    · rw [h1] at ha
      simp only [List.mem_singleton] at ha
      subst ha
      exact hNTe hNa
    · rw [h1] at ha
      exact List.not_mem_nil a ha

/-- Witness for C9 at a concrete tree: the root OR has two AND children
    at depth 1, which indeed agree in type and flip relative to depth 2. -/
theorem C9_nonterminal_same_depth_same_type_witness :
    (isAnd (expr.eand [expr.bool true, expr.bool false]) =
        isAnd (expr.eand [expr.bool true, expr.bool false]) ∧
      isOr (expr.eand [expr.bool true, expr.bool false]) =
        isOr (expr.eand [expr.bool true, expr.bool false])) ∧
      (∀ x ∈ nodesAtDepth (1 + 1)
          (expr.eor [expr.eand [expr.bool true, expr.bool false],
            expr.eand [expr.bool true, expr.bool false]]),
        isNonterminal x = true →
          isAnd x = !isAnd (expr.eand [expr.bool true, expr.bool false]) ∧
          isOr x = !isOr (expr.eand [expr.bool true, expr.bool false])) := by
  exact C9_nonterminal_same_depth_same_type
    (expr.eor [expr.eand [expr.bool true, expr.bool false],
      expr.eand [expr.bool true, expr.bool false]])
    1
    (expr.eand [expr.bool true, expr.bool false])
    (expr.eand [expr.bool true, expr.bool false])
    (by rfl)
    (by simp [nodesAtDepth, children])
    (by simp [nodesAtDepth, children])
    (by rfl)
    (by rfl)

/-! ## Parser model -/

/-- Expression node type: `enum expr_type` in `expr.h`. -/
inductive expr_type where
  | cmp
  | eand
  | eor
  | bool
deriving DecidableEq, Repr

/-- The all-ones mask of a field of width `w`. -/
def fullmask (w : Nat) : Nat := 2 ^ w - 1

/-- Children of `e` viewed as an AND operand list. -/
def andKids : expr → List expr
  | .eand es => es
  | e => [e]

/-- Children of `e` viewed as an OR operand list. -/
def orKids : expr → List expr
  | .eor es => es
  | e => [e]

/-- Modelled from the spec: `expr_combine` (declared at `expr.h:335`;
    body not in the sources).  Combines two subexpressions under AND or
    OR, folding Boolean constants and splicing children of the same type
    into the parent so that the structural invariants are maintained. -/
def expr_combine (t : expr_type) (a b : expr) : expr :=
  match t with
  | .eand =>
    match a with
    | .bool c => if c then b else .bool false
    | _ =>
      match b with
      | .bool c => if c then a else .bool false
      | _ => .eand (andKids a ++ andKids b)
  | .eor =>
    match a with
    | .bool c => if c then .bool true else b
    | _ =>
      match b with
      | .bool c => if c then .bool true else a
      | _ => .eor (orKids a ++ orKids b)
  | _ => a

/-- The inverse of a relational operator, used to push logical NOT into
    a comparison: `!(x == a)` becomes `x != a`, and so on. -/
def negRelop : expr_relop → expr_relop
  | .eq => .ne
  | .ne => .eq
  | .lt => .ge
  | .le => .gt
  | .gt => .le
  | .ge => .lt

mutual

/-- Modelled from the spec: the parser implements NOT by inverting the
    sense of the operand (`expr.h:42-44`): comparisons flip their
    relational operator, AND and OR are exchanged by De Morgan, and
    Boolean literals flip. -/
def exprNegate : expr → expr
  | .cmp s op o => .cmp s (negRelop op) o
  | .eand es => .eor (exprNegateList es)
  | .eor es => .eand (exprNegateList es)
  | .bool b => .bool (!b)

/-- `exprNegate` mapped over a child list. -/
def exprNegateList : List expr → List expr
  | [] => []
  | e :: es => exprNegate e :: exprNegateList es

end

/-- The symbol table: the shash of `struct expr_symbol` entries. -/
abbrev Symtab := List expr_symbol

/-- Look a symbol up by name. -/
def symtabLookup (st : Symtab) (x : String) : Option expr_symbol :=
  st.find? (fun s => s.name == x)

/-- Does the operator order its operands (`<`, `<=`, `>`, `>=`)? -/
def relopIsRelational : expr_relop → Bool
  | .lt | .le | .gt | .ge => true
  | _ => false

/-- The mirrored operator, used for reversed comparisons: the parser
    translates `a < x` into `x > a` (`expr.h:49`). -/
def mirrorRelop : expr_relop → expr_relop
  | .eq => .eq
  | .ne => .ne
  | .lt => .gt
  | .le => .ge
  | .gt => .lt
  | .ge => .le

/-- Modelled from the spec: the operator-legality check of §4.2.
    Relops other than `==` and `!=` require an Ordinal symbol; a Boolean
    predicate admits only `==`/`!=` against a Boolean literal; a string
    symbol (width 0) admits only `==`/`!=` against a string literal; a
    numeric operand must fit in the symbol's width; a masked constant
    requires an Ordinal (maskable) symbol, `==`/`!=`, and a nonzero
    mask. -/
def cmpLegal (s : expr_symbol) (op : expr_relop) : SConst → Bool
  | .int n =>
    decide (s.width ≠ 0) && !(decide (s.level = .boolean)) &&
      (!(relopIsRelational op) || decide (s.level = .ordinal)) &&
      decide (n < 2 ^ s.width)
  | .masked v m =>
    decide (s.width ≠ 0) && decide (s.level = .ordinal) &&
      !(relopIsRelational op) && decide (m ≠ 0) &&
      decide (v < 2 ^ s.width) && decide (m < 2 ^ s.width)
  | .bool _ =>
    decide (s.level = .boolean) && (decide (op = .eq) || decide (op = .ne))
  | .str _ =>
    decide (s.width = 0) && (decide (op = .eq) || decide (op = .ne))

/-- The comparison node built for a legal operand: a plain integer gets
    the symbol's full mask, a masked integer is canonicalized to
    `value & mask`, a Boolean literal becomes a 1-bit comparison, and a
    string literal is stored as is. -/
def mkCmp (s : expr_symbol) (op : expr_relop) : SConst → expr
  | .int n => .cmp s op (.num n (fullmask s.width))
  | .masked v m => .cmp s op (.num (v &&& m) m)
  | .bool b => .cmp s op (.num (if b then 1 else 0) 1)
  | .str t => .cmp s op (.str t)

/-- Modelled from the spec: the comparison-forming step of the parser:
    resolve the symbol, check operator legality, build the node. -/
def parseCmp (st : Symtab) (x : String) (op : expr_relop) (c : SConst) :
    Except String expr :=
  match symtabLookup st x with
  | none => .error ("expecting field name, not " ++ x)
  | some s =>
    if cmpLegal s op c then .ok (mkCmp s op c)
    else .error "operator not applicable to operand"

/-- Fold the remaining members of a set expression into `acc` under the
    connective `t` (OR for `==` sets, AND for `!=` sets). -/
def parseSetRest (st : Symtab) (x : String) (op : expr_relop) (t : expr_type)
    (acc : expr) : List SConst → Except String expr
  | [] => .ok acc
  | c :: cs => do
    let e ← parseCmp st x op c
    parseSetRest st x op t (expr_combine t acc e) cs

/-- Modelled from the spec: `expr_parse` (declared at `expr.h:345`; body
    not in the sources).  The token stream and the context-free
    structure recovery are external; the model consumes the grammar's
    parse tree (`Surface`) and performs the documented desugarings:
    NOT is pushed inward, `a R x` becomes `x R' a` with the mirrored
    operator, `a < x < b` becomes `x > a && x < b`, and `==`/`!=`
    against a set becomes a disjunction/conjunction of comparisons.
    The result is an AST of comparisons and connectives only. -/
def expr_parse (st : Symtab) : Surface → Except String expr
  | .lit b => .ok (.bool b)
  | .bare x =>
    match symtabLookup st x with
    | none => .error ("expecting field name, not " ++ x)
    | some s =>
      if s.level = .boolean then
        .ok (mkCmp s .eq (.bool true))
      else
        .error "bare reference requires a Boolean predicate"
  | .scmp x op c => parseCmp st x op c
  | .srcmp c op x => parseCmp st x (mirrorRelop op) c
  | .srange c1 op1 x op2 c2 => do
    let a ← parseCmp st x (mirrorRelop op1) c1
    let b ← parseCmp st x op2 c2
    pure (expr_combine .eand a b)
  | .sset x op cs =>
    match cs with
    | [] => .error "set expression requires at least one constant"
    | c0 :: rest =>
      if op = .eq then do
        let e0 ← parseCmp st x .eq c0
        parseSetRest st x .eq .eor e0 rest
      else if op = .ne then do
        let e0 ← parseCmp st x .ne c0
        parseSetRest st x .ne .eand e0 rest
      else
        .error "set expression admits only == and !="
  | .snot s => do
    let e ← expr_parse st s
    pure (exprNegate e)
  | .sand a b => do
    let ea ← expr_parse st a
    let eb ← expr_parse st b
    pure (expr_combine .eand ea eb)
  | .sor a b => do
    let ea ← expr_parse st a
    let eb ← expr_parse st b
    pure (expr_combine .eor ea eb)

/-! ## Well-formedness

`wfe` is the invariant the pipeline establishes at parse time and
preserves through every pass; it strengthens `expr_honors_invariants`
with the per-comparison facts that the legality checks guarantee (value
and mask fit the symbol's width, relational operators appear only with
an Ordinal symbol under a full mask, and so on). -/

/-- Per-comparison well-formedness. -/
def cmpWf (s : expr_symbol) (op : expr_relop) : Operand → Bool
  | .num v m =>
    decide (0 < s.width) && (m != 0) && (v &&& m == v) &&
      decide (m < 2 ^ s.width) &&
      (!(relopIsRelational op) ||
        (decide (s.level = .ordinal) && (m == fullmask s.width))) &&
      (!(decide (s.level = .boolean)) ||
        ((m == 1) && (decide (op = .eq) || decide (op = .ne))))
  | .str _ => decide (s.width = 0) && (decide (op = .eq) || decide (op = .ne))

mutual

/-- All comparisons of the tree are well-formed. -/
def cmpsWf : expr → Bool
  | .cmp s op o => cmpWf s op o
  | .eand es => cmpsWfList es
  | .eor es => cmpsWfList es
  | .bool _ => true

/-- `cmpsWf` over a child list. -/
def cmpsWfList : List expr → Bool
  | [] => true
  | c :: cs => cmpsWf c && cmpsWfList cs

end

/-- Full well-formedness: the documented structural invariants plus the
    per-comparison facts. -/
def wfe (e : expr) : Bool :=
  expr_honors_invariants e && cmpsWf e

/-- A registration-time fact (§4.1): only predicates have Boolean level,
    and a predicate behaves like a 1-bit field. -/
def symbolWf (s : expr_symbol) : Bool :=
  !(decide (s.level = .boolean)) || decide (s.width = 1)

/-- All symbols of the table satisfy `symbolWf`. -/
def symtabWf (st : Symtab) : Bool :=
  st.all symbolWf

lemma cmpsWfList_iff {es : List expr} :
    cmpsWfList es = true ↔ ∀ c ∈ es, cmpsWf c = true := by
  induction es with
  | nil => simp [cmpsWfList]
  | cons a as ih => simp [cmpsWfList, ih]

lemma honorsAndKids_iff {es : List expr} :
    honorsAndKids es = true ↔
      ∀ c ∈ es, isAnd c = false ∧ expr_honors_invariants c = true := by
  induction es with
  | nil => simp [honorsAndKids]
  | cons a as ih => simp [honorsAndKids, ih, Bool.not_eq_true', and_assoc]

lemma honorsOrKids_iff {es : List expr} :
    honorsOrKids es = true ↔
      ∀ c ∈ es, isOr c = false ∧ expr_honors_invariants c = true := by
  induction es with
  | nil => simp [honorsOrKids]
  | cons a as ih => simp [honorsOrKids, ih, Bool.not_eq_true', and_assoc]

lemma wfe_cmp_iff {s : expr_symbol} {op : expr_relop} {o : Operand} :
    wfe (.cmp s op o) = true ↔ cmpOperandOk o = true ∧ cmpWf s op o = true := by
  simp [wfe, expr_honors_invariants, cmpsWf]

lemma wfe_bool (b : Bool) : wfe (.bool b) = true := by
  simp [wfe, expr_honors_invariants, cmpsWf]

lemma wfe_eand_iff {es : List expr} :
    wfe (.eand es) = true ↔
      2 ≤ es.length ∧ ∀ c ∈ es, isAnd c = false ∧ wfe c = true := by
  simp only [wfe, expr_honors_invariants, cmpsWf, Bool.and_eq_true,
    decide_eq_true_eq, honorsAndKids_iff, cmpsWfList_iff]
  constructor
  · rintro ⟨⟨h1, h2⟩, h3⟩
    exact ⟨h1, fun c hc => ⟨(h2 c hc).1, (h2 c hc).2, h3 c hc⟩⟩
  · rintro ⟨h1, h2⟩
    exact ⟨⟨h1, fun c hc => ⟨(h2 c hc).1, (h2 c hc).2.1⟩⟩,
      fun c hc => (h2 c hc).2.2⟩

lemma wfe_eor_iff {es : List expr} :
    wfe (.eor es) = true ↔
      2 ≤ es.length ∧ ∀ c ∈ es, isOr c = false ∧ wfe c = true := by
  simp only [wfe, expr_honors_invariants, cmpsWf, Bool.and_eq_true,
    decide_eq_true_eq, honorsOrKids_iff, cmpsWfList_iff]
  constructor
  · rintro ⟨⟨h1, h2⟩, h3⟩
    exact ⟨h1, fun c hc => ⟨(h2 c hc).1, (h2 c hc).2, h3 c hc⟩⟩
  · rintro ⟨h1, h2⟩
    exact ⟨⟨h1, fun c hc => ⟨(h2 c hc).1, (h2 c hc).2.1⟩⟩,
      fun c hc => (h2 c hc).2.2⟩

lemma wfe_honors {e : expr} (h : wfe e = true) :
    expr_honors_invariants e = true :=
  (Bool.and_eq_true _ _ ▸ h).1

lemma symtabLookup_name {st : Symtab} {x : String} {s : expr_symbol}
    (h : symtabLookup st x = some s) : s.name = x := by
  have := List.find?_some h
  simpa using this

lemma symtabLookup_mem {st : Symtab} {x : String} {s : expr_symbol}
    (h : symtabLookup st x = some s) : s ∈ st :=
  List.mem_of_find?_eq_some h

lemma fullmask_ne_zero {w : Nat} (h : 0 < w) : fullmask w ≠ 0 := by
  have : 2 ≤ 2 ^ w := by
    calc 2 = 2 ^ 1 := by norm_num
    _ ≤ 2 ^ w := Nat.pow_le_pow_right (by norm_num) h
  unfold fullmask
  omega

lemma fullmask_lt {w : Nat} : fullmask w < 2 ^ w := by
  have : 0 < 2 ^ w := Nat.pos_pow_of_pos w (by norm_num)
  unfold fullmask
  omega

lemma land_fullmask_self {v w : Nat} (h : v < 2 ^ w) :
    v &&& fullmask w = v := by
  unfold fullmask
  rw [Nat.and_pow_two_sub_one_eq_mod]
  exact Nat.mod_eq_of_lt h

lemma land_land_self (v m : Nat) : (v &&& m) &&& m = v &&& m := by
  rw [Nat.land_assoc]
  congr 1
  apply Nat.eq_of_testBit_eq
  intro i
  simp [Nat.testBit_land, Bool.and_self]

/-- A legal comparison node is well-formed. -/
lemma mkCmp_wfe {s : expr_symbol} {op : expr_relop} {c : SConst}
    (hl : cmpLegal s op c = true) (hs : symbolWf s = true) :
    wfe (mkCmp s op c) = true := by
  cases c with
  | int n =>
    simp only [cmpLegal, Bool.and_eq_true, Bool.or_eq_true, Bool.not_eq_true',
      decide_eq_true_eq, decide_eq_false_iff_not] at hl
    obtain ⟨⟨⟨hw, hb⟩, hrel⟩, hn⟩ := hl
    rw [mkCmp, wfe_cmp_iff]
    constructor
    · simp only [cmpOperandOk, Bool.and_eq_true, bne_iff_ne, ne_eq, beq_iff_eq]
      exact ⟨fullmask_ne_zero (Nat.pos_of_ne_zero hw),
        land_fullmask_self hn⟩
    · simp only [cmpWf, Bool.and_eq_true, Bool.or_eq_true, Bool.not_eq_true',
        decide_eq_true_eq, decide_eq_false_iff_not, bne_iff_ne, ne_eq,
        beq_iff_eq]
      refine ⟨⟨⟨⟨⟨Nat.pos_of_ne_zero hw, fullmask_ne_zero (Nat.pos_of_ne_zero hw)⟩,
        land_fullmask_self hn⟩, fullmask_lt⟩, ?_⟩, ?_⟩
      · cases hrel with
        | inl h => left; exact h
        | inr h => right; exact ⟨by simp [h], by simp⟩
      · left; simp [hb]
  | masked v m =>
    simp only [cmpLegal, Bool.and_eq_true, Bool.not_eq_true',
      decide_eq_true_eq, decide_eq_false_iff_not] at hl
    obtain ⟨⟨⟨⟨⟨hw, hord⟩, hrel⟩, hm⟩, hv⟩, hmw⟩ := hl
    rw [mkCmp, wfe_cmp_iff]
    constructor
    · simp only [cmpOperandOk, Bool.and_eq_true, bne_iff_ne, ne_eq, beq_iff_eq]
      exact ⟨hm, land_land_self v m⟩
    · simp only [cmpWf, Bool.and_eq_true, Bool.or_eq_true, Bool.not_eq_true',
        decide_eq_true_eq, decide_eq_false_iff_not, bne_iff_ne, ne_eq,
        beq_iff_eq]
      refine ⟨⟨⟨⟨⟨Nat.pos_of_ne_zero hw, hm⟩, land_land_self v m⟩, hmw⟩, ?_⟩, ?_⟩
      · left; simp [hrel]
      · left; rw [hord]; intro h; cases h
  | bool b =>
    simp only [cmpLegal, Bool.and_eq_true, Bool.or_eq_true,
      decide_eq_true_eq] at hl
    obtain ⟨hlev, hop⟩ := hl
    simp only [symbolWf, Bool.or_eq_true, Bool.not_eq_true',
      decide_eq_true_eq, decide_eq_false_iff_not] at hs
    have hw1 : s.width = 1 := by
      cases hs with
      | inl h => exact absurd hlev h
      | inr h => exact h
    rw [mkCmp, wfe_cmp_iff]
    constructor
    · cases b <;> simp [cmpOperandOk]
    · simp only [cmpWf, Bool.and_eq_true, Bool.or_eq_true, Bool.not_eq_true',
        decide_eq_true_eq, decide_eq_false_iff_not, bne_iff_ne, ne_eq,
        beq_iff_eq]
      have hrel : relopIsRelational op = false := by
        cases hop with
        | inl h => rw [h]; rfl
        | inr h => rw [h]; rfl
      refine ⟨⟨⟨⟨⟨?_, by norm_num⟩, ?_⟩, ?_⟩, ?_⟩, ?_⟩
      · rw [hw1]; norm_num
      · cases b <;> rfl
      · rw [hw1]; norm_num
      · left; simp [hrel]
      · right; exact ⟨by simp, hop⟩
  | str t =>
    simp only [cmpLegal, Bool.and_eq_true, Bool.or_eq_true,
      decide_eq_true_eq] at hl
    rw [mkCmp, wfe_cmp_iff]
    constructor
    · rfl
    · simp only [cmpWf, Bool.and_eq_true, Bool.or_eq_true, decide_eq_true_eq]
      exact hl

/-! ## Preservation properties of the parser's building blocks -/

lemma wfe_eand_parts {es : List expr} :
    wfe (.eand es) = true ↔
      2 ≤ es.length ∧ honorsAndKids es = true ∧ cmpsWfList es = true := by
  simp [wfe, expr_honors_invariants, cmpsWf, and_assoc]

lemma wfe_eor_parts {es : List expr} :
    wfe (.eor es) = true ↔
      2 ≤ es.length ∧ honorsOrKids es = true ∧ cmpsWfList es = true := by
  simp [wfe, expr_honors_invariants, cmpsWf, and_assoc]

lemma honorsAndKids_append {l1 l2 : List expr} :
    honorsAndKids (l1 ++ l2) = (honorsAndKids l1 && honorsAndKids l2) := by
  induction l1 with
  | nil => simp [honorsAndKids]
  | cons a as ih => simp [honorsAndKids, ih, Bool.and_assoc]

lemma honorsOrKids_append {l1 l2 : List expr} :
    honorsOrKids (l1 ++ l2) = (honorsOrKids l1 && honorsOrKids l2) := by
  induction l1 with
  | nil => simp [honorsOrKids]
  | cons a as ih => simp [honorsOrKids, ih, Bool.and_assoc]

lemma cmpsWfList_append {l1 l2 : List expr} :
    cmpsWfList (l1 ++ l2) = (cmpsWfList l1 && cmpsWfList l2) := by
  induction l1 with
  | nil => simp [cmpsWfList]
  | cons a as ih => simp [cmpsWfList, ih, Bool.and_assoc]

lemma andKids_length {a : expr} (h : wfe a = true) : 1 ≤ (andKids a).length := by
  cases a with
  | eand es =>
    have := (wfe_eand_parts.mp h).1
    simp only [andKids]
    omega
  | eor es => simp [andKids]
  | cmp s op o => simp [andKids]
  | bool b => simp [andKids]

lemma orKids_length {a : expr} (h : wfe a = true) : 1 ≤ (orKids a).length := by
  cases a with
  | eor es =>
    have := (wfe_eor_parts.mp h).1
    simp only [orKids]
    omega
  | eand es => simp [orKids]
  | cmp s op o => simp [orKids]
  | bool b => simp [orKids]

lemma andKids_ok {a : expr} (h : wfe a = true) :
    honorsAndKids (andKids a) = true ∧ cmpsWfList (andKids a) = true := by
  cases a with
  | eand es =>
    rw [wfe_eand_parts] at h
    exact ⟨h.2.1, h.2.2⟩
  | eor es =>
    rw [wfe] at h
    simp only [Bool.and_eq_true] at h
    simp [andKids, honorsAndKids, isAnd, cmpsWfList, h.1, h.2]
  | cmp s op o =>
    rw [wfe] at h
    simp only [Bool.and_eq_true] at h
    simp [andKids, honorsAndKids, isAnd, cmpsWfList, h.1, h.2]
  | bool b =>
    simp [andKids, honorsAndKids, isAnd, cmpsWfList, expr_honors_invariants, cmpsWf]

lemma orKids_ok {a : expr} (h : wfe a = true) :
    honorsOrKids (orKids a) = true ∧ cmpsWfList (orKids a) = true := by
  cases a with
  | eor es =>
    rw [wfe_eor_parts] at h
    exact ⟨h.2.1, h.2.2⟩
  | eand es =>
    rw [wfe] at h
    simp only [Bool.and_eq_true] at h
    simp [orKids, honorsOrKids, isOr, cmpsWfList, h.1, h.2]
  | cmp s op o =>
    rw [wfe] at h
    simp only [Bool.and_eq_true] at h
    simp [orKids, honorsOrKids, isOr, cmpsWfList, h.1, h.2]
  | bool b =>
    simp [orKids, honorsOrKids, isOr, cmpsWfList, expr_honors_invariants, cmpsWf]

lemma wfe_eand_append {a b : expr} (ha : wfe a = true) (hb : wfe b = true) :
    wfe (.eand (andKids a ++ andKids b)) = true := by
  rw [wfe_eand_parts]
  have l1 := andKids_length ha
  have l2 := andKids_length hb
  refine ⟨by rw [List.length_append]; omega, ?_, ?_⟩
  · rw [honorsAndKids_append, (andKids_ok ha).1, (andKids_ok hb).1]; rfl
  · rw [cmpsWfList_append, (andKids_ok ha).2, (andKids_ok hb).2]; rfl

lemma wfe_eor_append {a b : expr} (ha : wfe a = true) (hb : wfe b = true) :
    wfe (.eor (orKids a ++ orKids b)) = true := by
  rw [wfe_eor_parts]
  have l1 := orKids_length ha
  have l2 := orKids_length hb
  refine ⟨by rw [List.length_append]; omega, ?_, ?_⟩
  · rw [honorsOrKids_append, (orKids_ok ha).1, (orKids_ok hb).1]; rfl
  · rw [cmpsWfList_append, (orKids_ok ha).2, (orKids_ok hb).2]; rfl

/-- `expr_combine` preserves well-formedness. -/
lemma expr_combine_wfe (t : expr_type) {a b : expr}
    (ha : wfe a = true) (hb : wfe b = true) :
    wfe (expr_combine t a b) = true := by
  cases t with
  | cmp => exact ha
  | bool => exact ha
  | eand =>
    cases a with
    | bool c => cases c <;> [exact wfe_bool false; exact hb]
    | cmp s op o =>
      cases b with
      | bool c => cases c <;> [exact wfe_bool false; exact ha]
      | cmp s2 op2 o2 => exact wfe_eand_append ha hb
      | eand es => exact wfe_eand_append ha hb
      | eor es => exact wfe_eand_append ha hb
    | eand es =>
      cases b with
      | bool c => cases c <;> [exact wfe_bool false; exact ha]
      | cmp s2 op2 o2 => exact wfe_eand_append ha hb
      | eand es2 => exact wfe_eand_append ha hb
      | eor es2 => exact wfe_eand_append ha hb
    | eor es =>
      cases b with
      | bool c => cases c <;> [exact wfe_bool false; exact ha]
      | cmp s2 op2 o2 => exact wfe_eand_append ha hb
      | eand es2 => exact wfe_eand_append ha hb
      | eor es2 => exact wfe_eand_append ha hb
  | eor =>
    cases a with
    | bool c => cases c <;> [exact hb; exact wfe_bool true]
    | cmp s op o =>
      cases b with
      | bool c => cases c <;> [exact ha; exact wfe_bool true]
      | cmp s2 op2 o2 => exact wfe_eor_append ha hb
      | eand es => exact wfe_eor_append ha hb
      | eor es => exact wfe_eor_append ha hb
    | eand es =>
      cases b with
      | bool c => cases c <;> [exact ha; exact wfe_bool true]
      | cmp s2 op2 o2 => exact wfe_eor_append ha hb
      | eand es2 => exact wfe_eor_append ha hb
      | eor es2 => exact wfe_eor_append ha hb
    | eor es =>
      cases b with
      | bool c => cases c <;> [exact ha; exact wfe_bool true]
      | cmp s2 op2 o2 => exact wfe_eor_append ha hb
      | eand es2 => exact wfe_eor_append ha hb
      | eor es2 => exact wfe_eor_append ha hb

lemma isOr_exprNegate (e : expr) : isOr (exprNegate e) = isAnd e := by
  cases e <;> rfl

lemma isAnd_exprNegate (e : expr) : isAnd (exprNegate e) = isOr e := by
  cases e <;> rfl

lemma exprNegateList_length : ∀ es : List expr,
    (exprNegateList es).length = es.length
  | [] => rfl
  | e :: es => by rw [exprNegateList, List.length_cons, List.length_cons,
      exprNegateList_length es]

lemma cmpWf_negRelop {s : expr_symbol} {op : expr_relop} {o : Operand}
    (h : cmpWf s op o = true) : cmpWf s (negRelop op) o = true := by
  cases o with
  | str t => cases op <;> simp_all [cmpWf, negRelop]
  | num v m =>
    rw [cmpWf] at h ⊢
    simp only [Bool.and_eq_true, Bool.or_eq_true, Bool.not_eq_true',
      decide_eq_true_eq, decide_eq_false_iff_not, bne_iff_ne, ne_eq,
      beq_iff_eq] at h ⊢
    obtain ⟨⟨h1, h2⟩, h3⟩ := h
    refine ⟨⟨h1, ?_⟩, ?_⟩
    · cases op <;> simpa [negRelop, relopIsRelational] using h2
    · cases op <;> simpa [negRelop] using h3

mutual

theorem exprNegate_wfe : ∀ e : expr, wfe e = true → wfe (exprNegate e) = true
  | .cmp s op o, h => by
    rw [wfe_cmp_iff] at h
    rw [exprNegate, wfe_cmp_iff]
    exact ⟨h.1, cmpWf_negRelop h.2⟩
  | .eand es, h => by
    rw [wfe_eand_parts] at h
    rw [exprNegate, wfe_eor_parts]
    have hl := exprNegateList_wfe_and es h.2.1 h.2.2
    exact ⟨by rw [exprNegateList_length]; exact h.1, hl⟩
  | .eor es, h => by
    rw [wfe_eor_parts] at h
    rw [exprNegate, wfe_eand_parts]
    have hl := exprNegateList_wfe_or es h.2.1 h.2.2
    exact ⟨by rw [exprNegateList_length]; exact h.1, hl⟩
  | .bool b, _ => by rw [exprNegate]; exact wfe_bool _

theorem exprNegateList_wfe_and : ∀ es : List expr,
    honorsAndKids es = true → cmpsWfList es = true →
      honorsOrKids (exprNegateList es) = true ∧
        cmpsWfList (exprNegateList es) = true
  | [], _, _ => ⟨rfl, rfl⟩
  | c :: cs, h1, h2 => by
    rw [honorsAndKids] at h1
    rw [cmpsWfList] at h2
    simp only [Bool.and_eq_true, Bool.not_eq_true'] at h1 h2
    have hc : wfe c = true := by
      rw [wfe]
      simp [h1.1.2, h2.1]
    have hnc := exprNegate_wfe c hc
    have ih := exprNegateList_wfe_and cs h1.2 h2.2
    constructor
    · rw [exprNegateList, honorsOrKids]
      simp only [Bool.and_eq_true, Bool.not_eq_true']
      exact ⟨⟨by rw [isOr_exprNegate]; exact h1.1.1, wfe_honors hnc⟩, ih.1⟩
    · rw [exprNegateList, cmpsWfList]
      simp only [Bool.and_eq_true]
      exact ⟨(Bool.and_eq_true _ _ ▸ hnc).2, ih.2⟩

theorem exprNegateList_wfe_or : ∀ es : List expr,
    honorsOrKids es = true → cmpsWfList es = true →
      honorsAndKids (exprNegateList es) = true ∧
        cmpsWfList (exprNegateList es) = true
  | [], _, _ => ⟨rfl, rfl⟩
  | c :: cs, h1, h2 => by
    rw [honorsOrKids] at h1
    rw [cmpsWfList] at h2
    simp only [Bool.and_eq_true, Bool.not_eq_true'] at h1 h2
    have hc : wfe c = true := by
      rw [wfe]
      simp [h1.1.2, h2.1]
    have hnc := exprNegate_wfe c hc
    have ih := exprNegateList_wfe_or cs h1.2 h2.2
    constructor
    · rw [exprNegateList, honorsAndKids]
      simp only [Bool.and_eq_true, Bool.not_eq_true']
      exact ⟨⟨by rw [isAnd_exprNegate]; exact h1.1.1, wfe_honors hnc⟩, ih.1⟩
    · rw [exprNegateList, cmpsWfList]
      simp only [Bool.and_eq_true]
      exact ⟨(Bool.and_eq_true _ _ ▸ hnc).2, ih.2⟩

end

/-! ## Semantics of the parser's building blocks -/

lemma evalAll_append (p : String → Nat) (r : String → Option Nat)
    (l1 l2 : List expr) :
    evalAll p r (l1 ++ l2) = (evalAll p r l1 && evalAll p r l2) := by
  induction l1 with
  | nil => simp [evalAll]
  | cons a as ih => simp [evalAll, ih, Bool.and_assoc]

lemma evalAny_append (p : String → Nat) (r : String → Option Nat)
    (l1 l2 : List expr) :
    evalAny p r (l1 ++ l2) = (evalAny p r l1 || evalAny p r l2) := by
  induction l1 with
  | nil => simp [evalAny]
  | cons a as ih => simp [evalAny, ih, Bool.or_assoc]

lemma evalAll_andKids (p : String → Nat) (r : String → Option Nat) (a : expr) :
    evalAll p r (andKids a) = eval p r a := by
  cases a <;> simp [andKids, evalAll, eval]

lemma evalAny_orKids (p : String → Nat) (r : String → Option Nat) (a : expr) :
    evalAny p r (orKids a) = eval p r a := by
  cases a <;> simp [orKids, evalAny, eval]

lemma eval_eand_append (p : String → Nat) (r : String → Option Nat)
    (a b : expr) :
    eval p r (.eand (andKids a ++ andKids b)) = (eval p r a && eval p r b) := by
  rw [eval, evalAll_append, evalAll_andKids, evalAll_andKids]

lemma eval_eor_append (p : String → Nat) (r : String → Option Nat)
    (a b : expr) :
    eval p r (.eor (orKids a ++ orKids b)) = (eval p r a || eval p r b) := by
  rw [eval, evalAny_append, evalAny_orKids, evalAny_orKids]

/-- `expr_combine` under AND denotes conjunction. -/
lemma eval_combine_eand (p : String → Nat) (r : String → Option Nat)
    (a b : expr) :
    eval p r (expr_combine .eand a b) = (eval p r a && eval p r b) := by
  cases a with
  | bool c => cases c <;> simp [expr_combine, eval]
  | cmp s op o =>
    cases b with
    | bool c => cases c <;> simp [expr_combine, eval]
    | cmp s2 op2 o2 => exact eval_eand_append p r _ _
    | eand es => exact eval_eand_append p r _ _
    | eor es => exact eval_eand_append p r _ _
  | eand es =>
    cases b with
    | bool c => cases c <;> simp [expr_combine, eval]
    | cmp s2 op2 o2 => exact eval_eand_append p r _ _
    | eand es2 => exact eval_eand_append p r _ _
    | eor es2 => exact eval_eand_append p r _ _
  | eor es =>
    cases b with
    | bool c => cases c <;> simp [expr_combine, eval]
    | cmp s2 op2 o2 => exact eval_eand_append p r _ _
    | eand es2 => exact eval_eand_append p r _ _
    | eor es2 => exact eval_eand_append p r _ _

/-- `expr_combine` under OR denotes disjunction. -/
lemma eval_combine_eor (p : String → Nat) (r : String → Option Nat)
    (a b : expr) :
    eval p r (expr_combine .eor a b) = (eval p r a || eval p r b) := by
  cases a with
  | bool c => cases c <;> simp [expr_combine, eval]
  | cmp s op o =>
    cases b with
    | bool c => cases c <;> simp [expr_combine, eval]
    | cmp s2 op2 o2 => exact eval_eor_append p r _ _
    | eand es => exact eval_eor_append p r _ _
    | eor es => exact eval_eor_append p r _ _
  | eand es =>
    cases b with
    | bool c => cases c <;> simp [expr_combine, eval]
    | cmp s2 op2 o2 => exact eval_eor_append p r _ _
    | eand es2 => exact eval_eor_append p r _ _
    | eor es2 => exact eval_eor_append p r _ _
  | eor es =>
    cases b with
    | bool c => cases c <;> simp [expr_combine, eval]
    | cmp s2 op2 o2 => exact eval_eor_append p r _ _
    | eand es2 => exact eval_eor_append p r _ _
    | eor es2 => exact eval_eor_append p r _ _

lemma relopEval_negRelop (op : expr_relop) (a b : Nat) :
    relopEval (negRelop op) a b = !(relopEval op a b) := by
  cases op <;>
    simp [relopEval, negRelop, bne, ← decide_not, Nat.not_lt, Nat.not_le]

mutual

/-- Negation is exact: pushing NOT inward complements the denotation. -/
theorem eval_exprNegate (p : String → Nat) (r : String → Option Nat) :
    ∀ e : expr, eval p r (exprNegate e) = !(eval p r e)
  | .cmp s op o => by
    rw [exprNegate, eval, eval]
    cases o with
    | num v m =>
      rw [evalCmp, evalCmp]
      exact relopEval_negRelop op _ _
    | str t =>
      rcases hr : r t with _ | n <;> cases op <;>
        simp [evalCmp, negRelop, hr, bne, Bool.not_not]
  | .eand es => by
    rw [exprNegate, eval, eval]
    exact evalAny_exprNegateList p r es
  | .eor es => by
    rw [exprNegate, eval, eval]
    exact evalAll_exprNegateList p r es
  | .bool b => by rw [exprNegate, eval, eval]

theorem evalAny_exprNegateList (p : String → Nat) (r : String → Option Nat) :
    ∀ es : List expr, evalAny p r (exprNegateList es) = !(evalAll p r es)
  | [] => rfl
  | c :: cs => by
    rw [exprNegateList, evalAny, evalAll, eval_exprNegate p r c,
      evalAny_exprNegateList p r cs]
    simp [Bool.not_and]

theorem evalAll_exprNegateList (p : String → Nat) (r : String → Option Nat) :
    ∀ es : List expr, evalAll p r (exprNegateList es) = !(evalAny p r es)
  | [] => rfl
  | c :: cs => by
    rw [exprNegateList, evalAll, evalAny, eval_exprNegate p r c,
      evalAll_exprNegateList p r cs]
    simp [Bool.not_or]

end

/-! ## Natural semantics of the surface syntax -/

lemma except_bind_ok {α β : Type} (a : α) (f : α → Except String β) :
    (Except.ok a >>= f) = f a := rfl

lemma except_bind_err {α β : Type} (m : String) (f : α → Except String β) :
    ((Except.error m : Except String α) >>= f) = .error m := rfl

/-- The meaning of `x op c` as written (before desugaring): the masked
    field value is related to the constant. -/
def scmpSem (st : Symtab) (p : String → Nat) (r : String → Option Nat)
    (x : String) (op : expr_relop) (c : SConst) : Bool :=
  match symtabLookup st x with
  | none => false
  | some s =>
    match c with
    | .int n => relopEval op (p x &&& fullmask s.width) n
    | .masked v m => relopEval op (p x &&& m) (v &&& m)
    | .bool b => relopEval op (p x &&& 1) (if b then 1 else 0)
    | .str t =>
      match op, r t with
      | .eq, some n => p x == n
      | .ne, some n => p x != n
      | .eq, none => false
      | .ne, none => true
      | .lt, _ => false
      | .le, _ => false
      | .gt, _ => true
      | .ge, _ => true

/-- The meaning of a reversed comparison `c op x` as written: the
    constant is related to the masked field value. -/
def srcmpSem (st : Symtab) (p : String → Nat) (r : String → Option Nat)
    (c : SConst) (op : expr_relop) (x : String) : Bool :=
  match symtabLookup st x with
  | none => false
  | some s =>
    match c with
    | .int n => relopEval op n (p x &&& fullmask s.width)
    | .masked v m => relopEval op (v &&& m) (p x &&& m)
    | .bool b => relopEval op (if b then 1 else 0) (p x &&& 1)
    | .str t =>
      match op, r t with
      | .eq, some n => p x == n
      | .ne, some n => p x != n
      | .eq, none => false
      | .ne, none => true
      | .lt, _ => true
      | .le, _ => true
      | .gt, _ => false
      | .ge, _ => false

/-- Natural semantics of the surface syntax: NOT is complement, a set
    membership `x == {-}` is a disjunction over the members and
    `x != {-}` the corresponding conjunction, a reversed comparison
    relates constant to field, and a range is the conjunction of its two
    comparisons. -/
def sEval (st : Symtab) (p : String → Nat) (r : String → Option Nat) :
    Surface → Bool
  | .lit b => b
  | .bare x =>
    match symtabLookup st x with
    | some _ => p x &&& 1 == 1
    | none => false
  | .scmp x op c => scmpSem st p r x op c
  | .srcmp c op x => srcmpSem st p r c op x
  | .srange c1 op1 x op2 c2 =>
    srcmpSem st p r c1 op1 x && scmpSem st p r x op2 c2
  | .sset x op cs =>
    if op = .eq then cs.any (fun c => scmpSem st p r x .eq c)
    else if op = .ne then cs.all (fun c => scmpSem st p r x .ne c)
    else false
  | .snot s => !(sEval st p r s)
  | .sand a b => sEval st p r a && sEval st p r b
  | .sor a b => sEval st p r a || sEval st p r b

lemma parseCmp_ok {st : Symtab} {x : String} {op : expr_relop} {c : SConst}
    {e : expr} (h : parseCmp st x op c = .ok e) :
    ∃ s, symtabLookup st x = some s ∧ cmpLegal s op c = true ∧
      e = mkCmp s op c := by
  unfold parseCmp at h
  cases hl : symtabLookup st x with
  | none => rw [hl] at h; exact absurd h (by simp)
  | some s =>
    rw [hl] at h
    dsimp only at h
    by_cases hc : cmpLegal s op c = true
    · rw [if_pos hc] at h
      refine ⟨s, rfl, hc, ?_⟩
      cases h
      rfl
    · rw [if_neg hc] at h
      exact absurd h (by simp)

lemma mkCmp_sem {st : Symtab} {x : String} {s : expr_symbol}
    (hl : symtabLookup st x = some s) (p : String → Nat)
    (r : String → Option Nat) (op : expr_relop) (c : SConst) :
    eval p r (mkCmp s op c) = scmpSem st p r x op c := by
  have hx : s.name = x := symtabLookup_name hl
  unfold scmpSem
  rw [hl]
  dsimp only
  cases c with
  | int n => rw [mkCmp, eval, evalCmp, hx]
  | masked v m => rw [mkCmp, eval, evalCmp, hx]
  | bool b => rw [mkCmp, eval, evalCmp, hx]
  | str t =>
    rw [mkCmp, eval, evalCmp.eq_def, hx]

lemma nat_beq_comm (a b : Nat) : (a == b) = (b == a) := by
  by_cases h : a = b
  · subst h; rfl
  · have h2 : ¬b = a := fun hh => h hh.symm
    simp [beq_iff_eq, h, h2]

lemma relopEval_mirror (op : expr_relop) (a b : Nat) :
    relopEval (mirrorRelop op) a b = relopEval op b a := by
  cases op with
  | eq => exact nat_beq_comm a b
  | ne =>
    simp only [relopEval, mirrorRelop, bne]
    rw [nat_beq_comm]
  | lt => rfl
  | le => rfl
  | gt => rfl
  | ge => rfl

lemma scmpSem_mirror (st : Symtab) (p : String → Nat)
    (r : String → Option Nat) (x : String) (op : expr_relop) (c : SConst) :
    scmpSem st p r x (mirrorRelop op) c = srcmpSem st p r c op x := by
  unfold scmpSem srcmpSem
  cases symtabLookup st x with
  | none => rfl
  | some s =>
    dsimp only
    cases c with
    | int n => exact relopEval_mirror op _ _
    | masked v m => exact relopEval_mirror op _ _
    | bool b => exact relopEval_mirror op _ _
    | str t =>
      dsimp only
      cases op <;> cases r t <;> rfl

lemma parseSetRest_sem_or {st : Symtab} {x : String} (p : String → Nat)
    (r : String → Option Nat) :
    ∀ (cs : List SConst) (acc e : expr),
      parseSetRest st x .eq .eor acc cs = .ok e →
        eval p r e = (eval p r acc ||
          cs.any (fun c => scmpSem st p r x .eq c)) := by
  intro cs
  induction cs with
  | nil =>
    intro acc e h
    rw [parseSetRest] at h
    cases h
    simp
  | cons c cs ih =>
    intro acc e h
    rw [parseSetRest] at h
    cases hc : parseCmp st x .eq c with
    | error m => rw [hc, except_bind_err] at h; exact absurd h (by simp)
    | ok ec =>
      rw [hc, except_bind_ok] at h
      obtain ⟨s, hl, _, hec⟩ := parseCmp_ok hc
      have := ih _ _ h
      rw [this, eval_combine_eor, hec, mkCmp_sem hl]
      simp [Bool.or_assoc]

lemma parseSetRest_sem_and {st : Symtab} {x : String} (p : String → Nat)
    (r : String → Option Nat) :
    ∀ (cs : List SConst) (acc e : expr),
      parseSetRest st x .ne .eand acc cs = .ok e →
        eval p r e = (eval p r acc &&
          cs.all (fun c => scmpSem st p r x .ne c)) := by
  intro cs
  induction cs with
  | nil =>
    intro acc e h
    rw [parseSetRest] at h
    cases h
    simp
  | cons c cs ih =>
    intro acc e h
    rw [parseSetRest] at h
    cases hc : parseCmp st x .ne c with
    | error m => rw [hc, except_bind_err] at h; exact absurd h (by simp)
    | ok ec =>
      rw [hc, except_bind_ok] at h
      obtain ⟨s, hl, _, hec⟩ := parseCmp_ok hc
      have := ih _ _ h
      rw [this, eval_combine_eand, hec, mkCmp_sem hl]
      simp [Bool.and_assoc]

/-- The parser preserves the natural meaning of the surface text. -/
theorem expr_parse_sem (st : Symtab) (p : String → Nat)
    (r : String → Option Nat) :
    ∀ (su : Surface) (e : expr), expr_parse st su = .ok e →
      eval p r e = sEval st p r su := by
  intro su
  induction su with
  | lit b =>
    intro e h
    cases h
    rfl
  | bare x =>
    intro e h
    rw [expr_parse] at h
    cases hl : symtabLookup st x with
    | none => rw [hl] at h; exact absurd h (by simp)
    | some s =>
      rw [hl] at h
      dsimp only at h
      by_cases hb : s.level = .boolean
      · rw [if_pos hb] at h
        cases h
        rw [mkCmp_sem hl, sEval, hl]
        unfold scmpSem
        rw [hl]
        rfl
      · rw [if_neg hb] at h
        exact absurd h (by simp)
  | scmp x op c =>
    intro e h
    obtain ⟨s, hl, _, he⟩ := parseCmp_ok h
    rw [he, mkCmp_sem hl]
    rfl
  | srcmp c op x =>
    intro e h
    obtain ⟨s, hl, _, he⟩ := parseCmp_ok h
    rw [he, mkCmp_sem hl, sEval, ← scmpSem_mirror]
  | srange c1 op1 x op2 c2 =>
    intro e h
    rw [expr_parse] at h
    cases h1 : parseCmp st x (mirrorRelop op1) c1 with
    | error m => rw [h1, except_bind_err] at h; exact absurd h (by simp)
    | ok e1 =>
      rw [h1, except_bind_ok] at h
      cases h2 : parseCmp st x op2 c2 with
      | error m => rw [h2, except_bind_err] at h; exact absurd h (by simp)
      | ok e2 =>
        rw [h2, except_bind_ok] at h
        cases h
        obtain ⟨s1, hl1, _, he1⟩ := parseCmp_ok h1
        obtain ⟨s2, hl2, _, he2⟩ := parseCmp_ok h2
        rw [eval_combine_eand, he1, he2, mkCmp_sem hl1, mkCmp_sem hl2,
          sEval, scmpSem_mirror]
  | sset x op cs =>
    intro e h
    rw [expr_parse.eq_def] at h
    dsimp only at h
    cases cs with
    | nil => exact absurd h (by simp)
    | cons c0 rest =>
      dsimp only at h
      by_cases heq : op = .eq
      · subst heq
        rw [if_pos rfl] at h
        cases h0 : parseCmp st x .eq c0 with
        | error m => rw [h0, except_bind_err] at h; exact absurd h (by simp)
        | ok e0 =>
          rw [h0, except_bind_ok] at h
          obtain ⟨s, hl, _, he0⟩ := parseCmp_ok h0
          rw [parseSetRest_sem_or p r rest e0 e h, he0, mkCmp_sem hl, sEval,
            if_pos rfl]
          simp
      · by_cases hne : op = .ne
        · subst hne
          rw [if_neg (by intro hh; cases hh), if_pos rfl] at h
          cases h0 : parseCmp st x .ne c0 with
          | error m => rw [h0, except_bind_err] at h; exact absurd h (by simp)
          | ok e0 =>
            rw [h0, except_bind_ok] at h
            obtain ⟨s, hl, _, he0⟩ := parseCmp_ok h0
            rw [parseSetRest_sem_and p r rest e0 e h, he0, mkCmp_sem hl,
              sEval, if_neg (by intro hh; cases hh), if_pos rfl]
            simp
        · rw [if_neg heq, if_neg hne] at h
          exact absurd h (by simp)
  | snot s ih =>
    intro e h
    rw [expr_parse] at h
    cases hs : expr_parse st s with
    | error m => rw [hs, except_bind_err] at h; exact absurd h (by simp)
    | ok es =>
      rw [hs, except_bind_ok] at h
      cases h
      rw [eval_exprNegate, ih es hs, sEval]
  | sand a b iha ihb =>
    intro e h
    rw [expr_parse] at h
    cases hsa : expr_parse st a with
    | error m => rw [hsa, except_bind_err] at h; exact absurd h (by simp)
    | ok ea =>
      rw [hsa, except_bind_ok] at h
      cases hsb : expr_parse st b with
      | error m => rw [hsb, except_bind_err] at h; exact absurd h (by simp)
      | ok eb =>
        rw [hsb, except_bind_ok] at h
        cases h
        rw [eval_combine_eand, iha ea hsa, ihb eb hsb, sEval]
  | sor a b iha ihb =>
    intro e h
    rw [expr_parse] at h
    cases hsa : expr_parse st a with
    | error m => rw [hsa, except_bind_err] at h; exact absurd h (by simp)
    | ok ea =>
      rw [hsa, except_bind_ok] at h
      cases hsb : expr_parse st b with
      | error m => rw [hsb, except_bind_err] at h; exact absurd h (by simp)
      | ok eb =>
        rw [hsb, except_bind_ok] at h
        cases h
        rw [eval_combine_eor, iha ea hsa, ihb eb hsb, sEval]

/-! ## The parser establishes well-formedness -/

lemma symtabWf_lookup {st : Symtab} {x : String} {s : expr_symbol}
    (hw : symtabWf st = true) (hl : symtabLookup st x = some s) :
    symbolWf s = true := by
  rw [symtabWf, List.all_eq_true] at hw
  exact hw s (symtabLookup_mem hl)

lemma parseCmp_wfe {st : Symtab} {x : String} {op : expr_relop} {c : SConst}
    {e : expr} (hw : symtabWf st = true) (h : parseCmp st x op c = .ok e) :
    wfe e = true := by
  obtain ⟨s, hl, hc, he⟩ := parseCmp_ok h
  rw [he]
  exact mkCmp_wfe hc (symtabWf_lookup hw hl)

lemma parseSetRest_wfe {st : Symtab} {x : String} {op : expr_relop}
    {t : expr_type} (hw : symtabWf st = true) :
    ∀ (cs : List SConst) (acc e : expr), wfe acc = true →
      parseSetRest st x op t acc cs = .ok e → wfe e = true := by
  intro cs
  induction cs with
  | nil =>
    intro acc e ha h
    rw [parseSetRest] at h
    cases h
    exact ha
  | cons c cs ih =>
    intro acc e ha h
    rw [parseSetRest] at h
    cases hc : parseCmp st x op c with
    | error m => rw [hc, except_bind_err] at h; exact absurd h (by simp)
    | ok ec =>
      rw [hc, except_bind_ok] at h
      exact ih _ _ (expr_combine_wfe t ha (parseCmp_wfe hw hc)) h

/-- Whatever the parser returns is well-formed (and so, in particular,
    honors the structural invariants). -/
theorem expr_parse_wfe {st : Symtab} (hw : symtabWf st = true) :
    ∀ (su : Surface) (e : expr), expr_parse st su = .ok e → wfe e = true := by
  intro su
  induction su with
  | lit b =>
    intro e h
    cases h
    exact wfe_bool b
  | bare x =>
    intro e h
    rw [expr_parse] at h
    cases hl : symtabLookup st x with
    | none => rw [hl] at h; exact absurd h (by simp)
    | some s =>
      rw [hl] at h
      dsimp only at h
      by_cases hb : s.level = .boolean
      · rw [if_pos hb] at h
        cases h
        exact mkCmp_wfe (by simp [cmpLegal, hb]) (symtabWf_lookup hw hl)
      · rw [if_neg hb] at h
        exact absurd h (by simp)
  | scmp x op c =>
    intro e h
    exact parseCmp_wfe hw h
  | srcmp c op x =>
    intro e h
    exact parseCmp_wfe hw h
  | srange c1 op1 x op2 c2 =>
    intro e h
    rw [expr_parse] at h
    cases h1 : parseCmp st x (mirrorRelop op1) c1 with
    | error m => rw [h1, except_bind_err] at h; exact absurd h (by simp)
    | ok e1 =>
      rw [h1, except_bind_ok] at h
      cases h2 : parseCmp st x op2 c2 with
      | error m => rw [h2, except_bind_err] at h; exact absurd h (by simp)
      | ok e2 =>
        rw [h2, except_bind_ok] at h
        cases h
        exact expr_combine_wfe .eand (parseCmp_wfe hw h1) (parseCmp_wfe hw h2)
  | sset x op cs =>
    intro e h
    rw [expr_parse.eq_def] at h
    dsimp only at h
    cases cs with
    | nil => exact absurd h (by simp)
    | cons c0 rest =>
      dsimp only at h
      by_cases heq : op = .eq
      · subst heq
        rw [if_pos rfl] at h
        cases h0 : parseCmp st x .eq c0 with
        | error m => rw [h0, except_bind_err] at h; exact absurd h (by simp)
        | ok e0 =>
          rw [h0, except_bind_ok] at h
          exact parseSetRest_wfe hw rest e0 e (parseCmp_wfe hw h0) h
      · by_cases hne : op = .ne
        · subst hne
          rw [if_neg (by intro hh; cases hh), if_pos rfl] at h
          cases h0 : parseCmp st x .ne c0 with
          | error m => rw [h0, except_bind_err] at h; exact absurd h (by simp)
          | ok e0 =>
            rw [h0, except_bind_ok] at h
            exact parseSetRest_wfe hw rest e0 e (parseCmp_wfe hw h0) h
        · rw [if_neg heq, if_neg hne] at h
          exact absurd h (by simp)
  | snot s ih =>
    intro e h
    rw [expr_parse] at h
    cases hs : expr_parse st s with
    | error m => rw [hs, except_bind_err] at h; exact absurd h (by simp)
    | ok es =>
      rw [hs, except_bind_ok] at h
      cases h
      exact exprNegate_wfe es (ih es hs)
  | sand a b iha ihb =>
    intro e h
    rw [expr_parse] at h
    cases hsa : expr_parse st a with
    | error m => rw [hsa, except_bind_err] at h; exact absurd h (by simp)
    | ok ea =>
      rw [hsa, except_bind_ok] at h
      cases hsb : expr_parse st b with
      | error m => rw [hsb, except_bind_err] at h; exact absurd h (by simp)
      | ok eb =>
        rw [hsb, except_bind_ok] at h
        cases h
        exact expr_combine_wfe .eand (iha ea hsa) (ihb eb hsb)
  | sor a b iha ihb =>
    intro e h
    rw [expr_parse] at h
    cases hsa : expr_parse st a with
    | error m => rw [hsa, except_bind_err] at h; exact absurd h (by simp)
    | ok ea =>
      rw [hsa, except_bind_ok] at h
      cases hsb : expr_parse st b with
      | error m => rw [hsb, except_bind_err] at h; exact absurd h (by simp)
      | ok eb =>
        rw [hsb, except_bind_ok] at h
        cases h
        exact expr_combine_wfe .eor (iha ea hsa) (ihb eb hsb)

/-! ## C3: the parser's desugarings -/

lemma negRelop_negRelop (op : expr_relop) : negRelop (negRelop op) = op := by
  cases op <;> rfl

mutual

theorem exprNegate_involutive : ∀ e : expr, exprNegate (exprNegate e) = e
  | .cmp s op o => by rw [exprNegate, exprNegate, negRelop_negRelop]
  | .eand es => by rw [exprNegate, exprNegate, exprNegateList_involutive es]
  | .eor es => by rw [exprNegate, exprNegate, exprNegateList_involutive es]
  | .bool b => by rw [exprNegate, exprNegate, Bool.not_not]

theorem exprNegateList_involutive :
    ∀ es : List expr, exprNegateList (exprNegateList es) = es
  | [] => rfl
  | c :: cs => by
    rw [exprNegateList, exprNegateList, exprNegate_involutive c,
      exprNegateList_involutive cs]

end

lemma sset_eq_as_or (st : Symtab) (x : String) (a b c : SConst) :
    expr_parse st (.sset x .eq [a, b, c]) =
      expr_parse st (.sor (.sor (.scmp x .eq a) (.scmp x .eq b))
        (.scmp x .eq c)) := by
  cases ha : parseCmp st x .eq a <;> cases hb : parseCmp st x .eq b <;>
    cases hc : parseCmp st x .eq c <;>
      simp [expr_parse.eq_def, parseSetRest, ha, hb, hc,
        except_bind_ok, except_bind_err]

lemma sset_ne_as_and (st : Symtab) (x : String) (a b c : SConst) :
    expr_parse st (.sset x .ne [a, b, c]) =
      expr_parse st (.sand (.sand (.scmp x .ne a) (.scmp x .ne b))
        (.scmp x .ne c)) := by
  cases ha : parseCmp st x .ne a <;> cases hb : parseCmp st x .ne b <;>
    cases hc : parseCmp st x .ne c <;>
      simp [expr_parse.eq_def, parseSetRest, ha, hb, hc,
        except_bind_ok, except_bind_err]

/-- C3: the parser's desugarings are meaning-preserving, and NOT, set
    membership, reversed comparisons and range comparisons never occur
    in the returned AST (the `expr` type has no such nodes; every parse
    result denotes exactly the surface text's natural semantics).  The
    individual rewrites: NOT by De Morgan on AND, operator flip on
    comparisons (`!(x == c)` is `x != c`), double negation, Boolean
    flip; `c R x` as `x R' c` with the mirrored operator; `a < x < b` as
    the conjunction `x > a && x < b`; `x == {a,b,c}` as a disjunction
    and `x != {a,b,c}` as a conjunction. -/
theorem C3_parse_desugarings (st : Symtab) (p : String → Nat)
    (r : String → Option Nat) :
    (∀ (su : Surface) (e : expr), expr_parse st su = .ok e →
        eval p r e = sEval st p r su) ∧
    (∀ es, exprNegate (.eand es) = .eor (exprNegateList es)) ∧
    (∀ s op o, exprNegate (.cmp s op o) = .cmp s (negRelop op) o) ∧
    negRelop .eq = .ne ∧
    (∀ e, exprNegate (exprNegate e) = e) ∧
    (∀ b, exprNegate (.bool b) = .bool (!b)) ∧
    (∀ c op x, expr_parse st (.srcmp c op x) =
        expr_parse st (.scmp x (mirrorRelop op) c)) ∧
    (∀ c1 op1 x op2 c2, expr_parse st (.srange c1 op1 x op2 c2) =
        expr_parse st (.sand (.srcmp c1 op1 x) (.scmp x op2 c2))) ∧
    (∀ x a b c, expr_parse st (.sset x .eq [a, b, c]) =
        expr_parse st (.sor (.sor (.scmp x .eq a) (.scmp x .eq b))
          (.scmp x .eq c))) ∧
    (∀ x a b c, expr_parse st (.sset x .ne [a, b, c]) =
        expr_parse st (.sand (.sand (.scmp x .ne a) (.scmp x .ne b))
          (.scmp x .ne c))) := by
  refine ⟨expr_parse_sem st p r, fun es => rfl, fun s op o => rfl, rfl,
    exprNegate_involutive, fun b => rfl, fun c op x => rfl,
    fun c1 op1 x op2 c2 => rfl, sset_eq_as_or st, sset_ne_as_and st⟩

/-! ### Concrete symbols shared by the witnesses -/

/-- An 8-bit Ordinal field named `o`. -/
def symOrd8 : expr_symbol :=
  ⟨"o", 8, some ⟨1, 8, true⟩, none, .ordinal, none, false⟩

/-- An 8-bit Nominal field named `a`. -/
def symNom8 : expr_symbol :=
  ⟨"a", 8, some ⟨2, 8, false⟩, none, .nominal, none, false⟩

/-- A Boolean predicate named `pb` expanding to `a == 1`. -/
def symBoolP : expr_symbol :=
  ⟨"pb", 1, none, some (.scmp "a" .eq (.int 1)), .boolean, none, false⟩

/-- A string field named `s0`. -/
def symStr0 : expr_symbol :=
  ⟨"s0", 0, some ⟨3, 32, false⟩, none, .nominal, none, false⟩

/-- The symbol table used by the witnesses. -/
def stW : Symtab := [symOrd8, symNom8, symBoolP, symStr0]

/-- Witness for C3 at a concrete input: `!(o < 7)` parses to `o >= 7`
    and denotes the complement of `o < 7`. -/
theorem C3_parse_desugarings_witness :
    eval (fun _ => 5) (fun _ => none)
        (.cmp symOrd8 .ge (.num 7 (fullmask 8))) =
      sEval stW (fun _ => 5) (fun _ => none)
        (.snot (.scmp "o" .lt (.int 7))) :=
  (C3_parse_desugarings stW (fun _ => 5) (fun _ => none)).1
    (.snot (.scmp "o" .lt (.int 7)))
    (.cmp symOrd8 .ge (.num 7 (fullmask 8))) rfl

/-! ## C5: operator legality at parse time -/

/-- Did parsing fail? -/
def isErr {α : Type} : Except String α → Bool
  | .error _ => true
  | .ok _ => false

lemma parseCmp_isErr {st : Symtab} {x : String} {op : expr_relop}
    {c : SConst} {s : expr_symbol} (hl : symtabLookup st x = some s)
    (hleg : cmpLegal s op c = false) :
    isErr (parseCmp st x op c) = true := by
  unfold parseCmp
  rw [hl]
  dsimp only
  rw [hleg]
  rfl

lemma relational_not_eq_ne {op : expr_relop}
    (h : relopIsRelational op = true) : op ≠ .eq ∧ op ≠ .ne := by
  cases op <;> simp_all [relopIsRelational]

/-- C5: parse-time operator legality.  (a) a relational operator on a
    non-Ordinal symbol fails; (b) `==`/`!=` (indeed, any operator) on a
    Boolean predicate with a non-Boolean-literal operand fails; (c) a
    string symbol compared with anything other than `==`/`!=` against a
    string literal fails; (d) a numeric constant that does not fit the
    symbol's width fails; (e) an Ordinal symbol admits all six
    relational operators. -/
theorem C5_parse_operator_legality (st : Symtab) (x : String)
    (s : expr_symbol) (hl : symtabLookup st x = some s) :
    (∀ op c, relopIsRelational op = true → s.level ≠ .ordinal →
        isErr (expr_parse st (.scmp x op c)) = true) ∧
    (∀ op c, s.level = .boolean → 0 < s.width → (∀ b, c ≠ SConst.bool b) →
        isErr (expr_parse st (.scmp x op c)) = true) ∧
    (∀ op c, s.width = 0 → s.level ≠ .boolean →
        ((∀ t, c ≠ SConst.str t) ∨ (op ≠ .eq ∧ op ≠ .ne)) →
        isErr (expr_parse st (.scmp x op c)) = true) ∧
    (∀ op n, 0 < s.width → 2 ^ s.width ≤ n →
        isErr (expr_parse st (.scmp x op (.int n))) = true) ∧
    (∀ op n, s.level = .ordinal → 0 < s.width → n < 2 ^ s.width →
        expr_parse st (.scmp x op (.int n)) =
          .ok (.cmp s op (.num n (fullmask s.width)))) := by
  refine ⟨?_, ?_, ?_, ?_, ?_⟩
  · intro op c hrel hord
    apply parseCmp_isErr hl
    obtain ⟨he, hn⟩ := relational_not_eq_ne hrel
    cases c <;> simp [cmpLegal, hrel, hord, he, hn]
  · intro op c hb hw hnb
    apply parseCmp_isErr hl
    cases c with
    | int n => simp [cmpLegal, hb]
    | masked v m => simp [cmpLegal, hb]
    | bool b => exact absurd rfl (hnb b)
    | str t => simp [cmpLegal]; omega
  · intro op c hw hb hcase
    apply parseCmp_isErr hl
    cases c with
    | int n => simp [cmpLegal, hw]
    | masked v m => simp [cmpLegal, hw]
    | bool b => simp [cmpLegal, hb]
    | str t =>
      rcases hcase with h1 | h2
      · exact absurd rfl (h1 t)
      · simp [cmpLegal, h2.1, h2.2]
  · intro op n hw hn
    apply parseCmp_isErr hl
    simp [cmpLegal]
    omega
  · intro op n hord hw hn
    have hleg : cmpLegal s op (.int n) = true := by
      simp [cmpLegal, hord, hn]
      omega
    unfold expr_parse parseCmp
    rw [hl]
    dsimp only
    rw [hleg]
    rfl

/-- Witness for C5 on the concrete table `stW`: `a < 3` fails (Nominal),
    `pb == 1` fails (Boolean predicate with non-literal operand),
    `s0 < "q"` fails (string symbol), `o == 256` fails (width), and
    `o < 7` succeeds. -/
theorem C5_parse_operator_legality_witness :
    isErr (expr_parse stW (.scmp "a" .lt (.int 3))) = true ∧
    isErr (expr_parse stW (.scmp "pb" .eq (.int 1))) = true ∧
    isErr (expr_parse stW (.scmp "s0" .lt (.str "q"))) = true ∧
    isErr (expr_parse stW (.scmp "o" .eq (.int 256))) = true ∧
    expr_parse stW (.scmp "o" .lt (.int 7)) =
      .ok (.cmp symOrd8 .lt (.num 7 (fullmask 8))) := by
  refine ⟨?_, ?_, ?_, ?_, ?_⟩
  · exact (C5_parse_operator_legality stW "a" symNom8 rfl).1 .lt (.int 3)
      rfl (by intro h; cases h)
  · exact (C5_parse_operator_legality stW "pb" symBoolP rfl).2.1 .eq (.int 1)
      rfl (by norm_num [symBoolP]) (by intro b h; cases h)
  · exact (C5_parse_operator_legality stW "s0" symStr0 rfl).2.2.1 .lt
      (.str "q") rfl (by intro h; cases h)
      (Or.inr ⟨(by intro h; cases h), (by intro h; cases h)⟩)
  · exact (C5_parse_operator_legality stW "o" symOrd8 rfl).2.2.2.1 .eq 256
      (by norm_num [symOrd8]) (by norm_num [symOrd8])
  · exact (C5_parse_operator_legality stW "o" symOrd8 rfl).2.2.2.2 .lt 7
      rfl (by norm_num [symOrd8]) (by norm_num [symOrd8])

/-! ## Bit-level facts for the relational lowering -/

lemma testBit_ge_width {c w j : Nat} (hc : c < 2 ^ w) (hj : w ≤ j) :
    c.testBit j = false :=
  Nat.testBit_eq_false_of_lt
    (lt_of_lt_of_le hc (Nat.pow_le_pow_right (by norm_num) hj))

lemma two_pow_sub_two_pow_testBit {w i : Nat} (hiw : i ≤ w) (j : Nat) :
    (2 ^ w - 2 ^ i).testBit j = (decide (i ≤ j) && decide (j < w)) := by
  have h1 : 2 ^ w - 2 ^ i = (2 ^ (w - i) - 1) <<< i := by
    rw [Nat.shiftLeft_eq, Nat.sub_mul, one_mul, ← Nat.pow_add]
    congr 2
    omega
  rw [h1, Nat.testBit_shiftLeft, Nat.testBit_two_pow_sub_one]
  rcases Nat.lt_or_ge j i with h | h
  · simp [show ¬(i ≤ j) by omega]
  · by_cases hjw : j < w
    · simp [show i ≤ j from h, hjw, show j - i < w - i by omega]
    · simp [show i ≤ j from h, hjw, show ¬(j - i < w - i) by omega]

lemma shiftUp_testBit (c i j : Nat) :
    ((c >>> (i + 1)) <<< (i + 1)).testBit j =
      (decide (i + 1 ≤ j) && c.testBit j) := by
  rw [Nat.testBit_shiftLeft, Nat.testBit_shiftRight]
  by_cases h : i + 1 ≤ j
  · rw [decide_eq_true h]
    simp only [Bool.true_and]
    congr 1
    omega
  · rw [decide_eq_false h]
    simp

lemma exists_high_diff {x c : Nat} (hne : x ≠ c) :
    ∃ i, x.testBit i ≠ c.testBit i ∧
      ∀ j, i < j → x.testBit j = c.testBit j := by
  have hxor : x ^^^ c ≠ 0 := Nat.xor_ne_zero.mpr hne
  obtain ⟨i, hi, hup⟩ := Nat.exists_most_significant_bit hxor
  refine ⟨i, ?_, ?_⟩
  · intro h
    rw [Nat.testBit_xor, h] at hi
    simp at hi
  · intro j hj
    have h2 := hup j hj
    rw [Nat.testBit_xor] at h2
    simpa using h2

lemma lt_iff_exists_diff {x c : Nat} :
    x < c ↔ ∃ i, x.testBit i = false ∧ c.testBit i = true ∧
      ∀ j, i < j → x.testBit j = c.testBit j := by
  constructor
  · intro hlt
    obtain ⟨i, hdiff, hup⟩ := exists_high_diff (Nat.ne_of_lt hlt)
    cases hc : c.testBit i with
    | false =>
      have hx : x.testBit i = true := by
        cases hx : x.testBit i
        · rw [hx, hc] at hdiff; exact absurd rfl hdiff
        · rfl
      have : c < x :=
        Nat.lt_of_testBit i hc hx (fun j hj => (hup j hj).symm)
      omega
    | true =>
      have hx : x.testBit i = false := by
        cases hx : x.testBit i
        · rfl
        · rw [hx, hc] at hdiff; exact absurd rfl hdiff
      exact ⟨i, hx, hc, hup⟩
  · rintro ⟨i, hx, hc, hup⟩
    exact Nat.lt_of_testBit i hx hc hup

/-- The longest-prefix decomposition of the half-open range `[0, c)` for
    a width-`w` field: one `(value, mask)` pair per set bit `i` of `c`,
    whose mask is the contiguous high-bit run `w-1 .. i` and whose value
    is `c` with bits `i` and below cleared. -/
def ltAtoms (w c : Nat) : List (Nat × Nat) :=
  (List.range w).filterMap (fun i =>
    if c.testBit i then some ((c >>> (i + 1)) <<< (i + 1), 2 ^ w - 2 ^ i)
    else none)

/-- The dual decomposition of `(c, 2^w)`: one pair per zero bit `i` of
    `c`, whose value additionally sets bit `i`. -/
def gtAtoms (w c : Nat) : List (Nat × Nat) :=
  (List.range w).filterMap (fun i =>
    if c.testBit i then none
    else some (((c >>> (i + 1)) <<< (i + 1)) ||| 2 ^ i, 2 ^ w - 2 ^ i))

lemma ltAtoms_mem {w c : Nat} {vm : Nat × Nat} :
    vm ∈ ltAtoms w c ↔ ∃ i, i < w ∧ c.testBit i = true ∧
      vm = ((c >>> (i + 1)) <<< (i + 1), 2 ^ w - 2 ^ i) := by
  unfold ltAtoms
  rw [List.mem_filterMap]
  constructor
  · rintro ⟨i, hi, hf⟩
    rw [List.mem_range] at hi
    by_cases hb : c.testBit i
    · rw [if_pos hb] at hf
      exact ⟨i, hi, hb, (Option.some_inj.mp hf).symm⟩
    · rw [if_neg hb] at hf
      exact absurd hf (by simp)
  · rintro ⟨i, hi, hb, hvm⟩
    exact ⟨i, List.mem_range.mpr hi, by rw [if_pos hb, hvm]⟩

lemma gtAtoms_mem {w c : Nat} {vm : Nat × Nat} :
    vm ∈ gtAtoms w c ↔ ∃ i, i < w ∧ c.testBit i = false ∧
      vm = (((c >>> (i + 1)) <<< (i + 1)) ||| 2 ^ i, 2 ^ w - 2 ^ i) := by
  unfold gtAtoms
  rw [List.mem_filterMap]
  constructor
  · rintro ⟨i, hi, hf⟩
    rw [List.mem_range] at hi
    by_cases hb : c.testBit i
    · rw [if_pos hb] at hf
      exact absurd hf (by simp)
    · rw [if_neg hb] at hf
      exact ⟨i, hi, by simp [hb], (Option.some_inj.mp hf).symm⟩
  · rintro ⟨i, hi, hb, hvm⟩
    exact ⟨i, List.mem_range.mpr hi, by rw [if_neg (by simp [hb]), hvm]⟩

/-- Correctness of the `[0, c)` decomposition: for `x, c < 2^w`, some
    atom matches `x` exactly when `x < c`. -/
lemma ltAtoms_covers {w c : Nat} (hc : c < 2 ^ w) {x : Nat}
    (hx : x < 2 ^ w) :
    (∃ vm ∈ ltAtoms w c, x &&& vm.2 = vm.1) ↔ x < c := by
  constructor
  · rintro ⟨vm, hmem, heq⟩
    obtain ⟨i, hiw, hbit, hvm⟩ := ltAtoms_mem.mp hmem
    rw [hvm] at heq
    dsimp only at heq
    have hbits : ∀ j, (x &&& (2 ^ w - 2 ^ i)).testBit j =
        ((c >>> (i + 1)) <<< (i + 1)).testBit j := by
      intro j
      rw [heq]
    refine lt_iff_exists_diff.mpr ⟨i, ?_, hbit, ?_⟩
    · have h := hbits i
      rw [Nat.testBit_land, two_pow_sub_two_pow_testBit (le_of_lt hiw),
        shiftUp_testBit] at h
      simpa [hiw] using h
    · intro j hj
      by_cases hjw : j < w
      · have h := hbits j
        rw [Nat.testBit_land, two_pow_sub_two_pow_testBit (le_of_lt hiw),
          shiftUp_testBit] at h
        simpa [show i ≤ j by omega, hjw, show i + 1 ≤ j by omega] using h
      · rw [testBit_ge_width hx (by omega), testBit_ge_width hc (by omega)]
  · intro hlt
    obtain ⟨i, hxi, hci, hup⟩ := lt_iff_exists_diff.mp hlt
    have hiw : i < w := by
      by_contra hge
      rw [testBit_ge_width hc (by omega)] at hci
      exact absurd hci (by simp)
    refine ⟨((c >>> (i + 1)) <<< (i + 1), 2 ^ w - 2 ^ i),
      ltAtoms_mem.mpr ⟨i, hiw, hci, rfl⟩, ?_⟩
    apply Nat.eq_of_testBit_eq
    intro j
    rw [Nat.testBit_land, two_pow_sub_two_pow_testBit (le_of_lt hiw),
      shiftUp_testBit]
    rcases Nat.lt_or_ge j i with h | h
    · simp [show ¬(i ≤ j) by omega, show ¬(i + 1 ≤ j) by omega]
    · rcases Nat.eq_or_lt_of_le h with h1 | h1
      · subst h1
        simp [hxi]
    -- j > i
      · by_cases hjw : j < w
        · simp [show i ≤ j by omega, hjw, show i + 1 ≤ j by omega,
            hup j h1]
        · have hcj : c.testBit j = false := testBit_ge_width hc (by omega)
          simp [hjw, hcj]

/-- Correctness of the `(c, 2^w)` decomposition: for `x, c < 2^w`, some
    atom matches `x` exactly when `c < x`. -/
lemma gtAtoms_covers {w c : Nat} (hc : c < 2 ^ w) {x : Nat}
    (hx : x < 2 ^ w) :
    (∃ vm ∈ gtAtoms w c, x &&& vm.2 = vm.1) ↔ c < x := by
  constructor
  · rintro ⟨vm, hmem, heq⟩
    obtain ⟨i, hiw, hbit, hvm⟩ := gtAtoms_mem.mp hmem
    rw [hvm] at heq
    dsimp only at heq
    have hbits : ∀ j, (x &&& (2 ^ w - 2 ^ i)).testBit j =
        (((c >>> (i + 1)) <<< (i + 1)) ||| 2 ^ i).testBit j := by
      intro j
      rw [heq]
    have hxi : x.testBit i = true := by
      have h := hbits i
      rw [Nat.testBit_land, two_pow_sub_two_pow_testBit (le_of_lt hiw),
        Nat.testBit_lor, shiftUp_testBit, Nat.testBit_two_pow] at h
      simpa [hiw] using h
    refine lt_iff_exists_diff.mpr ⟨i, hbit, hxi, ?_⟩
    intro j hj
    by_cases hjw : j < w
    · have h := hbits j
      rw [Nat.testBit_land, two_pow_sub_two_pow_testBit (le_of_lt hiw),
        Nat.testBit_lor, shiftUp_testBit, Nat.testBit_two_pow] at h
      have : x.testBit j = c.testBit j := by
        simpa [show i ≤ j by omega, hjw, show i + 1 ≤ j by omega,
          show ¬(i = j) by omega] using h
      exact this.symm
    · rw [testBit_ge_width hx (by omega), testBit_ge_width hc (by omega)]
  · intro hlt
    obtain ⟨i, hci, hxi, hup⟩ := lt_iff_exists_diff.mp hlt
    have hiw : i < w := by
      by_contra hge
      rw [testBit_ge_width hx (by omega)] at hxi
      exact absurd hxi (by simp)
    refine ⟨(((c >>> (i + 1)) <<< (i + 1)) ||| 2 ^ i, 2 ^ w - 2 ^ i),
      gtAtoms_mem.mpr ⟨i, hiw, hci, rfl⟩, ?_⟩
    apply Nat.eq_of_testBit_eq
    intro j
    rw [Nat.testBit_land, two_pow_sub_two_pow_testBit (le_of_lt hiw),
      Nat.testBit_lor, shiftUp_testBit, Nat.testBit_two_pow]
    rcases Nat.lt_or_ge j i with h | h
    · simp [show ¬(i ≤ j) by omega, show ¬(i + 1 ≤ j) by omega,
        show ¬(i = j) by omega]
    · rcases Nat.eq_or_lt_of_le h with h1 | h1
      · subst h1
        simp [hxi, hiw]
      · by_cases hjw : j < w
        · simp [show i ≤ j by omega, hjw, show i + 1 ≤ j by omega,
            show ¬(i = j) by omega, (hup j h1).symm]
        · have hxj : x.testBit j = false := testBit_ge_width hx (by omega)
          have hcj : c.testBit j = false := testBit_ge_width hc (by omega)
          simp [hjw, show ¬(i = j) by omega, hxj, hcj]

/-! ## Simplifier -/

/-- A single mask/value equality comparison. -/
def atomCmp (s : expr_symbol) (vm : Nat × Nat) : expr :=
  .cmp s .eq (.num vm.1 vm.2)

/-- OR of equality atoms, collapsed when fewer than two so that the
    structural invariants hold. -/
def mkOr (s : expr_symbol) : List (Nat × Nat) → expr
  | [] => .bool false
  | [vm] => atomCmp s vm
  | vms => .eor (vms.map (atomCmp s))

/-- Modelled from the spec: relational lowering (§4.4 item 3).  On an
    Ordinal symbol, `<`, `<=`, `>`, `>=` against a constant are lowered
    into a disjunction of mask/value equality comparisons that exactly
    cover the integer range, by longest-prefix decomposition. -/
def lowerCmp (s : expr_symbol) (op : expr_relop) (v : Nat) : expr :=
  match op with
  | .lt =>
    if 2 ^ s.width ≤ v then .bool true else mkOr s (ltAtoms s.width v)
  | .le =>
    if 2 ^ s.width ≤ v + 1 then .bool true
    else mkOr s (ltAtoms s.width (v + 1))
  | .gt =>
    if 2 ^ s.width ≤ v + 1 then .bool false
    else mkOr s (gtAtoms s.width v)
  | .ge =>
    if v = 0 then .bool true
    else if 2 ^ s.width ≤ v then .bool false
    else mkOr s (gtAtoms s.width (v - 1))
  | .eq => .cmp s .eq (.num v (fullmask s.width))
  | .ne => .cmp s .ne (.num v (fullmask s.width))

/-- Are these two children of one AND contradictory (same symbol, both
    `==`, same mask, different values)?  Spec §4.4 item 4 requires
    detection exactly on such tuples. -/
def isConflictPair : expr → expr → Bool
  | .cmp s1 .eq (.num v1 m1), .cmp s2 .eq (.num v2 m2) =>
    s1 == s2 && m1 == m2 && v1 != v2
  | _, _ => false

/-- Do these two children of one OR form a tautology (`x == c` next to
    `x != c` on the same mask)? -/
def isTautPair : expr → expr → Bool
  | .cmp s1 .eq (.num v1 m1), .cmp s2 .ne (.num v2 m2) =>
    s1 == s2 && m1 == m2 && v1 == v2
  | _, _ => false

/-- Conjunction annihilation test over a child list. -/
def andConflict (es : List expr) : Bool :=
  es.any (fun a => es.any (fun b => isConflictPair a b))

/-- Disjunction tautology test over a child list. -/
def orTaut (es : List expr) : Bool :=
  es.any (fun a => es.any (fun b => isTautPair a b))

/-- Fold a child list under a connective with `expr_combine`, which
    flattens nested same-type nodes and folds Boolean constants. -/
def combineAll (t : expr_type) (z : expr) (es : List expr) : expr :=
  es.foldl (expr_combine t) z

/-- Rebuild an AND from simplified children: flatten and constant-fold
    via `expr_combine`, then annihilate on an internal conflict. -/
def simplifyAnd (es : List expr) : expr :=
  match combineAll .eand (.bool true) es with
  | .eand kids => if andConflict kids then .bool false else .eand kids
  | e => e

/-- Rebuild an OR from simplified children: flatten and constant-fold
    via `expr_combine`, then collapse on an internal tautology. -/
def simplifyOr (es : List expr) : expr :=
  match combineAll .eor (.bool false) es with
  | .eor kids => if orTaut kids then .bool true else .eor kids
  | e => e

mutual

/-- Modelled from the spec: `expr_simplify` (declared at `expr.h:355`;
    body not in the sources).  Applies the meaning-preserving rewrites
    of §4.4: constant folding and flattening (via `expr_combine`),
    relational lowering on full-mask Ordinal comparisons, and the
    required annihilation/tautology detection on equal tuples. -/
def expr_simplify : expr → expr
  | .cmp s op (.num v m) =>
    if relopIsRelational op = true ∧ m = fullmask s.width ∧ 0 < s.width then
      lowerCmp s op v
    else .cmp s op (.num v m)
  | .cmp s op (.str t) => .cmp s op (.str t)
  | .eand es => simplifyAnd (simplifyList es)
  | .eor es => simplifyOr (simplifyList es)
  | .bool b => .bool b

/-- `expr_simplify` mapped over a child list. -/
def simplifyList : List expr → List expr
  | [] => []
  | e :: es => expr_simplify e :: simplifyList es

end

/-- All members of the list are well-formed. -/
def wfeList : List expr → Bool
  | [] => true
  | e :: es => wfe e && wfeList es

lemma wfeList_iff {es : List expr} :
    wfeList es = true ↔ ∀ c ∈ es, wfe c = true := by
  induction es with
  | nil => simp [wfeList]
  | cons a as ih => simp [wfeList, ih]

lemma ltAtom_ok {w c i : Nat} (hiw : i < w) (hc : c < 2 ^ w) :
    ((c >>> (i + 1)) <<< (i + 1)) &&& (2 ^ w - 2 ^ i) =
        (c >>> (i + 1)) <<< (i + 1) ∧
      2 ^ w - 2 ^ i ≠ 0 ∧ 2 ^ w - 2 ^ i < 2 ^ w := by
  refine ⟨?_, ?_, ?_⟩
  · apply Nat.eq_of_testBit_eq
    intro j
    rw [Nat.testBit_land, two_pow_sub_two_pow_testBit (le_of_lt hiw),
      shiftUp_testBit]
    by_cases h1 : i + 1 ≤ j
    · by_cases hjw : j < w
      · simp [h1, show i ≤ j by omega, hjw]
      · have hcj : c.testBit j = false := testBit_ge_width hc (by omega)
        simp [h1, hcj]
    · simp [h1]
  · have h1 : 2 ^ i < 2 ^ w := Nat.pow_lt_pow_right (by norm_num) hiw
    omega
  · have h0 : 0 < 2 ^ i := Nat.pos_pow_of_pos i (by norm_num)
    have h1 : 0 < 2 ^ w := Nat.pos_pow_of_pos w (by norm_num)
    omega

lemma gtAtom_ok {w c i : Nat} (hiw : i < w) (hc : c < 2 ^ w) :
    (((c >>> (i + 1)) <<< (i + 1)) ||| 2 ^ i) &&& (2 ^ w - 2 ^ i) =
        ((c >>> (i + 1)) <<< (i + 1)) ||| 2 ^ i ∧
      2 ^ w - 2 ^ i ≠ 0 ∧ 2 ^ w - 2 ^ i < 2 ^ w := by
  refine ⟨?_, (ltAtom_ok hiw hc).2.1, (ltAtom_ok hiw hc).2.2⟩
  apply Nat.eq_of_testBit_eq
  intro j
  rw [Nat.testBit_land, Nat.testBit_lor,
    two_pow_sub_two_pow_testBit (le_of_lt hiw), shiftUp_testBit,
    Nat.testBit_two_pow]
  by_cases hij : i = j
  · subst hij
    simp [hiw, show ¬(i + 1 ≤ i) by omega]
  · by_cases h1 : i + 1 ≤ j
    · by_cases hjw : j < w
      · simp [h1, show i ≤ j by omega, hjw, hij]
      · have hcj : c.testBit j = false := testBit_ge_width hc (by omega)
        simp [h1, hcj, hij]
    · simp [h1, hij]

lemma atomCmp_wfe {s : expr_symbol} {vm : Nat × Nat}
    (hord : s.level = .ordinal) (hw : 0 < s.width)
    (h1 : vm.1 &&& vm.2 = vm.1) (h2 : vm.2 ≠ 0) (h3 : vm.2 < 2 ^ s.width) :
    wfe (atomCmp s vm) = true := by
  rw [atomCmp, wfe_cmp_iff]
  constructor
  · simp [cmpOperandOk, h1, h2]
  · simp only [cmpWf, Bool.and_eq_true, Bool.or_eq_true, Bool.not_eq_true',
      decide_eq_true_eq, decide_eq_false_iff_not, bne_iff_ne, ne_eq,
      beq_iff_eq]
    refine ⟨⟨⟨⟨⟨hw, h2⟩, h1⟩, h3⟩, Or.inl rfl⟩, Or.inl ?_⟩
    rw [hord]
    intro h
    cases h

lemma mkOr_wfe {s : expr_symbol} (hord : s.level = .ordinal)
    (hw : 0 < s.width) {atoms : List (Nat × Nat)}
    (hok : ∀ vm ∈ atoms,
      vm.1 &&& vm.2 = vm.1 ∧ vm.2 ≠ 0 ∧ vm.2 < 2 ^ s.width) :
    wfe (mkOr s atoms) = true := by
  match atoms with
  | [] => exact wfe_bool false
  | [vm] =>
    rw [mkOr]
    obtain ⟨h1, h2, h3⟩ := hok vm (by simp)
    exact atomCmp_wfe hord hw h1 h2 h3
  | a :: b :: rest =>
    show wfe (.eor ((a :: b :: rest).map (atomCmp s))) = true
    rw [wfe_eor_parts]
    refine ⟨by simp, ?_, ?_⟩
    · rw [honorsOrKids_iff]
      intro c hc
      rw [List.mem_map] at hc
      obtain ⟨vm, hvm, hcm⟩ := hc
      obtain ⟨h1, h2, h3⟩ := hok vm hvm
      have := atomCmp_wfe hord hw h1 h2 h3
      exact ⟨by rw [← hcm]; rfl, by rw [← hcm]; exact wfe_honors this⟩
    · rw [cmpsWfList_iff]
      intro c hc
      rw [List.mem_map] at hc
      obtain ⟨vm, hvm, hcm⟩ := hc
      obtain ⟨h1, h2, h3⟩ := hok vm hvm
      have := atomCmp_wfe hord hw h1 h2 h3
      rw [← hcm]
      exact (Bool.and_eq_true _ _ ▸ this).2

lemma ltAtoms_ok {w c : Nat} (hc : c < 2 ^ w) :
    ∀ vm ∈ ltAtoms w c, vm.1 &&& vm.2 = vm.1 ∧ vm.2 ≠ 0 ∧ vm.2 < 2 ^ w := by
  intro vm hvm
  obtain ⟨i, hiw, _, hvm2⟩ := ltAtoms_mem.mp hvm
  rw [hvm2]
  exact ltAtom_ok hiw hc

lemma gtAtoms_ok {w c : Nat} (hc : c < 2 ^ w) :
    ∀ vm ∈ gtAtoms w c, vm.1 &&& vm.2 = vm.1 ∧ vm.2 ≠ 0 ∧ vm.2 < 2 ^ w := by
  intro vm hvm
  obtain ⟨i, hiw, _, hvm2⟩ := gtAtoms_mem.mp hvm
  rw [hvm2]
  exact gtAtom_ok hiw hc

/-- The lowered form of a relational comparison is well-formed. -/
lemma lowerCmp_wfe {s : expr_symbol} {op : expr_relop} {v : Nat}
    (hord : s.level = .ordinal) (hw : 0 < s.width)
    (hrel : relopIsRelational op = true) :
    wfe (lowerCmp s op v) = true := by
  cases op with
  | eq => simp [relopIsRelational] at hrel
  | ne => simp [relopIsRelational] at hrel
  | lt =>
    rw [lowerCmp]
    split
    · exact wfe_bool true
    · next hv => exact mkOr_wfe hord hw (ltAtoms_ok (by omega))
  | le =>
    rw [lowerCmp]
    split
    · exact wfe_bool true
    · next hv => exact mkOr_wfe hord hw (ltAtoms_ok (by omega))
  | gt =>
    rw [lowerCmp]
    split
    · exact wfe_bool false
    · next hv => exact mkOr_wfe hord hw (gtAtoms_ok (by omega))
  | ge =>
    rw [lowerCmp]
    split
    · exact wfe_bool true
    · split
      · exact wfe_bool false
      · next h0 hv => exact mkOr_wfe hord hw (gtAtoms_ok (by omega))

lemma combineAll_wfe (t : expr_type) :
    ∀ (es : List expr) (z : expr), wfe z = true → wfeList es = true →
      wfe (combineAll t z es) = true := by
  intro es
  induction es with
  | nil => intro z hz _; exact hz
  | cons a as ih =>
    intro z hz hl
    rw [wfeList] at hl
    simp only [Bool.and_eq_true] at hl
    rw [combineAll, List.foldl_cons]
    exact ih _ (expr_combine_wfe t hz hl.1) hl.2

lemma simplifyAnd_wfe {es : List expr} (h : wfeList es = true) :
    wfe (simplifyAnd es) = true := by
  rw [simplifyAnd]
  have hcw := combineAll_wfe .eand es (.bool true) (wfe_bool true) h
  cases hcomb : combineAll .eand (.bool true) es with
  | eand kids =>
    rw [hcomb] at hcw
    dsimp only
    by_cases hconf : andConflict kids = true
    · rw [if_pos hconf]; exact wfe_bool false
    · rw [if_neg hconf]; exact hcw
  | eor kids => rw [hcomb] at hcw; exact hcw
  | cmp s op o => rw [hcomb] at hcw; exact hcw
  | bool b => rw [hcomb] at hcw; exact hcw

lemma simplifyOr_wfe {es : List expr} (h : wfeList es = true) :
    wfe (simplifyOr es) = true := by
  rw [simplifyOr]
  have hcw := combineAll_wfe .eor es (.bool false) (wfe_bool false) h
  cases hcomb : combineAll .eor (.bool false) es with
  | eor kids =>
    rw [hcomb] at hcw
    dsimp only
    by_cases htaut : orTaut kids = true
    · rw [if_pos htaut]; exact wfe_bool true
    · rw [if_neg htaut]; exact hcw
  | eand kids => rw [hcomb] at hcw; exact hcw
  | cmp s op o => rw [hcomb] at hcw; exact hcw
  | bool b => rw [hcomb] at hcw; exact hcw

lemma wfe_cmp_ordinal {s : expr_symbol} {op : expr_relop} {v m : Nat}
    (h : wfe (.cmp s op (.num v m)) = true)
    (hrel : relopIsRelational op = true) : s.level = .ordinal := by
  have h2 := (wfe_cmp_iff.mp h).2
  rw [cmpWf] at h2
  simp only [Bool.and_eq_true, Bool.or_eq_true, Bool.not_eq_true',
    decide_eq_true_eq, decide_eq_false_iff_not] at h2
  rcases h2.1.2 with h3 | h3
  · rw [hrel] at h3; cases h3
  · exact h3.1

mutual

/-- The simplifier preserves well-formedness (and so the invariants). -/
theorem expr_simplify_wfe : ∀ e : expr, wfe e = true →
    wfe (expr_simplify e) = true
  | .cmp s op (.num v m), h => by
    rw [expr_simplify]
    split
    · next hcond =>
      obtain ⟨h1, _, h3⟩ := hcond
      exact lowerCmp_wfe (wfe_cmp_ordinal h h1) h3 h1
    · exact h
  | .cmp s op (.str t), h => by
    rw [expr_simplify]
    exact h
  | .eand es, h => by
    rw [expr_simplify]
    apply simplifyAnd_wfe
    apply simplifyList_wfe
    rw [wfeList_iff]
    exact fun c hc => ((wfe_eand_iff.mp h).2 c hc).2
  | .eor es, h => by
    rw [expr_simplify]
    apply simplifyOr_wfe
    apply simplifyList_wfe
    rw [wfeList_iff]
    exact fun c hc => ((wfe_eor_iff.mp h).2 c hc).2
  | .bool b, h => h

theorem simplifyList_wfe : ∀ es : List expr, wfeList es = true →
    wfeList (simplifyList es) = true
  | [], _ => rfl
  | e :: es, h => by
    rw [wfeList] at h
    simp only [Bool.and_eq_true] at h
    rw [simplifyList, wfeList]
    simp only [Bool.and_eq_true]
    exact ⟨expr_simplify_wfe e h.1, simplifyList_wfe es h.2⟩

end

lemma evalAny_map {α : Type} (p : String → Nat) (r : String → Option Nat)
    (f : α → expr) :
    ∀ l : List α, evalAny p r (l.map f) = l.any (fun x => eval p r (f x)) := by
  intro l
  induction l with
  | nil => rfl
  | cons a as ih => rw [List.map_cons, evalAny, ih, List.any_cons]

lemma eval_mkOr (p : String → Nat) (r : String → Option Nat)
    (s : expr_symbol) (atoms : List (Nat × Nat)) :
    eval p r (mkOr s atoms) =
      atoms.any (fun vm => p s.name &&& vm.2 == vm.1) := by
  match atoms with
  | [] => rfl
  | [vm] => simp [mkOr, atomCmp, eval, evalCmp, relopEval]
  | a :: b :: rest =>
    show eval p r (.eor ((a :: b :: rest).map (atomCmp s))) = _
    rw [eval, evalAny_map]
    simp [atomCmp, eval, evalCmp, relopEval]

lemma eval_mkOr_iff (p : String → Nat) (r : String → Option Nat)
    (s : expr_symbol) (atoms : List (Nat × Nat))
    (hm : ∀ vm ∈ atoms, vm.2 < 2 ^ s.width) :
    eval p r (mkOr s atoms) = true ↔
      ∃ vm ∈ atoms,
        (p s.name &&& fullmask s.width) &&& vm.2 = vm.1 := by
  rw [eval_mkOr]
  simp only [List.any_eq_true, beq_iff_eq]
  have hmm : ∀ m, m < 2 ^ s.width →
      p s.name &&& m = (p s.name &&& fullmask s.width) &&& m := by
    intro m hmlt
    rw [Nat.land_assoc]
    congr 1
    rw [Nat.land_comm]
    exact (land_fullmask_self hmlt).symm
  constructor
  · rintro ⟨vm, hvm, heq⟩
    exact ⟨vm, hvm, by rw [← hmm vm.2 (hm vm hvm)]; exact heq⟩
  · rintro ⟨vm, hvm, heq⟩
    exact ⟨vm, hvm, by rw [hmm vm.2 (hm vm hvm)]; exact heq⟩

/-- Semantic correctness of the relational lowering: simplifying
    `x op c` on a full-mask comparison yields an expression that holds
    exactly when the masked field value satisfies the relation. -/
lemma expr_simplify_relational_sem (p : String → Nat)
    (r : String → Option Nat) {s : expr_symbol} (hw : 0 < s.width)
    {op : expr_relop} (hrel : relopIsRelational op = true) {v : Nat}
    (hv : v < 2 ^ s.width) :
    eval p r (expr_simplify (.cmp s op (.num v (fullmask s.width)))) =
      relopEval op (p s.name &&& fullmask s.width) v := by
  rw [expr_simplify, if_pos ⟨hrel, rfl, hw⟩]
  have hxlt : p s.name &&& fullmask s.width < 2 ^ s.width := by
    unfold fullmask
    rw [Nat.and_pow_two_sub_one_eq_mod]
    exact Nat.mod_lt _ (Nat.pos_pow_of_pos _ (by norm_num))
  cases op with
  | eq => simp [relopIsRelational] at hrel
  | ne => simp [relopIsRelational] at hrel
  | lt =>
    rw [lowerCmp, if_neg (by omega), Bool.eq_iff_iff,
      eval_mkOr_iff p r s _ (fun vm hvm => (ltAtoms_ok hv vm hvm).2.2),
      ltAtoms_covers hv hxlt]
    simp only [relopEval, decide_eq_true_eq]
  | le =>
    rw [lowerCmp]
    by_cases hv1 : 2 ^ s.width ≤ v + 1
    · rw [if_pos hv1]
      have hle : p s.name &&& fullmask s.width ≤ v := by omega
      simp [eval, relopEval, hle]
    · rw [if_neg hv1, Bool.eq_iff_iff,
        eval_mkOr_iff p r s _
          (fun vm hvm => (ltAtoms_ok (show v + 1 < 2 ^ s.width by omega)
            vm hvm).2.2),
        ltAtoms_covers (show v + 1 < 2 ^ s.width by omega) hxlt]
      simp only [relopEval, decide_eq_true_eq]
      omega
  | gt =>
    rw [lowerCmp]
    by_cases hv1 : 2 ^ s.width ≤ v + 1
    · rw [if_pos hv1]
      have hle : ¬(v < p s.name &&& fullmask s.width) := by omega
      simp [eval, relopEval, hle]
    · rw [if_neg hv1, Bool.eq_iff_iff,
        eval_mkOr_iff p r s _
          (fun vm hvm => (gtAtoms_ok (show v < 2 ^ s.width by omega)
            vm hvm).2.2),
        gtAtoms_covers (show v < 2 ^ s.width by omega) hxlt]
      simp only [relopEval, decide_eq_true_eq]
  | ge =>
    rw [lowerCmp]
    by_cases hv0 : v = 0
    · rw [if_pos hv0]
      have hge : v ≤ p s.name &&& fullmask s.width := by omega
      simp [eval, relopEval, hge]
    · rw [if_neg hv0, if_neg (by omega), Bool.eq_iff_iff,
        eval_mkOr_iff p r s _
          (fun vm hvm => (gtAtoms_ok (show v - 1 < 2 ^ s.width by omega)
            vm hvm).2.2),
        gtAtoms_covers (show v - 1 < 2 ^ s.width by omega) hxlt]
      simp only [relopEval, decide_eq_true_eq]
      omega

/-! ## Annotator -/

/-- Does a comparison against a predicate test it positively?  A
    predicate comparison is `== 1`, `== 0`, `!= 1` or `!= 0`; the
    expansion is negated for the negative tests. -/
def testsTrue (op : expr_relop) : Operand → Bool
  | .num v _ => decide (op = .eq) == decide (v = 1)
  | .str _ => true

mutual

/-- Modelled from the spec: `expr_annotate` (declared at `expr.h:353`;
    body not in the sources), §4.3.  Every symbol reference gets its
    prerequisite expression (parsed under the same table, annotated
    recursively) conjoined at the point of reference, and every
    predicate reference is replaced by its parsed, recursively annotated
    expansion (negated when the comparison tests it false).  Cycle
    detection removes the symbol being expanded from the `allowed` set;
    the `fuel` argument is only a structural termination device and is
    chosen generously by `expr_annotate`. -/
def annotate (st : Symtab) : Nat → List String → expr → Except String expr
  | 0, _, _ => .error "annotation too deep"
  | fuel + 1, allowed, .cmp s op o =>
    if s.expansion.isNone ∧ s.prereqs.isNone then pure (.cmp s op o)
    else if s.name ∈ allowed then
      match s.expansion, s.prereqs with
      | some exp, some pr => do
        let pe ← expr_parse st exp
        let ae ← annotate st fuel (allowed.erase s.name) pe
        let pp ← expr_parse st pr
        let ap ← annotate st fuel (allowed.erase s.name) pp
        pure (expr_combine .eand
          (if testsTrue op o then ae else exprNegate ae) ap)
      | some exp, none => do
        let pe ← expr_parse st exp
        let ae ← annotate st fuel (allowed.erase s.name) pe
        pure (if testsTrue op o then ae else exprNegate ae)
      | none, some pr => do
        let pp ← expr_parse st pr
        let ap ← annotate st fuel (allowed.erase s.name) pp
        pure (expr_combine .eand (.cmp s op o) ap)
      | none, none => pure (.cmp s op o)
    else .error "recursive expansion of symbol"
  | fuel + 1, allowed, .eand es => do
    let es' ← annotateList st fuel allowed es
    pure (combineAll .eand (.bool true) es')
  | fuel + 1, allowed, .eor es => do
    let es' ← annotateList st fuel allowed es
    pure (combineAll .eor (.bool false) es')
  | _ + 1, _, .bool b => pure (.bool b)

/-- `annotate` over a child list. -/
def annotateList (st : Symtab) :
    Nat → List String → List expr → Except String (List expr)
  | 0, _, _ => .error "annotation too deep"
  | _ + 1, _, [] => pure []
  | fuel + 1, allowed, e :: es => do
    let e' ← annotate st fuel allowed e
    let es' ← annotateList st fuel allowed es
    pure (e' :: es')

end

mutual

/-- Node count of an expression (computable size measure). -/
def exprSize : expr → Nat
  | .cmp _ _ _ => 1
  | .eand es => 1 + exprSizeList es
  | .eor es => 1 + exprSizeList es
  | .bool _ => 1

/-- Node count of a child list. -/
def exprSizeList : List expr → Nat
  | [] => 0
  | e :: es => exprSize e + exprSizeList es + 1

end

/-- Size measure of a surface tree. -/
def surfSize : Surface → Nat
  | .lit _ => 1
  | .bare _ => 1
  | .scmp _ _ _ => 1
  | .srcmp _ _ _ => 1
  | .srange _ _ _ _ _ => 3
  | .sset _ _ cs => 2 * cs.length + 2
  | .snot s => surfSize s + 1
  | .sand a b => surfSize a + surfSize b + 1
  | .sor a b => surfSize a + surfSize b + 1

/-- Fuel cost contributed by one symbol's expansion and prerequisites. -/
def symFuelCost (s : expr_symbol) : Nat :=
  (match s.expansion with
    | some e => 4 * surfSize e
    | none => 0) +
  (match s.prereqs with
    | some e => 4 * surfSize e
    | none => 0) + 2

/-- A generous fuel bound for `annotate` (termination device only). -/
def annotFuel (st : Symtab) (e : expr) : Nat :=
  (exprSize e + st.foldl (fun acc s => acc + symFuelCost s) 0 + 2) *
    (st.length + 2) + 8

/-- Modelled from the spec: `expr_annotate`, starting from the full name
    set of the table. -/
def expr_annotate (st : Symtab) (e : expr) : Except String expr :=
  annotate st (annotFuel st e) (st.map expr_symbol.name) e

lemma combineAll_eand_wfe {st : Symtab} {es' : List expr}
    (h : wfeList es' = true) :
    wfe (combineAll .eand (.bool true) es') = true :=
  combineAll_wfe .eand es' (.bool true) (wfe_bool true) h

/-- Annotation preserves well-formedness (joint statement for the
    expression and the list functions, by induction on fuel). -/
theorem annotate_wfe_all (st : Symtab) (hw : symtabWf st = true) :
    ∀ fuel : Nat,
      (∀ (allowed : List String) (e e' : expr), wfe e = true →
        annotate st fuel allowed e = .ok e' → wfe e' = true) ∧
      (∀ (allowed : List String) (es : List expr) (es' : List expr),
        wfeList es = true →
        annotateList st fuel allowed es = .ok es' → wfeList es' = true) := by
  intro fuel
  induction fuel with
  | zero =>
    constructor
    · intro allowed e e' _ h
      rw [annotate] at h
      exact absurd h (by simp)
    · intro allowed es es' _ h
      rw [annotateList] at h
      exact absurd h (by simp)
  | succ fuel ih =>
    obtain ⟨ihA, ihL⟩ := ih
    constructor
    · intro allowed e e' he h
      cases e with
      | bool b =>
        rw [annotate] at h
        cases h
        exact he
      | eand es =>
        rw [annotate] at h
        cases hl : annotateList st fuel allowed es with
        | error m => rw [hl, except_bind_err] at h; exact absurd h (by simp)
        | ok es' =>
          rw [hl, except_bind_ok] at h
          cases h
          apply combineAll_wfe .eand _ _ (wfe_bool true)
          apply ihL allowed es _ _ hl
          rw [wfeList_iff]
          exact fun c hc => ((wfe_eand_iff.mp he).2 c hc).2
      | eor es =>
        rw [annotate] at h
        cases hl : annotateList st fuel allowed es with
        | error m => rw [hl, except_bind_err] at h; exact absurd h (by simp)
        | ok es' =>
          rw [hl, except_bind_ok] at h
          cases h
          apply combineAll_wfe .eor _ _ (wfe_bool false)
          apply ihL allowed es _ _ hl
          rw [wfeList_iff]
          exact fun c hc => ((wfe_eor_iff.mp he).2 c hc).2
      | cmp s op o =>
        rw [annotate] at h
        split at h
        · cases h
          exact he
        · split at h
          · cases hexp : s.expansion with
            | some exp =>
              cases hpr : s.prereqs with
              | some pr =>
                rw [hexp, hpr] at h
                dsimp only at h
                cases hp : expr_parse st exp with
                | error m =>
                  rw [hp, except_bind_err] at h
                  exact absurd h (by simp)
                | ok pe =>
                  rw [hp, except_bind_ok] at h
                  cases ha : annotate st fuel (allowed.erase s.name) pe with
                  | error m =>
                    rw [ha, except_bind_err] at h
                    exact absurd h (by simp)
                  | ok ae =>
                    rw [ha, except_bind_ok] at h
                    cases hp2 : expr_parse st pr with
                    | error m =>
                      rw [hp2, except_bind_err] at h
                      exact absurd h (by simp)
                    | ok pp =>
                      rw [hp2, except_bind_ok] at h
                      cases ha2 : annotate st fuel (allowed.erase s.name) pp
                        with
                      | error m =>
                        rw [ha2, except_bind_err] at h
                        exact absurd h (by simp)
                      | ok ap =>
                        rw [ha2, except_bind_ok] at h
                        cases h
                        have hae : wfe ae = true :=
                          ihA _ _ _ (expr_parse_wfe hw exp pe hp) ha
                        have hap : wfe ap = true :=
                          ihA _ _ _ (expr_parse_wfe hw pr pp hp2) ha2
                        apply expr_combine_wfe .eand _ hap
                        by_cases ht : testsTrue op o = true
                        · rw [if_pos ht]
                          exact hae
                        · rw [if_neg ht]
                          exact exprNegate_wfe ae hae
              | none =>
                rw [hexp, hpr] at h
                dsimp only at h
                cases hp : expr_parse st exp with
                | error m =>
                  rw [hp, except_bind_err] at h
                  exact absurd h (by simp)
                | ok pe =>
                  rw [hp, except_bind_ok] at h
                  cases ha : annotate st fuel (allowed.erase s.name) pe with
                  | error m =>
                    rw [ha, except_bind_err] at h
                    exact absurd h (by simp)
                  | ok ae =>
                    rw [ha, except_bind_ok] at h
                    cases h
                    have hae : wfe ae = true :=
                      ihA _ _ _ (expr_parse_wfe hw exp pe hp) ha
                    by_cases ht : testsTrue op o = true
                    · rw [if_pos ht]
                      exact hae
                    · rw [if_neg ht]
                      exact exprNegate_wfe ae hae
            | none =>
              cases hpr : s.prereqs with
              | some pr =>
                rw [hexp, hpr] at h
                dsimp only at h
                cases hp2 : expr_parse st pr with
                | error m =>
                  rw [hp2, except_bind_err] at h
                  exact absurd h (by simp)
                | ok pp =>
                  rw [hp2, except_bind_ok] at h
                  cases ha2 : annotate st fuel (allowed.erase s.name) pp with
                  | error m =>
                    rw [ha2, except_bind_err] at h
                    exact absurd h (by simp)
                  | ok ap =>
                    rw [ha2, except_bind_ok] at h
                    cases h
                    exact expr_combine_wfe .eand he
                      (ihA _ _ _ (expr_parse_wfe hw pr pp hp2) ha2)
              | none =>
                rw [hexp, hpr] at h
                cases h
                exact he
          · exact absurd h (by simp)
    · intro allowed es es' hes h
      cases es with
      | nil =>
        rw [annotateList] at h
        cases h
        rfl
      | cons e es =>
        rw [annotateList] at h
        rw [wfeList] at hes
        simp only [Bool.and_eq_true] at hes
        cases ha : annotate st fuel allowed e with
        | error m => rw [ha, except_bind_err] at h; exact absurd h (by simp)
        | ok e1 =>
          rw [ha, except_bind_ok] at h
          cases hl : annotateList st fuel allowed es with
          | error m => rw [hl, except_bind_err] at h; exact absurd h (by simp)
          | ok es1 =>
            rw [hl, except_bind_ok] at h
            cases h
            rw [wfeList]
            simp only [Bool.and_eq_true]
            exact ⟨ihA allowed e e1 hes.1 ha, ihL allowed es es1 hes.2 hl⟩

/-- `expr_annotate` preserves well-formedness. -/
theorem expr_annotate_wfe {st : Symtab} (hw : symtabWf st = true)
    {e e' : expr} (he : wfe e = true) (h : expr_annotate st e = .ok e') :
    wfe e' = true :=
  (annotate_wfe_all st hw (annotFuel st e)).1 _ e e' he h

/-! ## Normalizer -/

/-- A comparison leaf viewed as a clause atom. -/
abbrev NAtom := expr_symbol × expr_relop × Operand

/-- Meaning of one atom. -/
def evalAtom (p : String → Nat) (r : String → Option Nat) (a : NAtom) :
    Bool :=
  evalCmp p r a.1 a.2.1 a.2.2

/-- Intra-clause conflict detection (§4.5): two equality comparisons on
    the same symbol whose values disagree on the overlap of their masks
    make the clause unsatisfiable. -/
def conflictAtoms : NAtom → NAtom → Bool
  | (s1, .eq, .num v1 m1), (s2, .eq, .num v2 m2) =>
    s1 == s2 && (v1 &&& m2 != v2 &&& m1)
  | _, _ => false

/-- Does some pair of atoms of the clause conflict? -/
def clauseHasConflict (c : List NAtom) : Bool :=
  c.any (fun a => c.any (fun b => conflictAtoms a b))

/-- Per-bit expansion of `x != v` under mask `m` (§4.5): one single-bit
    equality per mask bit, testing that bit against the flipped value
    bit. -/
def neExpandAtom (s : expr_symbol) (v m : Nat) : List NAtom :=
  (List.range s.width).filterMap (fun i =>
    if m.testBit i then
      some (s, .eq, .num (if v.testBit i then 0 else 2 ^ i) (2 ^ i))
    else none)

/-- Clause list of one comparison: `!=` on a numeric operand expands to
    a disjunction of single-bit tests; everything else is one
    single-atom clause. -/
def atomDnf : NAtom → List (List NAtom)
  | (s, .ne, .num v m) => (neExpandAtom s v m).map (fun a => [a])
  | a => [[a]]

/-- Cartesian concatenation: one clause per choice of a clause from each
    child (the distribution of AND over OR). -/
def cartConcat : List (List (List NAtom)) → List (List NAtom)
  | [] => [[]]
  | cs :: rest => cs.flatMap (fun c => (cartConcat rest).map (fun t => c ++ t))

/-- Concatenation of clause lists (the flattening of nested ORs). -/
def concatAll : List (List (List NAtom)) → List (List NAtom)
  | [] => []
  | cs :: rest => cs ++ concatAll rest

/-- Post-processing of §4.5: a clause that is empty makes the whole
    disjunction true; clauses with internal conflicts are dropped;
    duplicate atoms and duplicate clauses are removed. -/
def simplifyClauses (cs : List (List NAtom)) : List (List NAtom) :=
  if cs.any (fun c => c.isEmpty) then [[]]
  else ((cs.filter (fun c => !(clauseHasConflict c))).map
    (fun c => c.dedup)).dedup

mutual

/-- Clause-list (DNF) view of an expression. -/
def dnf : expr → List (List NAtom)
  | .cmp s op o => atomDnf (s, op, o)
  | .bool true => [[]]
  | .bool false => []
  | .eand es => simplifyClauses (cartConcat (dnfList es))
  | .eor es => simplifyClauses (concatAll (dnfList es))

/-- `dnf` over a child list. -/
def dnfList : List expr → List (List (List NAtom))
  | [] => []
  | e :: es => dnf e :: dnfList es

end

/-- Rebuild a clause as an AST node (a single atom collapses to a bare
    comparison). -/
def clauseExpr : List NAtom → expr
  | [a] => .cmp a.1 a.2.1 a.2.2
  | c => .eand (c.map (fun a => .cmp a.1 a.2.1 a.2.2))

/-- Rebuild the clause list as an AST (either level may collapse). -/
def rebuildOr : List (List NAtom) → expr
  | [] => .bool false
  | [c] =>
    match c with
    | [] => .bool true
    | c => clauseExpr c
  | cs => .eor (cs.map clauseExpr)

/-- Modelled from the spec: `expr_normalize` (declared at `expr.h:356`;
    body not in the sources), §4.5: distribute AND over OR to reach
    disjunctive normal form, expand surviving `!=` comparisons into
    per-bit single-bit tests, drop unsatisfiable clauses by intra-clause
    conflict detection, and deduplicate. -/
def expr_normalize (e : expr) : expr :=
  rebuildOr (dnf e)

/-- Is this node an equality comparison?  Both numeric and string
    operands qualify: the spec's normalized form keeps `==` on string
    literals (§4.4), and the emitter's port-name resolver exists for
    exactly those atoms (§4.6). -/
def isEqCmp : expr → Bool
  | .cmp _ .eq _ => true
  | _ => false

/-- A normalized conjunction: an AND of equality comparisons, or a bare
    equality comparison (a collapsed clause). -/
def isNormAndNode : expr → Bool
  | .eand es => es.all isEqCmp
  | e => isEqCmp e

/-- Modelled from the spec: `expr_is_normalized` (declared at
    `expr.h:360`): the tree is a disjunction of conjunctions of
    equality comparisons, where either level may be collapsed to a
    single child, or a Boolean constant. -/
def expr_is_normalized : expr → Bool
  | .bool _ => true
  | .eor es => es.all isNormAndNode
  | e => isNormAndNode e

/-- Satisfaction of a clause: all atoms hold. -/
def clauseSat (p : String → Nat) (r : String → Option Nat)
    (c : List NAtom) : Bool :=
  c.all (evalAtom p r)

/-- Satisfaction of a clause list: some clause holds. -/
def dnfSat (p : String → Nat) (r : String → Option Nat)
    (cs : List (List NAtom)) : Bool :=
  cs.any (clauseSat p r)

lemma clauseSat_append (p : String → Nat) (r : String → Option Nat)
    (c1 c2 : List NAtom) :
    clauseSat p r (c1 ++ c2) = (clauseSat p r c1 && clauseSat p r c2) := by
  simp [clauseSat, List.all_append]

lemma conflict_unsat (p : String → Nat) (r : String → Option Nat)
    {c : List NAtom} (h : clauseHasConflict c = true) :
    clauseSat p r c = false := by
  rw [clauseHasConflict] at h
  simp only [List.any_eq_true] at h
  obtain ⟨a, ha, b, hb, hab⟩ := h
  by_contra hc
  rw [Bool.not_eq_false, clauseSat, List.all_eq_true] at hc
  have hea := hc a ha
  have heb := hc b hb
  obtain ⟨s1, op1, o1⟩ := a
  obtain ⟨s2, op2, o2⟩ := b
  cases op1 <;> cases o1 <;> cases op2 <;> cases o2 <;>
    simp only [conflictAtoms, Bool.false_eq_true] at hab
  next v1 m1 v2 m2 =>
    simp only [Bool.and_eq_true, beq_iff_eq, bne_iff_ne, ne_eq] at hab
    obtain ⟨hs, hne⟩ := hab
    rw [evalAtom] at hea heb
    dsimp only at hea heb
    rw [evalCmp, relopEval] at hea heb
    simp only [beq_iff_eq] at hea heb
    apply hne
    rw [← hea, ← heb, hs]
    rw [Nat.land_assoc, Nat.land_assoc, Nat.land_comm m1 m2]

lemma clauseSat_dedup (p : String → Nat) (r : String → Option Nat)
    (c : List NAtom) : clauseSat p r c.dedup = clauseSat p r c := by
  rw [Bool.eq_iff_iff]
  simp only [clauseSat, List.all_eq_true, List.mem_dedup]

lemma dnfSat_simplifyClauses (p : String → Nat) (r : String → Option Nat)
    (cs : List (List NAtom)) :
    dnfSat p r (simplifyClauses cs) = dnfSat p r cs := by
  rw [simplifyClauses]
  by_cases hc : cs.any (fun c => c.isEmpty) = true
  · rw [if_pos hc]
    simp only [List.any_eq_true] at hc
    obtain ⟨c, hcm, hce⟩ := hc
    have hc0 : c = [] := List.isEmpty_iff.mp hce
    subst hc0
    have h2 : dnfSat p r cs = true := by
      rw [dnfSat, List.any_eq_true]
      exact ⟨[], hcm, rfl⟩
    rw [h2]
    rfl
  · rw [if_neg hc, Bool.eq_iff_iff]
    simp only [dnfSat, List.any_eq_true]
    constructor
    · rintro ⟨c', hc', hsat⟩
      rw [List.mem_dedup, List.mem_map] at hc'
      obtain ⟨c, hcf, hcd⟩ := hc'
      rw [List.mem_filter] at hcf
      refine ⟨c, hcf.1, ?_⟩
      rw [← clauseSat_dedup, hcd]
      exact hsat
    · rintro ⟨c, hcm, hsat⟩
      by_cases hconf : clauseHasConflict c = true
      · rw [conflict_unsat p r hconf] at hsat
        cases hsat
      · refine ⟨c.dedup, ?_, by rw [clauseSat_dedup]; exact hsat⟩
        rw [List.mem_dedup, List.mem_map]
        exact ⟨c, List.mem_filter.mpr ⟨hcm, by simp [hconf]⟩, rfl⟩

lemma dnfSat_cartConcat (p : String → Nat) (r : String → Option Nat) :
    ∀ css : List (List (List NAtom)),
      dnfSat p r (cartConcat css) = css.all (fun cs => dnfSat p r cs) := by
  intro css
  induction css with
  | nil => rfl
  | cons cs rest ih =>
    rw [cartConcat, List.all_cons, ← ih, Bool.eq_iff_iff]
    simp only [dnfSat, List.any_eq_true, Bool.and_eq_true, List.mem_flatMap,
      List.mem_map]
    constructor
    · rintro ⟨cl, ⟨c, hc, t, ht, hcl⟩, hsat⟩
      rw [← hcl, clauseSat_append, Bool.and_eq_true] at hsat
      exact ⟨⟨c, hc, hsat.1⟩, ⟨t, ht, hsat.2⟩⟩
    · rintro ⟨⟨c, hc, hsc⟩, ⟨t, ht, hst⟩⟩
      exact ⟨c ++ t, ⟨c, hc, t, ht, rfl⟩,
        by rw [clauseSat_append, hsc, hst]; rfl⟩

lemma dnfSat_concatAll (p : String → Nat) (r : String → Option Nat) :
    ∀ css : List (List (List NAtom)),
      dnfSat p r (concatAll css) = css.any (fun cs => dnfSat p r cs) := by
  intro css
  induction css with
  | nil => rfl
  | cons cs rest ih =>
    rw [concatAll, List.any_cons, ← ih, dnfSat, List.any_append]
    rfl

lemma land_ne_iff {a v m w : Nat} (hvm : v &&& m = v) (hm : m < 2 ^ w) :
    a &&& m ≠ v ↔
      ∃ i, i < w ∧ m.testBit i = true ∧ a.testBit i ≠ v.testBit i := by
  constructor
  · intro hne
    by_contra hall
    push_neg at hall
    apply hne
    apply Nat.eq_of_testBit_eq
    intro j
    rw [Nat.testBit_land]
    cases hmj : m.testBit j with
    | false =>
      have : v.testBit j = false := by
        have := congrArg (fun n => n.testBit j) hvm
        simp only [Nat.testBit_land, hmj, Bool.and_false] at this
        exact this.symm
      simp [this]
    | true =>
      have hjw : j < w := by
        by_contra hge
        rw [testBit_ge_width hm (by omega)] at hmj
        cases hmj
      rw [hall j hjw hmj]
      have := congrArg (fun n => n.testBit j) hvm
      simp only [Nat.testBit_land, hmj, Bool.and_true] at this
      simp
  · rintro ⟨i, hiw, hmi, hdiff⟩
    intro heq
    have h2 := congrArg (fun n => n.testBit i) heq
    simp only [Nat.testBit_land, hmi, Bool.and_true] at h2
    exact hdiff h2

lemma bit_atom_sem (a v i : Nat) :
    ((a &&& 2 ^ i) == (if v.testBit i then 0 else 2 ^ i)) =
      (a.testBit i != v.testBit i) := by
  have hpow : 2 ^ i ≠ 0 := by positivity
  have hpow2 : ¬(0 = 2 ^ i) := fun h => hpow h.symm
  cases hva : v.testBit i <;> cases haa : a.testBit i <;>
    simp [Nat.and_two_pow, hva, haa, hpow, hpow2]

lemma neExpandAtom_mem {s : expr_symbol} {v m : Nat} {a : NAtom} :
    a ∈ neExpandAtom s v m ↔
      ∃ i, i < s.width ∧ m.testBit i = true ∧
        a = (s, .eq, .num (if v.testBit i then 0 else 2 ^ i) (2 ^ i)) := by
  unfold neExpandAtom
  rw [List.mem_filterMap]
  constructor
  · rintro ⟨i, hi, hf⟩
    rw [List.mem_range] at hi
    by_cases hb : m.testBit i
    · rw [if_pos hb] at hf
      exact ⟨i, hi, hb, (Option.some_inj.mp hf).symm⟩
    · rw [if_neg hb] at hf
      exact absurd hf (by simp)
  · rintro ⟨i, hi, hb, ha⟩
    exact ⟨i, List.mem_range.mpr hi, by rw [if_pos hb, ha]⟩

/-- The per-bit expansion of a well-formed `!=` comparison denotes the
    same Boolean function. -/
lemma ne_expand_sem (p : String → Nat) (r : String → Option Nat)
    {s : expr_symbol} {v m : Nat} (hvm : v &&& m = v)
    (hm : m < 2 ^ s.width) :
    dnfSat p r (atomDnf (s, .ne, .num v m)) =
      evalAtom p r (s, .ne, .num v m) := by
  rw [Bool.eq_iff_iff]
  rw [atomDnf]
  simp only [dnfSat, List.any_eq_true, List.mem_map]
  constructor
  · rintro ⟨cl, ⟨a, ha, hcl⟩, hsat⟩
    rw [← hcl] at hsat
    have hsa : evalAtom p r a = true := by
      rw [clauseSat] at hsat
      simpa using hsat
    obtain ⟨i, hiw, hmi, ha2⟩ := neExpandAtom_mem.mp ha
    rw [ha2, evalAtom] at hsa
    dsimp only at hsa
    rw [evalCmp, relopEval, bit_atom_sem] at hsa
    rw [evalAtom]
    dsimp only
    rw [evalCmp, relopEval]
    simp only [bne_iff_ne, ne_eq] at hsa ⊢
    exact (land_ne_iff hvm hm).mpr ⟨i, hiw, hmi, hsa⟩
  · intro hne
    rw [evalAtom] at hne
    dsimp only at hne
    rw [evalCmp, relopEval] at hne
    simp only [bne_iff_ne, ne_eq] at hne
    obtain ⟨i, hiw, hmi, hdiff⟩ := (land_ne_iff hvm hm).mp hne
    refine ⟨[(s, .eq, .num (if v.testBit i then 0 else 2 ^ i) (2 ^ i))],
      ⟨_, neExpandAtom_mem.mpr ⟨i, hiw, hmi, rfl⟩, rfl⟩, ?_⟩
    rw [clauseSat]
    simp only [List.all_cons, List.all_nil, Bool.and_true]
    rw [evalAtom]
    dsimp only
    rw [evalCmp, relopEval, bit_atom_sem]
    simp only [bne_iff_ne, ne_eq]
    exact hdiff

mutual

/-- The clause-list view denotes the same Boolean function (requires
    well-formedness for the `!=` expansion). -/
theorem dnf_sem (p : String → Nat) (r : String → Option Nat) :
    ∀ e : expr, wfe e = true → eval p r e = dnfSat p r (dnf e)
  | .cmp s .ne (.num v m), h => by
    have h1 := (wfe_cmp_iff.mp h).1
    have h2 := (wfe_cmp_iff.mp h).2
    rw [cmpOperandOk] at h1
    simp only [Bool.and_eq_true, bne_iff_ne, ne_eq, beq_iff_eq] at h1
    rw [cmpWf] at h2
    simp only [Bool.and_eq_true, decide_eq_true_eq] at h2
    rw [dnf]
    show evalAtom p r (s, .ne, .num v m) =
      dnfSat p r (atomDnf (s, .ne, .num v m))
    exact (ne_expand_sem p r h1.2 h2.1.1.2).symm
  | .cmp s .eq o, _ => by
    rw [dnf]
    simp [dnfSat, clauseSat, evalAtom, eval, atomDnf]
  | .cmp s .ne (.str t), _ => by
    rw [dnf]
    simp [dnfSat, clauseSat, evalAtom, eval, atomDnf]
  | .cmp s .lt o, _ => by
    rw [dnf]
    simp [dnfSat, clauseSat, evalAtom, eval, atomDnf]
  | .cmp s .le o, _ => by
    rw [dnf]
    simp [dnfSat, clauseSat, evalAtom, eval, atomDnf]
  | .cmp s .gt o, _ => by
    rw [dnf]
    simp [dnfSat, clauseSat, evalAtom, eval, atomDnf]
  | .cmp s .ge o, _ => by
    rw [dnf]
    simp [dnfSat, clauseSat, evalAtom, eval, atomDnf]
  | .eand es, h => by
    rw [dnf, eval, dnfSat_simplifyClauses, dnfSat_cartConcat]
    exact (dnfList_sem p r es (fun c hc => ((wfe_eand_iff.mp h).2 c hc).2)).1
  | .eor es, h => by
    rw [dnf, eval, dnfSat_simplifyClauses, dnfSat_concatAll]
    exact (dnfList_sem p r es (fun c hc => ((wfe_eor_iff.mp h).2 c hc).2)).2
  | .bool true, _ => rfl
  | .bool false, _ => rfl

theorem dnfList_sem (p : String → Nat) (r : String → Option Nat) :
    ∀ es : List expr, (∀ c ∈ es, wfe c = true) →
      evalAll p r es = (dnfList es).all (fun cs => dnfSat p r cs) ∧
      evalAny p r es = (dnfList es).any (fun cs => dnfSat p r cs)
  | [], _ => ⟨rfl, rfl⟩
  | e :: es, h => by
    have h1 := dnf_sem p r e (h e (List.mem_cons_self e es))
    have h2 := dnfList_sem p r es (fun c hc => h c (List.mem_cons_of_mem e hc))
    constructor
    · rw [evalAll, dnfList, List.all_cons, h1, h2.1]
    · rw [evalAny, dnfList, List.any_cons, h1, h2.2]

end

lemma evalAll_map {α : Type} (p : String → Nat) (r : String → Option Nat)
    (f : α → expr) :
    ∀ l : List α, evalAll p r (l.map f) = l.all (fun x => eval p r (f x)) := by
  intro l
  induction l with
  | nil => rfl
  | cons a as ih => rw [List.map_cons, evalAll, ih, List.all_cons]

lemma eval_clauseExpr (p : String → Nat) (r : String → Option Nat) :
    ∀ c : List NAtom, eval p r (clauseExpr c) = clauseSat p r c := by
  intro c
  match c with
  | [] => rfl
  | [a] => simp [clauseExpr, eval, clauseSat, evalAtom]
  | a :: b :: rest =>
    show eval p r (.eand ((a :: b :: rest).map
      (fun x => expr.cmp x.1 x.2.1 x.2.2))) = _
    rw [eval, evalAll_map]
    rw [clauseSat]
    congr 1

lemma eval_rebuildOr (p : String → Nat) (r : String → Option Nat) :
    ∀ cs : List (List NAtom), eval p r (rebuildOr cs) = dnfSat p r cs := by
  intro cs
  match cs with
  | [] => rfl
  | [[]] => rfl
  | [a :: c] =>
    show eval p r (clauseExpr (a :: c)) = _
    rw [eval_clauseExpr]
    simp [dnfSat]
  | c1 :: c2 :: rest =>
    show eval p r (.eor ((c1 :: c2 :: rest).map clauseExpr)) = _
    rw [eval, evalAny_map]
    rw [dnfSat]
    congr 1
    funext x
    rw [eval_clauseExpr]

/-- Normalization preserves the denoted Boolean function. -/
theorem expr_normalize_sem (p : String → Nat) (r : String → Option Nat)
    {e : expr} (h : wfe e = true) :
    eval p r (expr_normalize e) = eval p r e := by
  rw [expr_normalize, eval_rebuildOr, ← dnf_sem p r e h]

/-! ### Structural facts about the normalizer output -/

lemma simplifyClauses_atoms {cs : List (List NAtom)} {c' : List NAtom}
    (h : c' ∈ simplifyClauses cs) :
    ∀ a ∈ c', ∃ c ∈ cs, a ∈ c := by
  rw [simplifyClauses] at h
  split at h
  · rw [List.mem_singleton] at h
    subst h
    intro a ha
    exact absurd ha (List.not_mem_nil a)
  · rw [List.mem_dedup, List.mem_map] at h
    obtain ⟨c, hcf, rfl⟩ := h
    rw [List.mem_filter] at hcf
    intro a ha
    rw [List.mem_dedup] at ha
    exact ⟨c, hcf.1, ha⟩

lemma cartConcat_atoms :
    ∀ (css : List (List (List NAtom))) (c : List NAtom), c ∈ cartConcat css →
      ∀ a ∈ c, ∃ cs ∈ css, ∃ c0 ∈ cs, a ∈ c0 := by
  intro css
  induction css with
  | nil =>
    intro c hc a ha
    rw [cartConcat, List.mem_singleton] at hc
    subst hc
    exact absurd ha (List.not_mem_nil a)
  | cons cs rest ih =>
    intro c hc a ha
    rw [cartConcat, List.mem_flatMap] at hc
    obtain ⟨c0, hc0, hmap⟩ := hc
    rw [List.mem_map] at hmap
    obtain ⟨t, ht, rfl⟩ := hmap
    rw [List.mem_append] at ha
    rcases ha with ha | ha
    · exact ⟨cs, by simp, c0, hc0, ha⟩
    · obtain ⟨cs1, hcs1, c1, hc1, ha1⟩ := ih t ht a ha
      exact ⟨cs1, by simp [hcs1], c1, hc1, ha1⟩

lemma concatAll_atoms :
    ∀ (css : List (List (List NAtom))) (c : List NAtom), c ∈ concatAll css →
      ∃ cs ∈ css, c ∈ cs := by
  intro css
  induction css with
  | nil =>
    intro c hc
    exact absurd hc (List.not_mem_nil c)
  | cons cs rest ih =>
    intro c hc
    rw [concatAll, List.mem_append] at hc
    rcases hc with hc | hc
    · exact ⟨cs, by simp, hc⟩
    · obtain ⟨cs1, hcs1, hc1⟩ := ih c hc
      exact ⟨cs1, by simp [hcs1], hc1⟩

lemma dnfList_eq_map : ∀ es : List expr, dnfList es = es.map dnf := by
  intro es
  induction es with
  | nil => rfl
  | cons e es ih => rw [dnfList, ih, List.map_cons]

lemma testBit_one {i : Nat} (h : Nat.testBit 1 i = true) : i = 0 := by
  have h2 : Nat.testBit (2 ^ 0) i = true := by
    simpa using h
  rw [Nat.testBit_two_pow] at h2
  exact (of_decide_eq_true h2).symm

/-- Atoms of the `!=` expansion of a well-formed comparison are
    well-formed. -/
lemma neExpand_good {s : expr_symbol} {v m : Nat}
    (h : wfe (.cmp s .ne (.num v m)) = true) :
    ∀ a ∈ neExpandAtom s v m, wfe (.cmp a.1 a.2.1 a.2.2) = true := by
  intro a ha
  obtain ⟨i, hiw, hmi, ha2⟩ := neExpandAtom_mem.mp ha
  have h2 := (wfe_cmp_iff.mp h).2
  rw [cmpWf] at h2
  simp only [Bool.and_eq_true, Bool.or_eq_true, Bool.not_eq_true',
    decide_eq_true_eq, decide_eq_false_iff_not, bne_iff_ne, ne_eq,
    beq_iff_eq] at h2
  rw [ha2, wfe_cmp_iff]
  have hval : (if v.testBit i then 0 else 2 ^ i) &&& 2 ^ i =
      (if v.testBit i then 0 else 2 ^ i) := by
    cases hvi : v.testBit i
    · simp [Nat.and_self]
    · simp [Nat.zero_and]
  have hpow : (2 : Nat) ^ i ≠ 0 := by positivity
  constructor
  · rw [cmpOperandOk]
    simp only [Bool.and_eq_true, bne_iff_ne, ne_eq, beq_iff_eq]
    exact ⟨hpow, hval⟩
  · rw [cmpWf]
    simp only [Bool.and_eq_true, Bool.or_eq_true, Bool.not_eq_true',
      decide_eq_true_eq, decide_eq_false_iff_not, bne_iff_ne, ne_eq,
      beq_iff_eq]
    refine ⟨⟨⟨⟨⟨by omega, hpow⟩, hval⟩,
      Nat.pow_lt_pow_right (by norm_num) hiw⟩, Or.inl rfl⟩, ?_⟩
    rcases h2.2 with hb | hb
    · exact Or.inl hb
    · right
      refine ⟨?_, Or.inl trivial⟩
      have : i = 0 := testBit_one (by rw [← hb.1]; exact hmi)
      rw [this]
      rfl

mutual

/-- Every atom of the clause-list view of a well-formed expression is a
    well-formed comparison. -/
theorem dnf_atoms_good : ∀ e : expr, wfe e = true →
    ∀ c ∈ dnf e, ∀ a ∈ c, wfe (.cmp a.1 a.2.1 a.2.2) = true
  | .cmp s .ne (.num v m), h => by
    rw [dnf]
    intro c hc a ha
    rw [atomDnf, List.mem_map] at hc
    obtain ⟨a0, ha0, rfl⟩ := hc
    rw [List.mem_singleton] at ha
    subst ha
    exact neExpand_good h a ha0
  | .cmp s .eq o, h => by
    rw [dnf]
    intro c hc a ha
    simp only [atomDnf, List.mem_singleton] at hc
    subst hc
    rw [List.mem_singleton] at ha
    subst ha
    exact h
  | .cmp s .ne (.str t), h => by
    rw [dnf]
    intro c hc a ha
    simp only [atomDnf, List.mem_singleton] at hc
    subst hc
    rw [List.mem_singleton] at ha
    subst ha
    exact h
  | .cmp s .lt o, h => by
    rw [dnf]
    intro c hc a ha
    simp only [atomDnf, List.mem_singleton] at hc
    subst hc
    rw [List.mem_singleton] at ha
    subst ha
    exact h
  | .cmp s .le o, h => by
    rw [dnf]
    intro c hc a ha
    simp only [atomDnf, List.mem_singleton] at hc
    subst hc
    rw [List.mem_singleton] at ha
    subst ha
    exact h
  | .cmp s .gt o, h => by
    rw [dnf]
    intro c hc a ha
    simp only [atomDnf, List.mem_singleton] at hc
    subst hc
    rw [List.mem_singleton] at ha
    subst ha
    exact h
  | .cmp s .ge o, h => by
    rw [dnf]
    intro c hc a ha
    simp only [atomDnf, List.mem_singleton] at hc
    subst hc
    rw [List.mem_singleton] at ha
    subst ha
    exact h
  | .eand es, h => by
    rw [dnf]
    intro c hc a ha
    obtain ⟨c0, hc0, ha0⟩ := simplifyClauses_atoms hc a ha
    obtain ⟨cs, hcs, c1, hc1, ha1⟩ := cartConcat_atoms _ c0 hc0 a ha0
    exact dnfList_atoms_good es
      (fun x hx => ((wfe_eand_iff.mp h).2 x hx).2) cs hcs c1 hc1 a ha1
  | .eor es, h => by
    rw [dnf]
    intro c hc a ha
    obtain ⟨c0, hc0, ha0⟩ := simplifyClauses_atoms hc a ha
    obtain ⟨cs, hcs, hc1⟩ := concatAll_atoms _ c0 hc0
    exact dnfList_atoms_good es
      (fun x hx => ((wfe_eor_iff.mp h).2 x hx).2) cs hcs c0 hc1 a ha0
  | .bool true, _ => by
    rw [dnf]
    intro c hc a ha
    rw [List.mem_singleton] at hc
    subst hc
    exact absurd ha (List.not_mem_nil a)
  | .bool false, _ => by
    rw [dnf]
    intro c hc
    exact absurd hc (List.not_mem_nil c)

theorem dnfList_atoms_good : ∀ es : List expr,
    (∀ x ∈ es, wfe x = true) →
    ∀ cs ∈ dnfList es, ∀ c ∈ cs, ∀ a ∈ c,
      wfe (.cmp a.1 a.2.1 a.2.2) = true
  | [], _ => by
    intro cs hcs
    exact absurd hcs (List.not_mem_nil cs)
  | e :: es, h => by
    intro cs hcs c hc a ha
    rw [dnfList] at hcs
    rcases List.mem_cons.mp hcs with h1 | h1
    · subst h1
      exact dnf_atoms_good e (h e (List.mem_cons_self e es)) c hc a ha
    · exact dnfList_atoms_good es
        (fun x hx => h x (List.mem_cons_of_mem e hx)) cs h1 c hc a ha

end

/-! ### Shape of the normalizer output -/

lemma atomDnf_shape : ∀ a : NAtom, ∀ c ∈ atomDnf a, c ≠ []
  | (s, .ne, .num v m) => by
    intro c hc
    simp only [atomDnf, List.mem_map] at hc
    obtain ⟨x, _, rfl⟩ := hc
    exact List.cons_ne_nil x []
  | (s, .ne, .str t) => by
    intro c hc
    simp only [atomDnf, List.mem_singleton] at hc
    subst hc
    exact List.cons_ne_nil _ []
  | (s, .eq, o) => by
    intro c hc
    simp only [atomDnf, List.mem_singleton] at hc
    subst hc
    exact List.cons_ne_nil _ []
  | (s, .lt, o) => by
    intro c hc
    simp only [atomDnf, List.mem_singleton] at hc
    subst hc
    exact List.cons_ne_nil _ []
  | (s, .le, o) => by
    intro c hc
    simp only [atomDnf, List.mem_singleton] at hc
    subst hc
    exact List.cons_ne_nil _ []
  | (s, .gt, o) => by
    intro c hc
    simp only [atomDnf, List.mem_singleton] at hc
    subst hc
    exact List.cons_ne_nil _ []
  | (s, .ge, o) => by
    intro c hc
    simp only [atomDnf, List.mem_singleton] at hc
    subst hc
    exact List.cons_ne_nil _ []

lemma simplifyClauses_shape (cs : List (List NAtom)) :
    simplifyClauses cs = [[]] ∨ ∀ c ∈ simplifyClauses cs, c ≠ [] := by
  rw [simplifyClauses]
  by_cases hany : cs.any (fun c => c.isEmpty) = true
  · rw [if_pos hany]
    exact Or.inl rfl
  · rw [if_neg hany]
    right
    intro c hc hnil
    rw [List.mem_dedup, List.mem_map] at hc
    obtain ⟨c0, hc0, rfl⟩ := hc
    rw [List.mem_filter] at hc0
    have hc00 : c0 = [] := (List.dedup_eq_nil c0).mp hnil
    subst hc00
    exact hany (List.any_eq_true.mpr ⟨[], hc0.1, rfl⟩)

lemma dnf_shape : ∀ e : expr, dnf e = [[]] ∨ ∀ c ∈ dnf e, c ≠ []
  | .cmp s op o => Or.inr (by rw [dnf]; exact atomDnf_shape (s, op, o))
  | .bool true => Or.inl (by rw [dnf])
  | .bool false => Or.inr (by
      rw [dnf]
      intro c hc
      exact absurd hc (List.not_mem_nil c))
  | .eand es => by
    rw [dnf]
    exact simplifyClauses_shape _
  | .eor es => by
    rw [dnf]
    exact simplifyClauses_shape _

lemma clauseExpr_not_or : ∀ c : List NAtom, isOr (clauseExpr c) = false
  | [] => rfl
  | [_] => rfl
  | _ :: _ :: _ => rfl

lemma clauseExpr_wfe : ∀ c : List NAtom, c ≠ [] →
    (∀ a ∈ c, wfe (.cmp a.1 a.2.1 a.2.2) = true) →
    wfe (clauseExpr c) = true
  | [], hne, _ => absurd rfl hne
  | [a], _, h => h a (List.mem_singleton.mpr rfl)
  | a :: b :: rest, _, h => by
    show wfe (.eand ((a :: b :: rest).map
      (fun x => expr.cmp x.1 x.2.1 x.2.2))) = true
    rw [wfe_eand_iff]
    refine ⟨by rw [List.length_map, List.length_cons, List.length_cons]; omega,
      ?_⟩
    intro x hx
    rw [List.mem_map] at hx
    obtain ⟨y, hy, rfl⟩ := hx
    exact ⟨rfl, h y hy⟩

lemma rebuildOr_wfe : ∀ cs : List (List NAtom),
    (cs = [[]] ∨ ∀ c ∈ cs, c ≠ []) →
    (∀ c ∈ cs, ∀ a ∈ c, wfe (.cmp a.1 a.2.1 a.2.2) = true) →
    wfe (rebuildOr cs) = true
  | [], _, _ => wfe_bool false
  | [[]], _, _ => wfe_bool true
  | [a :: t], _, h => by
    show wfe (clauseExpr (a :: t)) = true
    exact clauseExpr_wfe (a :: t) (List.cons_ne_nil a t)
      (h (a :: t) (List.mem_singleton.mpr rfl))
  | c1 :: c2 :: rest, hsh, h => by
    show wfe (.eor ((c1 :: c2 :: rest).map clauseExpr)) = true
    rw [wfe_eor_iff]
    refine ⟨by rw [List.length_map, List.length_cons, List.length_cons]; omega,
      ?_⟩
    intro x hx
    rw [List.mem_map] at hx
    obtain ⟨c, hc, rfl⟩ := hx
    have hcne : c ≠ [] := by
      rcases hsh with h1 | h1
      · exact absurd h1 (by simp)
      · exact h1 c hc
    exact ⟨clauseExpr_not_or c, clauseExpr_wfe c hcne (h c hc)⟩

/-- Normalization of a well-formed expression is well-formed. -/
theorem expr_normalize_wfe {e : expr} (h : wfe e = true) :
    wfe (expr_normalize e) = true := by
  rw [expr_normalize]
  exact rebuildOr_wfe (dnf e) (dnf_shape e) (dnf_atoms_good e h)

mutual

/-- Every comparison leaf of the tree is an equality (`==` on any
    operand) or a numeric inequality (`!=` on a numeric operand) — the
    two forms the normalizer can bring to an equality-only DNF.  A
    string `!=` has no per-bit expansion and survives normalization. -/
def onlyEqNe : expr → Bool
  | .cmp _ .eq _ => true
  | .cmp _ .ne (.num _ _) => true
  | .cmp _ _ _ => false
  | .bool _ => true
  | .eand es => onlyEqNeList es
  | .eor es => onlyEqNeList es

/-- `onlyEqNe` over a child list. -/
def onlyEqNeList : List expr → Bool
  | [] => true
  | e :: es => onlyEqNe e && onlyEqNeList es

end

lemma onlyEqNeList_iff {es : List expr} :
    onlyEqNeList es = true ↔ ∀ c ∈ es, onlyEqNe c = true := by
  induction es with
  | nil => simp [onlyEqNeList]
  | cons a as ih => simp [onlyEqNeList, ih]

mutual

/-- If the input only tests `==` (numeric or string) and numeric `!=`,
    every atom of its clause-list view is an equality. -/
theorem dnf_atoms_eq : ∀ e : expr, onlyEqNe e = true →
    ∀ c ∈ dnf e, ∀ a ∈ c, a.2.1 = expr_relop.eq
  | .cmp s .eq o, _ => by
    rw [dnf]
    intro c hc a ha
    simp only [atomDnf, List.mem_singleton] at hc
    subst hc
    rw [List.mem_singleton] at ha
    subst ha
    rfl
  | .cmp s .ne (.num v m), _ => by
    rw [dnf]
    intro c hc a ha
    simp only [atomDnf, List.mem_map] at hc
    obtain ⟨x, hx, rfl⟩ := hc
    rw [List.mem_singleton] at ha
    subst ha
    obtain ⟨i, hi, hmi, hx2⟩ := neExpandAtom_mem.mp hx
    subst hx2
    rfl
  | .cmp s .ne (.str t), h => Bool.noConfusion h
  | .cmp s .lt o, h => Bool.noConfusion h
  | .cmp s .le o, h => Bool.noConfusion h
  | .cmp s .gt o, h => Bool.noConfusion h
  | .cmp s .ge o, h => Bool.noConfusion h
  | .bool true, _ => by
    rw [dnf]
    intro c hc a ha
    rw [List.mem_singleton] at hc
    subst hc
    exact absurd ha (List.not_mem_nil a)
  | .bool false, _ => by
    rw [dnf]
    intro c hc
    exact absurd hc (List.not_mem_nil c)
  | .eand es, h => by
    rw [dnf]
    intro c hc a ha
    obtain ⟨c0, hc0, ha0⟩ := simplifyClauses_atoms hc a ha
    obtain ⟨cs, hcs, c1, hc1, ha1⟩ := cartConcat_atoms _ c0 hc0 a ha0
    exact dnfList_atoms_eq es h cs hcs c1 hc1 a ha1
  | .eor es, h => by
    rw [dnf]
    intro c hc a ha
    obtain ⟨c0, hc0, ha0⟩ := simplifyClauses_atoms hc a ha
    obtain ⟨cs, hcs, hc1⟩ := concatAll_atoms _ c0 hc0
    exact dnfList_atoms_eq es h cs hcs c0 hc1 a ha0

/-- List form of `dnf_atoms_eq`. -/
theorem dnfList_atoms_eq : ∀ es : List expr, onlyEqNeList es = true →
    ∀ cs ∈ dnfList es, ∀ c ∈ cs, ∀ a ∈ c, a.2.1 = expr_relop.eq
  | [], _ => by
    intro cs hcs
    exact absurd hcs (List.not_mem_nil cs)
  | e :: es, h => by
    intro cs hcs c hc a ha
    rw [onlyEqNeList, Bool.and_eq_true] at h
    rw [dnfList] at hcs
    rcases List.mem_cons.mp hcs with h1 | h1
    · subst h1
      exact dnf_atoms_eq e h.1 c hc a ha
    · exact dnfList_atoms_eq es h.2 cs h1 c hc a ha

end

lemma isEqCmp_atom {a : NAtom} (h : a.2.1 = expr_relop.eq) :
    isEqCmp (.cmp a.1 a.2.1 a.2.2) = true := by
  rw [h]
  rfl

lemma clauseExpr_norm : ∀ c : List NAtom,
    (∀ a ∈ c, a.2.1 = expr_relop.eq) →
    isNormAndNode (clauseExpr c) = true
  | [], _ => rfl
  | [a], h => isEqCmp_atom (h a (List.mem_singleton.mpr rfl))
  | a :: b :: rest, h => by
    show isNormAndNode (.eand ((a :: b :: rest).map
      (fun x => expr.cmp x.1 x.2.1 x.2.2))) = true
    simp only [isNormAndNode, List.all_eq_true, List.mem_map]
    rintro x ⟨y, hy, rfl⟩
    exact isEqCmp_atom (h y hy)

lemma rebuildOr_norm : ∀ cs : List (List NAtom),
    (∀ c ∈ cs, ∀ a ∈ c, a.2.1 = expr_relop.eq) →
    expr_is_normalized (rebuildOr cs) = true
  | [], _ => rfl
  | [[]], _ => rfl
  | [[a]], h =>
    clauseExpr_norm [a] (h [a] (List.mem_singleton.mpr rfl))
  | [a :: b :: t], h =>
    clauseExpr_norm (a :: b :: t) (h (a :: b :: t) (List.mem_singleton.mpr rfl))
  | c1 :: c2 :: rest, h => by
    show expr_is_normalized (.eor ((c1 :: c2 :: rest).map clauseExpr)) = true
    simp only [expr_is_normalized, List.all_eq_true, List.mem_map]
    rintro x ⟨c, hc, rfl⟩
    exact clauseExpr_norm c (h c hc)

/-! ### C2 -/

/-- C2 counterexample: the claim quantifies over every input AST, but
    `expr_normalize` does not lower relational comparisons (that is the
    simplifier's job, §4.4/§4.5): normalizing the legal, well-formed
    expression `o < 5` returns a tree still containing `<`.  Likewise a
    string `!=` has no per-bit expansion, so normalizing the legal
    `s0 != "q"` returns a tree still containing `!=`.  In both cases
    the output is not a disjunction of conjunctions of equality
    comparisons. -/
theorem C2_counterexample :
    (wfe (.cmp symOrd8 .lt (.num 5 (fullmask 8))) = true ∧
     expr_is_normalized
       (expr_normalize (.cmp symOrd8 .lt (.num 5 (fullmask 8)))) = false) ∧
    (wfe (.cmp symStr0 .ne (.str "q")) = true ∧
     expr_is_normalized
       (expr_normalize (.cmp symStr0 .ne (.str "q"))) = false) :=
  ⟨⟨by decide, by decide⟩, ⟨by decide, by decide⟩⟩

/-- C2 (amended): for a well-formed input whose comparisons are all
    equalities (`==` on numeric or string operands) or numeric `!=`
    tests — excluding exactly the two surviving forms of the
    counterexample, relational operators and string `!=` —
    `expr_normalize` returns a tree in disjunctive normal form (a
    disjunction of conjunctions of equality comparisons, either level
    possibly collapsed when it would have fewer than two children), the
    result honors the structural invariants, and it denotes the same
    Boolean function as the input. -/
theorem C2_normalize_dnf {e : expr} (h1 : wfe e = true)
    (h2 : onlyEqNe e = true) :
    expr_is_normalized (expr_normalize e) = true ∧
    expr_honors_invariants (expr_normalize e) = true ∧
    ∀ p r, eval p r (expr_normalize e) = eval p r e := by
  refine ⟨?_, ?_, ?_⟩
  · rw [expr_normalize]
    exact rebuildOr_norm (dnf e) (dnf_atoms_eq e h2)
  · have hw := expr_normalize_wfe h1
    rw [wfe, Bool.and_eq_true] at hw
    exact hw.1
  · intro p r
    exact expr_normalize_sem p r h1

/-- Concrete input for the C2 witness: `o != 5 || s0 == "q"`,
    exercising both the numeric `!=` expansion and a surviving string
    equality. -/
def C2ex : expr :=
  .eor [.cmp symOrd8 .ne (.num 5 (fullmask 8)),
        .cmp symStr0 .eq (.str "q")]

/-- C2 (amended) at a concrete input. -/
theorem C2_normalize_dnf_witness :
    wfe C2ex = true ∧ onlyEqNe C2ex = true ∧
      (expr_is_normalized (expr_normalize C2ex) = true ∧
       expr_honors_invariants (expr_normalize C2ex) = true ∧
       ∀ p r, eval p r (expr_normalize C2ex) = eval p r C2ex) :=
  ⟨by decide, by decide, C2_normalize_dnf (by decide) (by decide)⟩

/-! ### C1 -/

/-- Modelled from the spec: the compilation pipeline (§2) — `expr_parse`
    followed by any subset, in pipeline order, of `expr_annotate`,
    `expr_simplify` and `expr_normalize` (each stage declared in
    `expr.h:345-356`; bodies not in the sources). -/
def pipeline (st : Symtab) (doAnn doSimp doNorm : Bool) (su : Surface) :
    Except String expr :=
  match expr_parse st su with
  | .error m => .error m
  | .ok e0 =>
    match (if doAnn then expr_annotate st e0 else .ok e0) with
    | .error m => .error m
    | .ok e1 =>
      .ok (if doNorm then
            expr_normalize (if doSimp then expr_simplify e1 else e1)
          else (if doSimp then expr_simplify e1 else e1))

lemma wfe_opt_stages {e0 : expr} (h0 : wfe e0 = true)
    (doSimp doNorm : Bool) :
    wfe (if doNorm then
          expr_normalize (if doSimp then expr_simplify e0 else e0)
        else (if doSimp then expr_simplify e0 else e0)) = true := by
  have h1 : wfe (if doSimp then expr_simplify e0 else e0) = true := by
    cases doSimp
    · exact h0
    · exact expr_simplify_wfe e0 h0
  cases doNorm
  · exact h1
  · exact expr_normalize_wfe h1

/-- C1: every AST obtained from `expr_parse` followed by any subset, in
    pipeline order, of `expr_annotate`, `expr_simplify` and
    `expr_normalize` honors the structural invariants: no AND node has
    an AND child, no OR node has an OR child, every AND/OR node has at
    least two children, and every comparison has a nonzero mask with
    `value & ~mask == 0`. -/
theorem C1_pipeline_honors {st : Symtab} (hw : symtabWf st = true)
    (doAnn doSimp doNorm : Bool) (su : Surface) {e : expr}
    (h : pipeline st doAnn doSimp doNorm su = .ok e) :
    expr_honors_invariants e = true := by
  rw [pipeline] at h
  cases hp : expr_parse st su with
  | error m =>
    rw [hp] at h
    exact Except.noConfusion h
  | ok e0 =>
    rw [hp] at h
    dsimp only at h
    have h0 : wfe e0 = true := expr_parse_wfe hw su e0 hp
    cases doAnn
    · injection h with h2
      subst h2
      have hwf := wfe_opt_stages h0 doSimp doNorm
      rw [wfe, Bool.and_eq_true] at hwf
      exact hwf.1
    · cases ha : expr_annotate st e0 with
      | error m =>
        rw [ha] at h
        exact Except.noConfusion h
      | ok e1 =>
        rw [ha] at h
        injection h with h2
        subst h2
        have h1 : wfe e1 = true := expr_annotate_wfe hw h0 ha
        have hwf := wfe_opt_stages h1 doSimp doNorm
        rw [wfe, Bool.and_eq_true] at hwf
        exact hwf.1

/-- C1 at a concrete input: the full pipeline on `o >= 7`. -/
theorem C1_pipeline_honors_witness :
    symtabWf stW = true ∧
    expr_honors_invariants
      ((pipeline stW true true true (.scmp "o" .ge (.int 7))).toOption.getD
        (.bool false)) = true :=
  ⟨by decide, @C1_pipeline_honors stW (by decide) true true true
    (.scmp "o" .ge (.int 7))
    ((pipeline stW true true true (.scmp "o" .ge (.int 7))).toOption.getD
      (.bool false)) (by rfl)⟩

/-! ### C10: symbol registration -/

/-- Symbol names referenced by a surface expression. -/
def surfaceSyms : Surface → List String
  | .lit _ => []
  | .bare x => [x]
  | .scmp x _ _ => [x]
  | .srcmp _ _ x => [x]
  | .srange _ _ x _ _ => [x]
  | .sset x _ _ => [x]
  | .snot s => surfaceSyms s
  | .sand a b => surfaceSyms a ++ surfaceSyms b
  | .sor a b => surfaceSyms a ++ surfaceSyms b

/-- Modelled from the spec (§4.1): a predicate's level is the min-level
    of the symbols its expansion references, with Nominal < Boolean. -/
def predLevel (st : Symtab) (expansion : Surface) : expr_level :=
  if (surfaceSyms expansion).any (fun x =>
      match symtabLookup st x with
      | some s => decide (s.level = .nominal)
      | none => false)
  then .nominal else .boolean

/-- Modelled from the spec: `expr_symtab_add_field` (`expr.h:251`;
    body not in the sources), §4.1: registers an integer field; fails on
    a name collision; Ordinal if the field descriptor is maskable, else
    Nominal. -/
def expr_symtab_add_field (st : Symtab) (nm : String) (f : mf_field)
    (pq : Option Surface) (mcp : Bool) : Except String Symtab :=
  if (symtabLookup st nm).isSome then .error (nm ++ " already registered")
  else .ok (⟨nm, f.width, some f, none,
    if f.maskable then .ordinal else .nominal, pq, mcp⟩ :: st)

/-- Modelled from the spec: `expr_symtab_add_subfield` (`expr.h:256`;
    body not in the sources), §4.1: registers a bit-range `[lo..hi]` of
    an Ordinal parent field; fails on a collision, an unknown or
    non-Ordinal parent, an empty range, or bounds past the parent
    width.  The result is always Ordinal. -/
def expr_symtab_add_subfield (st : Symtab) (nm : String)
    (pq : Option Surface) (parent : String) (lo hi : Nat) :
    Except String Symtab :=
  if (symtabLookup st nm).isSome then .error (nm ++ " already registered")
  else
    match symtabLookup st parent with
    | none => .error ("unknown parent " ++ parent)
    | some ps =>
      if ps.level ≠ .ordinal then .error (parent ++ " is not ordinal")
      else if hi < lo then .error "empty range"
      else if ps.width ≤ hi then .error "out of range"
      else .ok (⟨nm, hi - lo + 1, ps.field, none, .ordinal, pq, false⟩ :: st)

/-- Modelled from the spec: `expr_symtab_add_string` (`expr.h:259`; body
    not in the sources), §4.1: registers a string field; always
    Nominal. -/
def expr_symtab_add_string (st : Symtab) (nm : String) (f : mf_field)
    (pq : Option Surface) : Except String Symtab :=
  if (symtabLookup st nm).isSome then .error (nm ++ " already registered")
  else .ok (⟨nm, 0, some f, none, .nominal, pq, false⟩ :: st)

/-- Modelled from the spec: `expr_symtab_add_predicate` (`expr.h:262`;
    body not in the sources), §4.1: registers a predicate with an
    unparsed expansion; its level comes from `predLevel`. -/
def expr_symtab_add_predicate (st : Symtab) (nm : String)
    (expansion : Surface) : Except String Symtab :=
  if (symtabLookup st nm).isSome then .error (nm ++ " already registered")
  else .ok (⟨nm, 1, none, some expansion, predLevel st expansion, none,
    false⟩ :: st)

/-- C10: only predicates can be Boolean — a symbol registered through
    `expr_symtab_add_field` is Ordinal when the descriptor is maskable
    and Nominal otherwise (never Boolean), one registered through
    `expr_symtab_add_subfield` is always Ordinal, and one registered
    through `expr_symtab_add_string` is always Nominal. -/
theorem C10_only_predicates_boolean (st : Symtab) (nm : String)
    (f : mf_field) (pq : Option Surface) (mcp : Bool)
    (parent : String) (lo hi : Nat) :
    (∀ st', expr_symtab_add_field st nm f pq mcp = .ok st' →
      ∃ s, st' = s :: st ∧
        s.level = (if f.maskable then .ordinal else .nominal) ∧
        s.level ≠ .boolean) ∧
    (∀ st', expr_symtab_add_subfield st nm pq parent lo hi = .ok st' →
      ∃ s, st' = s :: st ∧ s.level = .ordinal) ∧
    (∀ st', expr_symtab_add_string st nm f pq = .ok st' →
      ∃ s, st' = s :: st ∧ s.level = .nominal) := by
  refine ⟨?_, ?_, ?_⟩
  · intro st' h
    rw [expr_symtab_add_field] at h
    by_cases hc : (symtabLookup st nm).isSome = true
    · rw [if_pos hc] at h
      exact Except.noConfusion h
    · rw [if_neg hc] at h
      injection h with h2
      subst h2
      refine ⟨_, rfl, rfl, ?_⟩
      cases f.maskable
      · exact fun hx => expr_level.noConfusion hx
      · exact fun hx => expr_level.noConfusion hx
  · intro st' h
    rw [expr_symtab_add_subfield] at h
    by_cases hc : (symtabLookup st nm).isSome = true
    · rw [if_pos hc] at h
      exact Except.noConfusion h
    · rw [if_neg hc] at h
      cases hp : symtabLookup st parent with
      | none =>
        rw [hp] at h
        exact Except.noConfusion h
      | some ps =>
        rw [hp] at h
        dsimp only at h
        by_cases h1 : ps.level ≠ .ordinal
        · rw [if_pos h1] at h
          exact Except.noConfusion h
        · rw [if_neg h1] at h
          by_cases h2 : hi < lo
          · rw [if_pos h2] at h
            exact Except.noConfusion h
          · rw [if_neg h2] at h
            by_cases h3 : ps.width ≤ hi
            · rw [if_pos h3] at h
              exact Except.noConfusion h
            · rw [if_neg h3] at h
              injection h with h4
              subst h4
              exact ⟨_, rfl, rfl⟩
  · intro st' h
    rw [expr_symtab_add_string] at h
    by_cases hc : (symtabLookup st nm).isSome = true
    · rw [if_pos hc] at h
      exact Except.noConfusion h
    · rw [if_neg hc] at h
      injection h with h2
      subst h2
      exact ⟨_, rfl, rfl⟩

/-- C10 at a concrete registration: an empty table plus a maskable 8-bit
    field. -/
theorem C10_only_predicates_boolean_witness :
    ∃ s, [(⟨"f1", 8, some ⟨3, 8, true⟩, none, .ordinal, none,
        false⟩ : expr_symbol)] = s :: ([] : Symtab) ∧
      s.level = (if (⟨3, 8, true⟩ : mf_field).maskable then
        expr_level.ordinal else .nominal) ∧
      s.level ≠ .boolean :=
  (C10_only_predicates_boolean [] "f1" ⟨3, 8, true⟩ none false "p" 0 0).1
    [⟨"f1", 8, some ⟨3, 8, true⟩, none, .ordinal, none, false⟩] (by rfl)

/-! ## Matcher emitter (§4.6) -/

/-- One equality constraint of an emitted match: a field with a value
    and a mask (`struct match` entry).  For a string (width-0) field the
    value is the resolved port id and the mask is unused. -/
structure MAtom where
  sym : expr_symbol
  value : Nat
  mask : Nat
deriving DecidableEq, Repr

/-- A conjunction annotation `conjunction(id, dim/k)`. -/
structure ConjTag where
  id : Nat
  dim : Nat
  k : Nat
deriving DecidableEq, Repr

/-- An emitted match record (`struct expr_match`, `expr.h:366-371`):
    the match contents plus the conjunction annotations. -/
structure expr_match where
  matchList : List MAtom
  tags : List ConjTag
deriving DecidableEq, Repr

/-- Does a packet satisfy one match constraint?  Width-0 (string)
    fields match exactly on the resolved id; numeric fields match under
    the mask. -/
def matchAtom (p : String → Nat) (a : MAtom) : Bool :=
  if a.sym.width = 0 then p a.sym.name == a.value
  else (p a.sym.name &&& a.mask) == a.value

/-- Resolve one clause atom into a match constraint: numeric operands
    are used as-is; string operands go through the port-name resolver,
    and an unresolved name fails (the clause is dropped, §4.6). -/
def resolveAtom (rf : String → Option Nat) : NAtom → Option MAtom
  | (s, _, .num v m) => some ⟨s, v, m⟩
  | (s, _, .str t) =>
    match rf t with
    | some n => some ⟨s, n, 0⟩
    | none => none

/-- Resolve a whole clause; `none` when any name is unresolved. -/
def resolveClause (rf : String → Option Nat) :
    List NAtom → Option (List MAtom)
  | [] => some []
  | a :: c =>
    match resolveAtom rf a, resolveClause rf c with
    | some b, some ms => some (b :: ms)
    | _, _ => none

/-- One entry of a grouped clause: a symbol together with its collected
    set of alternative `(value, mask)` operands (§4.6 step 1). -/
abbrev GEntry := expr_symbol × List (Nat × Nat)

/-- A grouped clause. -/
abbrev GClause := List GEntry

/-- A resolved clause as a grouped clause with singleton value sets. -/
def clauseG (ms : List MAtom) : GClause :=
  ms.map (fun a => (a.sym, [(a.value, a.mask)]))

/-- A packet satisfies an entry when it matches one of its
    alternatives. -/
def entrySem (p : String → Nat) (en : GEntry) : Bool :=
  en.2.any (fun vm => matchAtom p ⟨en.1, vm.1, vm.2⟩)

/-- A packet satisfies a grouped clause when it satisfies every
    entry. -/
def gSem (p : String → Nat) (g : GClause) : Bool :=
  g.all (entrySem p)

/-- A packet satisfies a grouped-clause list when some clause holds. -/
def gsSem (p : String → Nat) (gs : List GClause) : Bool :=
  gs.any (gSem p)

/-- Merge two grouped clauses that share the same other-symbol
    constraints (§4.6 step 1): they must agree on every entry except at
    most one, where the symbols agree; that entry's value sets are
    united. -/
def mergeG : GClause → GClause → Option GClause
  | [], [] => some []
  | e1 :: g1, e2 :: g2 =>
    if e1 == e2 then
      match mergeG g1 g2 with
      | some g => some (e1 :: g)
      | none => none
    else if e1.1 == e2.1 && g1 == g2 then
      some ((e1.1, (e1.2 ++ e2.2).dedup) :: g1)
    else none
  | _, _ => none

/-- Insert a grouped clause into a list, merging with the first
    compatible element. -/
def insertG (g : GClause) : List GClause → List GClause
  | [] => [g]
  | h :: hs =>
    match mergeG h g with
    | some m => m :: hs
    | none => h :: insertG g hs

/-- One regrouping pass over the clause list. -/
def regroupPass (gs : List GClause) : List GClause :=
  gs.foldl (fun acc g => insertG g acc) []

/-- Iterate regrouping passes while they still merge something. -/
def regroupIter : Nat → List GClause → List GClause
  | 0, gs => gs
  | n + 1, gs =>
    if (regroupPass gs).length < gs.length then
      regroupIter n (regroupPass gs)
    else regroupPass gs

/-- Collect per-symbol value sets across clauses sharing the same
    other-symbol constraints (§4.6 step 1). -/
def regroup (gs : List GClause) : List GClause :=
  regroupIter gs.length gs

/-- Is this entry a conjunctive dimension?  Only symbols not marked
    `must_crossproduct` that contribute more than one value qualify
    (§4.6 step 1 and the crossproducting comment, `expr.h:199-237`). -/
def isDim (en : GEntry) : Bool :=
  !en.1.must_crossproduct && decide (2 ≤ en.2.length)

/-- All ways to choose one alternative per entry (the cross-product of
    §4.6 steps 2 and 3). -/
def combos : GClause → List (List MAtom)
  | [] => [[]]
  | (s, vs) :: g =>
    (combos g).flatMap (fun rest => vs.map (fun vm => ⟨s, vm.1, vm.2⟩ :: rest))

/-- Matches for the conjunctive dimensions `d, d+1, ...` of a grouped
    clause: per dimension, one match per value, each also carrying the
    cross-product of the non-dimension entries and tagged
    `conjunction(id, dim/k)` (§4.6 step 3). -/
def emitDims (id k : Nat) (rest : GClause) : Nat → List GEntry → List expr_match
  | _, [] => []
  | d, (s, vs) :: ds =>
    vs.flatMap (fun vm => (combos rest).map
      (fun c => ⟨⟨s, vm.1, vm.2⟩ :: c, [⟨id, d, k⟩]⟩)) ++
    emitDims id k rest (d + 1) ds

/-- Emit one grouped clause (§4.6 steps 2-3): with fewer than two
    conjunctive dimensions, one flat match per cross-product choice;
    otherwise a fresh conjunction id and one tagged match per dimension
    value.  Returns the matches and the number of ids consumed. -/
def emitG (id : Nat) (g : GClause) : List expr_match × Nat :=
  if (g.filter isDim).length < 2 then
    ((combos g).map (fun c => ⟨c, []⟩), 0)
  else
    (emitDims id (g.filter isDim).length
      (g.filter (fun en => !(isDim en))) 1 (g.filter isDim), 1)

/-- Emit every grouped clause, threading the conjunction-id counter. -/
def emitAll (id : Nat) : List GClause → List expr_match × Nat
  | [] => ([], 0)
  | g :: gs =>
    ((emitG id g).1 ++ (emitAll (id + (emitG id g).2) gs).1,
     (emitG id g).2 + (emitAll (id + (emitG id g).2) gs).2)

/-- The distinct match contents of an emitted list (the keys of the
    output hash map). -/
def contentsOf (ms : List expr_match) : List (List MAtom) :=
  (ms.map expr_match.matchList).dedup

/-- The concatenated conjunction annotations of every emitted match
    with the given content. -/
def tagsFor (ms : List expr_match) (c : List MAtom) : List ConjTag :=
  (ms.filter (fun m => m.matchList == c)).flatMap expr_match.tags

/-- Hash-cons the emitted matches by content, merging duplicates by
    concatenating their conjunction annotations (§4.6). -/
def dedupMatches (ms : List expr_match) : List expr_match :=
  (contentsOf ms).map (fun c => ⟨c, tagsFor ms c⟩)

/-- Clause atoms of one comparison node. -/
def atomOfCmp : expr → List NAtom
  | .cmp s op o => [(s, op, o)]
  | _ => []

/-- Atoms of one normalized conjunction (a collapsed clause reads as a
    single atom). -/
def clauseAtoms : expr → List NAtom
  | .eand es => es.flatMap atomOfCmp
  | e => atomOfCmp e

/-- The top-level clauses of a normalized tree. -/
def exprClauses : expr → List (List NAtom)
  | .bool false => []
  | .bool true => [[]]
  | .eor es => es.map clauseAtoms
  | e => [clauseAtoms e]

/-- Modelled from the spec: `expr_to_matches` (declared at
    `expr.h:373-378`; body not in the sources), §4.6: resolve each
    clause's string operands (silently dropping clauses with unresolved
    names), group per-symbol value sets across clauses sharing the same
    other-symbol constraints, emit flat or conjunction-tagged matches,
    and hash-cons the results by match content.  Returns the match list
    and the number of conjunction ids allocated. -/
def expr_to_matches (e : expr) (rf : String → Option Nat) :
    List expr_match × Nat :=
  ((dedupMatches (emitAll 1
      (regroup (((exprClauses e).filterMap (resolveClause rf)).map clauseG))).1),
   (emitAll 1
      (regroup (((exprClauses e).filterMap (resolveClause rf)).map clauseG))).2)

/-- The `(id, k)` pairs named by some annotation of the match list. -/
def tagPairs (ms : List expr_match) : List (Nat × Nat) :=
  (ms.flatMap (fun m => m.tags.map (fun t => (t.id, t.k)))).dedup

/-- The set of packets accepted by an emitted match list, under the
    conjunctive-match semantics of ovs-ofctl(8): a packet is accepted
    when some un-annotated match covers it, or when, for some
    conjunction id of k dimensions, every dimension `1..k` has a match
    tagged with that dimension covering the packet. -/
def matchesSem (p : String → Nat) (ms : List expr_match) : Bool :=
  ms.any (fun m => m.tags.isEmpty && m.matchList.all (matchAtom p)) ||
  (tagPairs ms).any (fun ik =>
    decide (0 < ik.2) &&
    (List.range ik.2).all (fun d =>
      ms.any (fun m =>
        m.tags.contains ⟨ik.1, d + 1, ik.2⟩ && m.matchList.all (matchAtom p))))

/-- Does a flat (un-annotated) emitted match share its content with an
    annotated one?  Hash-consing then merges the two records and the
    flat match loses its flat status. -/
def flatTaggedCollision (ms : List expr_match) : Bool :=
  ms.any (fun m1 => m1.tags.isEmpty &&
    ms.any (fun m2 => !m2.tags.isEmpty && m1.matchList == m2.matchList))

/-! ### Reading clauses off a normalized tree -/

lemma evalAny_any (p : String → Nat) (r : String → Option Nat) :
    ∀ es : List expr, evalAny p r es = es.any (eval p r) := by
  intro es
  induction es with
  | nil => rfl
  | cons a as ih => rw [evalAny, ih, List.any_cons]

lemma evalAll_all (p : String → Nat) (r : String → Option Nat) :
    ∀ es : List expr, evalAll p r es = es.all (eval p r) := by
  intro es
  induction es with
  | nil => rfl
  | cons a as ih => rw [evalAll, ih, List.all_cons]

lemma isEqCmp_shape : ∀ {c : expr}, isEqCmp c = true →
    ∃ s o, c = .cmp s .eq o := by
  intro c h
  match c with
  | .cmp s .eq o => exact ⟨s, o, rfl⟩
  | .cmp s .ne o => exact Bool.noConfusion h
  | .cmp s .lt o => exact Bool.noConfusion h
  | .cmp s .le o => exact Bool.noConfusion h
  | .cmp s .gt o => exact Bool.noConfusion h
  | .cmp s .ge o => exact Bool.noConfusion h
  | .eand es => exact Bool.noConfusion h
  | .eor es => exact Bool.noConfusion h
  | .bool b => exact Bool.noConfusion h

lemma evalAll_atoms (p : String → Nat) (r : String → Option Nat) :
    ∀ es : List expr, (∀ x ∈ es, isEqCmp x = true) →
      evalAll p r es = (es.flatMap atomOfCmp).all (evalAtom p r) := by
  intro es
  induction es with
  | nil => intro _; rfl
  | cons x xs ih =>
    intro h
    obtain ⟨s, o, rfl⟩ := isEqCmp_shape (h x (List.mem_cons_self x xs))
    rw [evalAll, List.flatMap_cons, List.all_append,
      ih (fun y hy => h y (List.mem_cons_of_mem _ hy))]
    congr 1
    show eval p r (.cmp s .eq o) =
      (atomOfCmp (.cmp s .eq o)).all (evalAtom p r)
    rw [eval]
    simp [atomOfCmp, evalAtom]

lemma clauseAtoms_sem (p : String → Nat) (r : String → Option Nat) :
    ∀ c : expr, isNormAndNode c = true →
      eval p r c = (clauseAtoms c).all (evalAtom p r) := by
  intro c hn
  match c with
  | .cmp s op o =>
    show eval p r (.cmp s op o) = List.all [(s, op, o)] (evalAtom p r)
    rw [eval]
    simp [evalAtom]
  | .eand es =>
    show evalAll p r es = (es.flatMap atomOfCmp).all (evalAtom p r)
    exact evalAll_atoms p r es (List.all_eq_true.mp hn)
  | .eor es => exact Bool.noConfusion hn
  | .bool b => exact Bool.noConfusion hn

lemma clausesAny_sem (p : String → Nat) (r : String → Option Nat) :
    ∀ es : List expr, (∀ x ∈ es, isNormAndNode x = true) →
      es.any (eval p r) =
        (es.map clauseAtoms).any (fun c => c.all (evalAtom p r)) := by
  intro es
  induction es with
  | nil => intro _; rfl
  | cons x xs ih =>
    intro h
    rw [List.map_cons, List.any_cons, List.any_cons,
      ih (fun y hy => h y (List.mem_cons_of_mem x hy)),
      clauseAtoms_sem p r x (h x (List.mem_cons_self x xs))]

lemma exprClauses_sem (p : String → Nat) (r : String → Option Nat) :
    ∀ e : expr, expr_is_normalized e = true →
      eval p r e = (exprClauses e).any (fun c => c.all (evalAtom p r)) := by
  intro e hn
  match e with
  | .bool true => rfl
  | .bool false => rfl
  | .cmp s op o =>
    show eval p r (.cmp s op o) =
      List.any [clauseAtoms (.cmp s op o)] (fun c => c.all (evalAtom p r))
    rw [List.any_cons, List.any_nil, Bool.or_false]
    exact clauseAtoms_sem p r (.cmp s op o) hn
  | .eand es =>
    show eval p r (.eand es) =
      List.any [clauseAtoms (.eand es)] (fun c => c.all (evalAtom p r))
    rw [List.any_cons, List.any_nil, Bool.or_false]
    exact clauseAtoms_sem p r (.eand es) hn
  | .eor es =>
    show evalAny p r es = (es.map clauseAtoms).any (fun c => c.all (evalAtom p r))
    rw [evalAny_any]
    exact clausesAny_sem p r es (List.all_eq_true.mp hn)

lemma clauseAtoms_eq : ∀ c : expr, isNormAndNode c = true →
    ∀ a ∈ clauseAtoms c, a.2.1 = expr_relop.eq := by
  intro c hn
  match c with
  | .cmp s op o =>
    intro a ha
    have ha2 : a ∈ ([(s, op, o)] : List NAtom) := ha
    rw [List.mem_singleton] at ha2
    subst ha2
    obtain ⟨s1, o1, h1⟩ := isEqCmp_shape hn
    cases h1
    rfl
  | .eand es =>
    intro a ha
    rw [clauseAtoms, List.mem_flatMap] at ha
    obtain ⟨x, hx, ha2⟩ := ha
    obtain ⟨s1, o1, rfl⟩ := isEqCmp_shape (List.all_eq_true.mp hn x hx)
    have ha3 : a ∈ ([(s1, .eq, o1)] : List NAtom) := ha2
    rw [List.mem_singleton] at ha3
    subst ha3
    rfl
  | .eor es => exact Bool.noConfusion hn
  | .bool b => exact Bool.noConfusion hn

lemma exprClauses_eq : ∀ e : expr, expr_is_normalized e = true →
    ∀ c ∈ exprClauses e, ∀ a ∈ c, a.2.1 = expr_relop.eq := by
  intro e hn
  match e with
  | .bool true =>
    intro c hc
    have hc2 : c ∈ ([[]] : List (List NAtom)) := hc
    rw [List.mem_singleton] at hc2
    subst hc2
    intro a ha
    exact absurd ha (List.not_mem_nil a)
  | .bool false =>
    intro c hc
    exact absurd hc (List.not_mem_nil c)
  | .cmp s op o =>
    intro c hc
    have hc2 : c ∈ [clauseAtoms (.cmp s op o)] := hc
    rw [List.mem_singleton] at hc2
    subst hc2
    exact clauseAtoms_eq (.cmp s op o) hn
  | .eand es =>
    intro c hc
    have hc2 : c ∈ [clauseAtoms (.eand es)] := hc
    rw [List.mem_singleton] at hc2
    subst hc2
    exact clauseAtoms_eq (.eand es) hn
  | .eor es =>
    intro c hc
    rw [exprClauses, List.mem_map] at hc
    obtain ⟨x, hx, rfl⟩ := hc
    exact clauseAtoms_eq x (List.all_eq_true.mp hn x hx)

lemma clauseAtoms_wfe : ∀ c : expr, wfe c = true →
    ∀ a ∈ clauseAtoms c, wfe (.cmp a.1 a.2.1 a.2.2) = true := by
  intro c hw
  match c with
  | .cmp s op o =>
    intro a ha
    have ha2 : a ∈ ([(s, op, o)] : List NAtom) := ha
    rw [List.mem_singleton] at ha2
    subst ha2
    exact hw
  | .eand es =>
    intro a ha
    rw [clauseAtoms, List.mem_flatMap] at ha
    obtain ⟨x, hx, ha2⟩ := ha
    have hxw : wfe x = true := ((wfe_eand_iff.mp hw).2 x hx).2
    match x with
    | .cmp s1 op1 o1 =>
      have ha3 : a ∈ ([(s1, op1, o1)] : List NAtom) := ha2
      rw [List.mem_singleton] at ha3
      subst ha3
      exact hxw
    | .eand es1 => exact absurd ha2 (List.not_mem_nil a)
    | .eor es1 => exact absurd ha2 (List.not_mem_nil a)
    | .bool b1 => exact absurd ha2 (List.not_mem_nil a)
  | .eor es =>
    intro a ha
    exact absurd ha (List.not_mem_nil a)
  | .bool b =>
    intro a ha
    exact absurd ha (List.not_mem_nil a)

lemma exprClauses_wfe : ∀ e : expr, wfe e = true →
    ∀ c ∈ exprClauses e, ∀ a ∈ c, wfe (.cmp a.1 a.2.1 a.2.2) = true := by
  intro e hw
  match e with
  | .bool true =>
    intro c hc
    have hc2 : c ∈ ([[]] : List (List NAtom)) := hc
    rw [List.mem_singleton] at hc2
    subst hc2
    intro a ha
    exact absurd ha (List.not_mem_nil a)
  | .bool false =>
    intro c hc
    exact absurd hc (List.not_mem_nil c)
  | .cmp s op o =>
    intro c hc
    have hc2 : c ∈ [clauseAtoms (.cmp s op o)] := hc
    rw [List.mem_singleton] at hc2
    subst hc2
    exact clauseAtoms_wfe (.cmp s op o) hw
  | .eand es =>
    intro c hc
    have hc2 : c ∈ [clauseAtoms (.eand es)] := hc
    rw [List.mem_singleton] at hc2
    subst hc2
    exact clauseAtoms_wfe (.eand es) hw
  | .eor es =>
    intro c hc
    rw [exprClauses, List.mem_map] at hc
    obtain ⟨x, hx, rfl⟩ := hc
    exact clauseAtoms_wfe x ((wfe_eor_iff.mp hw).2 x hx).2

/-! ### Resolution semantics -/

lemma resolveAtom_some_sem {rf : String → Option Nat} (p : String → Nat)
    {a : NAtom} {b : MAtom}
    (hwf : wfe (.cmp a.1 a.2.1 a.2.2) = true) (heq : a.2.1 = .eq)
    (h : resolveAtom rf a = some b) :
    matchAtom p b = evalAtom p rf a := by
  obtain ⟨s, op, o⟩ := a
  cases heq
  match o with
  | .num v m =>
    rw [resolveAtom] at h
    injection h with h2
    subst h2
    have hwidth : 0 < s.width := by
      have h2 := (wfe_cmp_iff.mp hwf).2
      rw [cmpWf] at h2
      simp only [Bool.and_eq_true, decide_eq_true_eq] at h2
      exact h2.1.1.1.1.1
    show (if s.width = 0 then p s.name == v
      else (p s.name &&& m) == v) = evalAtom p rf (s, .eq, .num v m)
    rw [if_neg (by omega)]
    rfl
  | .str t =>
    have hwidth : s.width = 0 := by
      have h2 := (wfe_cmp_iff.mp hwf).2
      rw [cmpWf] at h2
      simp only [Bool.and_eq_true, decide_eq_true_eq] at h2
      exact h2.1
    rw [resolveAtom] at h
    cases ht : rf t with
    | none =>
      rw [ht] at h
      exact Option.noConfusion h
    | some n =>
      rw [ht] at h
      injection h with h2
      subst h2
      rw [matchAtom, if_pos hwidth]
      show (p s.name == n) = evalCmp p rf s .eq (.str t)
      rw [evalCmp.eq_def]
      dsimp only
      rw [ht]

lemma resolveAtom_none_sem {rf : String → Option Nat} (p : String → Nat)
    {a : NAtom} (heq : a.2.1 = .eq)
    (h : resolveAtom rf a = none) :
    evalAtom p rf a = false := by
  obtain ⟨s, op, o⟩ := a
  cases heq
  match o with
  | .num v m =>
    rw [resolveAtom] at h
    exact Option.noConfusion h
  | .str t =>
    rw [resolveAtom] at h
    cases ht : rf t with
    | some n =>
      rw [ht] at h
      exact Option.noConfusion h
    | none =>
      show evalCmp p rf s .eq (.str t) = false
      rw [evalCmp.eq_def]
      dsimp only
      rw [ht]

lemma resolveClause_some_sem {rf : String → Option Nat} (p : String → Nat) :
    ∀ {c : List NAtom} {ms : List MAtom},
      (∀ a ∈ c, wfe (.cmp a.1 a.2.1 a.2.2) = true) →
      (∀ a ∈ c, a.2.1 = .eq) →
      resolveClause rf c = some ms →
      ms.all (matchAtom p) = c.all (evalAtom p rf) := by
  intro c
  induction c with
  | nil =>
    intro ms _ _ h
    rw [resolveClause] at h
    injection h with h2
    subst h2
    rfl
  | cons a c ih =>
    intro ms hwf heq h
    rw [resolveClause] at h
    cases hb : resolveAtom rf a with
    | none =>
      rw [hb] at h
      exact Option.noConfusion h
    | some b =>
      rw [hb] at h
      cases hc : resolveClause rf c with
      | none =>
        rw [hc] at h
        exact Option.noConfusion h
      | some ms1 =>
        rw [hc] at h
        injection h with h2
        subst h2
        rw [List.all_cons, List.all_cons,
          resolveAtom_some_sem p (hwf a (List.mem_cons_self a c))
            (heq a (List.mem_cons_self a c)) hb,
          ih (fun x hx => hwf x (List.mem_cons_of_mem a hx))
            (fun x hx => heq x (List.mem_cons_of_mem a hx)) hc]

lemma resolveClause_none_sem {rf : String → Option Nat} (p : String → Nat) :
    ∀ {c : List NAtom},
      (∀ a ∈ c, a.2.1 = .eq) →
      resolveClause rf c = none →
      c.all (evalAtom p rf) = false := by
  intro c
  induction c with
  | nil =>
    intro _ h
    rw [resolveClause] at h
    exact Option.noConfusion h
  | cons a c ih =>
    intro heq h
    rw [resolveClause] at h
    rw [List.all_cons]
    cases hb : resolveAtom rf a with
    | none =>
      rw [resolveAtom_none_sem p (heq a (List.mem_cons_self a c)) hb,
        Bool.false_and]
    | some b =>
      rw [hb] at h
      cases hc : resolveClause rf c with
      | some ms1 =>
        rw [hc] at h
        exact Option.noConfusion h
      | none =>
        rw [ih (fun x hx => heq x (List.mem_cons_of_mem a hx)) hc,
          Bool.and_false]

lemma resolved_sem {rf : String → Option Nat} (p : String → Nat) :
    ∀ cs : List (List NAtom),
      (∀ c ∈ cs, ∀ a ∈ c, wfe (.cmp a.1 a.2.1 a.2.2) = true) →
      (∀ c ∈ cs, ∀ a ∈ c, a.2.1 = .eq) →
      (cs.filterMap (resolveClause rf)).any (fun ms => ms.all (matchAtom p)) =
        cs.any (fun c => c.all (evalAtom p rf)) := by
  intro cs
  induction cs with
  | nil => intro _ _; rfl
  | cons c cs ih =>
    intro hwf heq
    rw [List.any_cons]
    cases hc : resolveClause rf c with
    | none =>
      rw [List.filterMap_cons, hc,
        ih (fun x hx => hwf x (List.mem_cons_of_mem c hx))
          (fun x hx => heq x (List.mem_cons_of_mem c hx)),
        resolveClause_none_sem p (heq c (List.mem_cons_self c cs)) hc,
        Bool.false_or]
    | some ms =>
      rw [List.filterMap_cons, hc, List.any_cons,
        ih (fun x hx => hwf x (List.mem_cons_of_mem c hx))
          (fun x hx => heq x (List.mem_cons_of_mem c hx)),
        resolveClause_some_sem p (hwf c (List.mem_cons_self c cs))
          (heq c (List.mem_cons_self c cs)) hc]

/-! ### Grouping semantics -/

lemma any_dedup {α : Type} [DecidableEq α] (l : List α) (f : α → Bool) :
    l.dedup.any f = l.any f := by
  rw [Bool.eq_iff_iff, List.any_eq_true, List.any_eq_true]
  constructor
  · rintro ⟨x, hx, hf⟩
    exact ⟨x, List.mem_dedup.mp hx, hf⟩
  · rintro ⟨x, hx, hf⟩
    exact ⟨x, List.mem_dedup.mpr hx, hf⟩

lemma clauseG_sem (p : String → Nat) :
    ∀ ms : List MAtom, gSem p (clauseG ms) = ms.all (matchAtom p) := by
  intro ms
  induction ms with
  | nil => rfl
  | cons a ms ih =>
    show (entrySem p (a.sym, [(a.value, a.mask)]) && gSem p (clauseG ms)) =
      (matchAtom p a && ms.all (matchAtom p))
    rw [ih]
    congr 1
    show (matchAtom p ⟨a.sym, a.value, a.mask⟩ || false) = matchAtom p a
    rw [Bool.or_false]

lemma mergeG_sem (p : String → Nat) :
    ∀ g1 g2 g : GClause, mergeG g1 g2 = some g →
      gSem p g = (gSem p g1 || gSem p g2)
  | [], [], g, h => by
    injection h with h2
    subst h2
    rfl
  | [], e2 :: g2, g, h => Option.noConfusion h
  | e1 :: g1, [], g, h => Option.noConfusion h
  | e1 :: g1, e2 :: g2, g, h => by
    rw [mergeG] at h
    by_cases hbe : (e1 == e2) = true
    · rw [if_pos hbe] at h
      cases hm : mergeG g1 g2 with
      | none =>
        rw [hm] at h
        exact Option.noConfusion h
      | some gg =>
        rw [hm] at h
        injection h with h2
        subst h2
        have he : e1 = e2 := eq_of_beq hbe
        subst he
        show (entrySem p e1 && gSem p gg) = _
        rw [mergeG_sem p g1 g2 gg hm]
        show _ = ((entrySem p e1 && gSem p g1) || (entrySem p e1 && gSem p g2))
        cases entrySem p e1 <;> simp
    · rw [if_neg hbe] at h
      by_cases hc2 : (e1.1 == e2.1 && g1 == g2) = true
      · rw [if_pos hc2] at h
        injection h with h2
        subst h2
        rw [Bool.and_eq_true] at hc2
        have hs : e1.1 = e2.1 := eq_of_beq hc2.1
        have hg : g1 = g2 := eq_of_beq hc2.2
        subst hg
        show (entrySem p (e1.1, (e1.2 ++ e2.2).dedup) && gSem p g1) =
          ((entrySem p e1 && gSem p g1) || (entrySem p e2 && gSem p g1))
        have hd : entrySem p (e1.1, (e1.2 ++ e2.2).dedup) =
            (entrySem p e1 || entrySem p e2) := by
          show ((e1.2 ++ e2.2).dedup.any
            (fun vm => matchAtom p ⟨e1.1, vm.1, vm.2⟩)) = _
          rw [any_dedup, List.any_append]
          congr 1
          rw [hs]
          rfl
        rw [hd]
        cases entrySem p e1 <;> cases entrySem p e2 <;> simp
      · rw [if_neg hc2] at h
        exact Option.noConfusion h

lemma insertG_sem (p : String → Nat) :
    ∀ (g : GClause) (hs : List GClause),
      gsSem p (insertG g hs) = (gSem p g || gsSem p hs) := by
  intro g hs
  induction hs with
  | nil => rfl
  | cons h hs ih =>
    rw [insertG]
    cases hm : mergeG h g with
    | some m =>
      show (gSem p m || gsSem p hs) = _
      rw [mergeG_sem p h g m hm]
      show _ = (gSem p g || (gSem p h || gsSem p hs))
      cases gSem p g <;> cases gSem p h <;> simp
    | none =>
      show (gSem p h || gsSem p (insertG g hs)) = _
      rw [ih]
      show _ = (gSem p g || (gSem p h || gsSem p hs))
      cases gSem p g <;> cases gSem p h <;> simp

lemma foldl_insertG_sem (p : String → Nat) :
    ∀ (gs : List GClause) (acc : List GClause),
      gsSem p (gs.foldl (fun a g => insertG g a) acc) =
        (gsSem p acc || gsSem p gs) := by
  intro gs
  induction gs with
  | nil =>
    intro acc
    show gsSem p acc = (gsSem p acc || false)
    rw [Bool.or_false]
  | cons g gs ih =>
    intro acc
    rw [List.foldl_cons, ih, insertG_sem]
    show _ = (gsSem p acc || (gSem p g || gsSem p gs))
    cases gsSem p acc <;> cases gSem p g <;> simp

lemma regroupPass_sem (p : String → Nat) (gs : List GClause) :
    gsSem p (regroupPass gs) = gsSem p gs := by
  rw [regroupPass, foldl_insertG_sem]
  show (false || _) = _
  rw [Bool.false_or]

lemma regroupIter_sem (p : String → Nat) :
    ∀ (n : Nat) (gs : List GClause), gsSem p (regroupIter n gs) = gsSem p gs
  | 0, gs => rfl
  | n + 1, gs => by
    rw [regroupIter]
    by_cases hlt : (regroupPass gs).length < gs.length
    · rw [if_pos hlt, regroupIter_sem p n (regroupPass gs), regroupPass_sem]
    · rw [if_neg hlt, regroupPass_sem]

lemma regroup_sem (p : String → Nat) (gs : List GClause) :
    gsSem p (regroup gs) = gsSem p gs := by
  rw [regroup, regroupIter_sem]

/-! ### Emission semantics for one grouped clause -/

lemma combos_sem (p : String → Nat) :
    ∀ g : GClause, (combos g).any (fun c => c.all (matchAtom p)) = gSem p g := by
  intro g
  induction g with
  | nil => rfl
  | cons en g ih =>
    obtain ⟨s, vs⟩ := en
    rw [Bool.eq_iff_iff, List.any_eq_true]
    constructor
    · rintro ⟨c, hc, hall⟩
      rw [combos, List.mem_flatMap] at hc
      obtain ⟨rest, hrest, hmap⟩ := hc
      rw [List.mem_map] at hmap
      obtain ⟨vm, hvm, rfl⟩ := hmap
      rw [List.all_cons, Bool.and_eq_true] at hall
      show (entrySem p (s, vs) && gSem p g) = true
      rw [Bool.and_eq_true]
      refine ⟨List.any_eq_true.mpr ⟨vm, hvm, hall.1⟩, ?_⟩
      rw [← ih]
      exact List.any_eq_true.mpr ⟨rest, hrest, hall.2⟩
    · intro h
      have h2 : (entrySem p (s, vs) && gSem p g) = true := h
      rw [Bool.and_eq_true] at h2
      obtain ⟨vm, hvm, hmm⟩ := List.any_eq_true.mp h2.1
      rw [← ih] at h2
      obtain ⟨rest, hrest, hallrest⟩ := List.any_eq_true.mp h2.2
      refine ⟨(⟨s, vm.1, vm.2⟩ : MAtom) :: rest, ?_, ?_⟩
      · rw [combos, List.mem_flatMap]
        exact ⟨rest, hrest, List.mem_map.mpr ⟨vm, hvm, rfl⟩⟩
      · rw [List.all_cons, Bool.and_eq_true]
        exact ⟨hmm, hallrest⟩

lemma all_filter_partition {α : Type} (f q : α → Bool) :
    ∀ l : List α,
      l.all f =
        ((l.filter q).all f && (l.filter (fun x => !(q x))).all f) := by
  intro l
  induction l with
  | nil => rfl
  | cons a l ih =>
    rw [List.all_cons, ih]
    cases hq : q a
    · rw [List.filter_cons_of_neg (by simp [hq]),
        List.filter_cons_of_pos (by simp [hq]), List.all_cons]
      cases f a <;> cases (l.filter q).all f <;>
        cases (l.filter (fun x => !(q x))).all f <;> simp
    · rw [List.filter_cons_of_pos (by simp [hq]),
        List.filter_cons_of_neg (by simp [hq]), List.all_cons]
      cases f a <;> cases (l.filter q).all f <;>
        cases (l.filter (fun x => !(q x))).all f <;> simp

lemma emitDims_mem (id k : Nat) (rest : GClause) :
    ∀ (ds : List GEntry) (d : Nat) (m : expr_match),
      m ∈ emitDims id k rest d ds ↔
        ∃ j, ∃ hj : j < ds.length, ∃ vm ∈ (ds.get ⟨j, hj⟩).2,
          ∃ c ∈ combos rest,
            m = ⟨⟨(ds.get ⟨j, hj⟩).1, vm.1, vm.2⟩ :: c, [⟨id, d + j, k⟩]⟩ := by
  intro ds
  induction ds with
  | nil =>
    intro d m
    constructor
    · intro h
      exact absurd h (List.not_mem_nil m)
    · rintro ⟨j, hj, _⟩
      exact absurd hj (Nat.not_lt_zero j)
  | cons en ds ih =>
    obtain ⟨s, vs⟩ := en
    intro d m
    rw [emitDims, List.mem_append, List.mem_flatMap]
    constructor
    · rintro (⟨vm, hvm, hmap⟩ | htail)
      · rw [List.mem_map] at hmap
        obtain ⟨c, hc, rfl⟩ := hmap
        refine ⟨0, Nat.succ_pos _, vm, hvm, c, hc, ?_⟩
        rw [Nat.add_zero]
        rfl
      · obtain ⟨j, hj, vm, hvm, c, hc, rfl⟩ := (ih (d + 1) m).mp htail
        refine ⟨j + 1, by rw [List.length_cons]; omega, vm, hvm, c, hc, ?_⟩
        have harith : d + (j + 1) = d + 1 + j := by omega
        rw [harith]
        rfl
    · rintro ⟨j, hj, vm, hvm, c, hc, rfl⟩
      match j, hj with
      | 0, _ =>
        left
        refine ⟨vm, hvm, List.mem_map.mpr ⟨c, hc, ?_⟩⟩
        rw [Nat.add_zero]
        rfl
      | j + 1, hj =>
        right
        refine (ih (d + 1) _).mpr
          ⟨j, by rw [List.length_cons] at hj; omega, vm, hvm, c, hc, ?_⟩
        have harith : d + (j + 1) = d + 1 + j := by omega
        rw [harith]
        rfl

lemma emitG_tags {p : Nat} {g : GClause} {m : expr_match} {t : ConjTag}
    (hm : m ∈ (emitG p g).1) (ht : t ∈ m.tags) :
    t.id = p ∧ t.k = (g.filter isDim).length ∧ 2 ≤ t.k ∧
      1 ≤ t.dim ∧ t.dim ≤ t.k ∧ (emitG p g).2 = 1 := by
  rw [emitG] at hm ⊢
  by_cases hlen : (g.filter isDim).length < 2
  · rw [if_pos hlen] at hm
    rw [List.mem_map] at hm
    obtain ⟨c, _, rfl⟩ := hm
    exact absurd ht (List.not_mem_nil t)
  · rw [if_neg hlen] at hm
    rw [if_neg hlen]
    obtain ⟨j, hj, vm, hvm, c, hc, rfl⟩ :=
      (emitDims_mem p (g.filter isDim).length _ (g.filter isDim) 1 _).mp hm
    have ht2 : t ∈ [(⟨p, 1 + j, (g.filter isDim).length⟩ : ConjTag)] := ht
    rw [List.mem_singleton] at ht2
    subst ht2
    refine ⟨rfl, rfl, ?_, ?_, ?_, rfl⟩
    · show 2 ≤ (g.filter isDim).length
      omega
    · show 1 ≤ 1 + j
      omega
    · show 1 + j ≤ (g.filter isDim).length
      omega

lemma emitG_flat_mem {p : Nat} {g : GClause} {m : expr_match}
    (hm : m ∈ (emitG p g).1) (htags : m.tags = []) :
    ∃ c ∈ combos g, m = ⟨c, []⟩ := by
  rw [emitG] at hm
  by_cases hlen : (g.filter isDim).length < 2
  · rw [if_pos hlen] at hm
    rw [List.mem_map] at hm
    obtain ⟨c, hc, rfl⟩ := hm
    exact ⟨c, hc, rfl⟩
  · rw [if_neg hlen] at hm
    obtain ⟨j, hj, vm, hvm, c, hc, rfl⟩ :=
      (emitDims_mem p (g.filter isDim).length _ (g.filter isDim) 1 _).mp hm
    exact absurd htags (by intro h2; exact List.noConfusion h2)

lemma emitG_conj_sound (p : String → Nat) {id : Nat} {g : GClause} {k : Nat}
    (hk : k = (g.filter isDim).length)
    (hall : ∀ d, 1 ≤ d → d ≤ k → ∃ m ∈ (emitG id g).1,
      (⟨id, d, k⟩ : ConjTag) ∈ m.tags ∧ m.matchList.all (matchAtom p) = true)
    (h2 : 2 ≤ k) :
    gSem p g = true := by
  have hlen : ¬((g.filter isDim).length < 2) := by omega
  have hrest : gSem p (g.filter (fun en => !(isDim en))) = true := by
    obtain ⟨m, hm, ht, hmm⟩ := hall 1 (by omega) (by omega)
    rw [emitG, if_neg hlen] at hm
    obtain ⟨j, hj, vm, hvm, c, hc, rfl⟩ :=
      (emitDims_mem id (g.filter isDim).length _ (g.filter isDim) 1 _).mp hm
    rw [List.all_cons, Bool.and_eq_true] at hmm
    rw [← combos_sem]
    exact List.any_eq_true.mpr ⟨c, hc, hmm.2⟩
  have hdims : gSem p (g.filter isDim) = true := by
    rw [gSem, List.all_eq_true]
    intro en hen
    obtain ⟨n, hget⟩ := List.mem_iff_get.mp hen
    obtain ⟨j0, hj0⟩ := n
    obtain ⟨m, hm, ht, hmm⟩ := hall (j0 + 1) (by omega) (by rw [hk]; omega)
    rw [emitG, if_neg hlen] at hm
    obtain ⟨j, hj, vm, hvm, c, hc, rfl⟩ :=
      (emitDims_mem id (g.filter isDim).length _ (g.filter isDim) 1 _).mp hm
    have ht2 : (⟨id, j0 + 1, k⟩ : ConjTag) ∈
      [(⟨id, 1 + j, (g.filter isDim).length⟩ : ConjTag)] := ht
    rw [List.mem_singleton] at ht2
    have hjj : j = j0 := by
      have := congrArg ConjTag.dim ht2
      dsimp at this
      omega
    subst hjj
    rw [List.all_cons, Bool.and_eq_true] at hmm
    rw [← hget]
    have hgeq : (g.filter isDim).get ⟨j, hj⟩ =
        (g.filter isDim).get ⟨j, hj0⟩ := rfl
    rw [← hgeq]
    exact List.any_eq_true.mpr ⟨vm, hvm, hmm.1⟩
  rw [gSem, all_filter_partition (entrySem p) isDim]
  rw [gSem] at hrest hdims
  rw [hrest, hdims]
  rfl

lemma emitG_conj_complete (p : String → Nat) (id : Nat) {g : GClause}
    (hlen : ¬((g.filter isDim).length < 2)) (hg : gSem p g = true) :
    ∀ d, 1 ≤ d → d ≤ (g.filter isDim).length →
      ∃ m ∈ (emitG id g).1,
        (⟨id, d, (g.filter isDim).length⟩ : ConjTag) ∈ m.tags ∧
        m.matchList.all (matchAtom p) = true := by
  intro d hd1 hdk
  rw [gSem, all_filter_partition (entrySem p) isDim, Bool.and_eq_true] at hg
  have hrest : (combos (g.filter (fun en => !(isDim en)))).any
      (fun c => c.all (matchAtom p)) = true := by
    rw [combos_sem]
    exact hg.2
  obtain ⟨c, hc, hcall⟩ := List.any_eq_true.mp hrest
  have hj : d - 1 < (g.filter isDim).length := by omega
  have hen : (g.filter isDim).get ⟨d - 1, hj⟩ ∈ g.filter isDim :=
    List.get_mem _ _ _
  have hent : entrySem p ((g.filter isDim).get ⟨d - 1, hj⟩) = true :=
    List.all_eq_true.mp hg.1 _ hen
  obtain ⟨vm, hvm, hmatch⟩ := List.any_eq_true.mp hent
  refine ⟨⟨⟨((g.filter isDim).get ⟨d - 1, hj⟩).1, vm.1, vm.2⟩ :: c,
    [⟨id, d, (g.filter isDim).length⟩]⟩, ?_, ?_, ?_⟩
  · rw [emitG, if_neg hlen]
    refine (emitDims_mem id (g.filter isDim).length _ (g.filter isDim) 1 _).mpr
      ⟨d - 1, hj, vm, hvm, c, hc, ?_⟩
    have harith : 1 + (d - 1) = d := by omega
    rw [harith]
  · exact List.mem_singleton.mpr rfl
  · rw [List.all_cons, Bool.and_eq_true]
    exact ⟨hmatch, hcall⟩

lemma emitG_flat_complete (p : String → Nat) (id : Nat) {g : GClause}
    (hlen : (g.filter isDim).length < 2) (hg : gSem p g = true) :
    ∃ m ∈ (emitG id g).1, m.tags = [] ∧
      m.matchList.all (matchAtom p) = true := by
  rw [← combos_sem] at hg
  obtain ⟨c, hc, hcall⟩ := List.any_eq_true.mp hg
  refine ⟨⟨c, []⟩, ?_, rfl, hcall⟩
  rw [emitG, if_pos hlen]
  exact List.mem_map.mpr ⟨c, hc, rfl⟩

/-! ### Emission semantics for the clause list -/

lemma emitAll_tag_ge :
    ∀ (gs : List GClause) (i : Nat) (m : expr_match) (t : ConjTag),
      m ∈ (emitAll i gs).1 → t ∈ m.tags → i ≤ t.id := by
  intro gs
  induction gs with
  | nil =>
    intro i m t hm _
    exact absurd hm (List.not_mem_nil m)
  | cons g gs ih =>
    intro i m t hm ht
    rw [emitAll] at hm
    rw [List.mem_append] at hm
    rcases hm with hm | hm
    · rw [(emitG_tags hm ht).1]
    · have := ih (i + (emitG i g).2) m t hm ht
      omega

lemma emitAll_flat_sound (p : String → Nat) :
    ∀ (gs : List GClause) (i : Nat) (m : expr_match),
      m ∈ (emitAll i gs).1 → m.tags = [] →
      m.matchList.all (matchAtom p) = true → gsSem p gs = true := by
  intro gs
  induction gs with
  | nil =>
    intro i m hm _ _
    exact absurd hm (List.not_mem_nil m)
  | cons g gs ih =>
    intro i m hm htags hmm
    rw [emitAll] at hm
    rw [List.mem_append] at hm
    show (gSem p g || gsSem p gs) = true
    rw [Bool.or_eq_true]
    rcases hm with hm | hm
    · left
      obtain ⟨c, hc, rfl⟩ := emitG_flat_mem hm htags
      rw [← combos_sem]
      exact List.any_eq_true.mpr ⟨c, hc, hmm⟩
    · right
      exact ih (i + (emitG i g).2) m hm htags hmm

lemma emitAll_conj_sound (p : String → Nat) :
    ∀ (gs : List GClause) (i : Nat) (id k : Nat), 0 < k →
      (∀ d, 1 ≤ d → d ≤ k → ∃ m ∈ (emitAll i gs).1,
        (⟨id, d, k⟩ : ConjTag) ∈ m.tags ∧
        m.matchList.all (matchAtom p) = true) →
      gsSem p gs = true := by
  intro gs
  induction gs with
  | nil =>
    intro i id k hk hall
    obtain ⟨m, hm, _, _⟩ := hall 1 (by omega) (by omega)
    exact absurd hm (List.not_mem_nil m)
  | cons g gs ih =>
    intro i id k hk hall
    show (gSem p g || gsSem p gs) = true
    rw [Bool.or_eq_true]
    obtain ⟨m1, hm1, ht1, hmm1⟩ := hall 1 (by omega) (by omega)
    rw [emitAll] at hm1
    rw [List.mem_append] at hm1
    rcases hm1 with hm1 | hm1
    · left
      have hfacts := emitG_tags hm1 ht1
      have hid : id = i := hfacts.1
      have hkk : k = (g.filter isDim).length := hfacts.2.1
      have hcnt : (emitG i g).2 = 1 := hfacts.2.2.2.2.2
      refine @emitG_conj_sound p i g k hkk ?_ (by omega)
      intro d hd1 hdk
      obtain ⟨m, hm, ht, hmm⟩ := hall d hd1 hdk
      rw [emitAll] at hm
      rw [List.mem_append] at hm
      rcases hm with hm | hm
      · subst hid
        exact ⟨m, hm, ht, hmm⟩
      · have := emitAll_tag_ge gs (i + (emitG i g).2) m _ hm ht
        rw [hcnt] at this
        dsimp only at this
        omega
    · right
      have hge1 : i + (emitG i g).2 ≤ id :=
        emitAll_tag_ge gs (i + (emitG i g).2) m1 _ hm1 ht1
      refine ih (i + (emitG i g).2) id k hk ?_
      intro d hd1 hdk
      obtain ⟨m, hm, ht, hmm⟩ := hall d hd1 hdk
      rw [emitAll] at hm
      rw [List.mem_append] at hm
      rcases hm with hm | hm
      · have hfacts := emitG_tags hm ht
        have hid : id = i := hfacts.1
        have hcnt : (emitG i g).2 = 1 := hfacts.2.2.2.2.2
        rw [hcnt] at hge1
        omega
      · exact ⟨m, hm, ht, hmm⟩

lemma emitAll_complete (p : String → Nat) :
    ∀ (gs : List GClause) (i : Nat), gsSem p gs = true →
      (∃ m ∈ (emitAll i gs).1, m.tags = [] ∧
        m.matchList.all (matchAtom p) = true) ∨
      (∃ id k, 2 ≤ k ∧ ∀ d, 1 ≤ d → d ≤ k →
        ∃ m ∈ (emitAll i gs).1, (⟨id, d, k⟩ : ConjTag) ∈ m.tags ∧
          m.matchList.all (matchAtom p) = true) := by
  intro gs
  induction gs with
  | nil =>
    intro i h
    exact absurd h (by intro h2; exact Bool.noConfusion h2)
  | cons g gs ih =>
    intro i h
    have h2 : (gSem p g || gsSem p gs) = true := h
    rw [Bool.or_eq_true] at h2
    rcases h2 with h2 | h2
    · by_cases hlen : (g.filter isDim).length < 2
      · left
        obtain ⟨m, hm, htags, hmm⟩ := emitG_flat_complete p i hlen h2
        refine ⟨m, ?_, htags, hmm⟩
        rw [emitAll]
        rw [List.mem_append]
        exact Or.inl hm
      · right
        refine ⟨i, (g.filter isDim).length, by omega, ?_⟩
        intro d hd1 hdk
        obtain ⟨m, hm, ht, hmm⟩ := emitG_conj_complete p i hlen h2 d hd1 hdk
        refine ⟨m, ?_, ht, hmm⟩
        rw [emitAll]
        rw [List.mem_append]
        exact Or.inl hm
    · rcases ih (i + (emitG i g).2) h2 with ⟨m, hm, htags, hmm⟩ | ⟨id, k, hk, hall⟩
      · left
        refine ⟨m, ?_, htags, hmm⟩
        rw [emitAll]
        rw [List.mem_append]
        exact Or.inr hm
      · right
        refine ⟨id, k, hk, ?_⟩
        intro d hd1 hdk
        obtain ⟨m, hm, ht, hmm⟩ := hall d hd1 hdk
        refine ⟨m, ?_, ht, hmm⟩
        rw [emitAll]
        rw [List.mem_append]
        exact Or.inr hm

/-! ### Hash-consing -/

lemma contentsOf_mem {ms : List expr_match} {c : List MAtom} :
    c ∈ contentsOf ms ↔ ∃ m0 ∈ ms, m0.matchList = c := by
  rw [contentsOf, List.mem_dedup, List.mem_map]

lemma tagsFor_mem {ms : List expr_match} {c : List MAtom} {t : ConjTag} :
    t ∈ tagsFor ms c ↔ ∃ m0 ∈ ms, m0.matchList = c ∧ t ∈ m0.tags := by
  rw [tagsFor, List.mem_flatMap]
  constructor
  · rintro ⟨m0, hm0, ht⟩
    rw [List.mem_filter] at hm0
    exact ⟨m0, hm0.1, eq_of_beq hm0.2, ht⟩
  · rintro ⟨m0, hm0, hc, ht⟩
    exact ⟨m0, List.mem_filter.mpr ⟨hm0, beq_iff_eq.mpr hc⟩, ht⟩

lemma dedupMatches_mem {ms : List expr_match} {m : expr_match} :
    m ∈ dedupMatches ms ↔
      ∃ c ∈ contentsOf ms, m = ⟨c, tagsFor ms c⟩ := by
  rw [dedupMatches, List.mem_map]
  constructor
  · rintro ⟨c, hc, rfl⟩
    exact ⟨c, hc, rfl⟩
  · rintro ⟨c, hc, rfl⟩
    exact ⟨c, hc, rfl⟩

lemma dedupMatches_flat_src {ms : List expr_match} {m : expr_match}
    (hm : m ∈ dedupMatches ms) (htags : m.tags = []) :
    ∃ m0 ∈ ms, m0.matchList = m.matchList ∧ m0.tags = [] := by
  obtain ⟨c, hc, rfl⟩ := dedupMatches_mem.mp hm
  obtain ⟨m0, hm0, hmc⟩ := contentsOf_mem.mp hc
  refine ⟨m0, hm0, hmc, ?_⟩
  rw [List.eq_nil_iff_forall_not_mem]
  intro t ht
  have htf : t ∈ tagsFor ms c := tagsFor_mem.mpr ⟨m0, hm0, hmc, ht⟩
  rw [show tagsFor ms c = (⟨c, tagsFor ms c⟩ : expr_match).tags from rfl,
    htags] at htf
  exact absurd htf (List.not_mem_nil t)

lemma dedupMatches_tag_src {ms : List expr_match} {m : expr_match}
    {t : ConjTag} (hm : m ∈ dedupMatches ms) (ht : t ∈ m.tags) :
    ∃ m0 ∈ ms, m0.matchList = m.matchList ∧ t ∈ m0.tags := by
  obtain ⟨c, hc, rfl⟩ := dedupMatches_mem.mp hm
  obtain ⟨m0, hm0, hmc, ht0⟩ := tagsFor_mem.mp ht
  exact ⟨m0, hm0, hmc, ht0⟩

lemma dedupMatches_tag_lift {ms : List expr_match} {m0 : expr_match}
    {t : ConjTag} (hm0 : m0 ∈ ms) (ht : t ∈ m0.tags) :
    ∃ m ∈ dedupMatches ms, m.matchList = m0.matchList ∧ t ∈ m.tags := by
  refine ⟨⟨m0.matchList, tagsFor ms m0.matchList⟩, ?_, rfl, ?_⟩
  · exact dedupMatches_mem.mpr
      ⟨m0.matchList, contentsOf_mem.mpr ⟨m0, hm0, rfl⟩, rfl⟩
  · exact tagsFor_mem.mpr ⟨m0, hm0, rfl, ht⟩

lemma dedupMatches_flat_lift {ms : List expr_match} {m0 : expr_match}
    (hnc : flatTaggedCollision ms = false)
    (hm0 : m0 ∈ ms) (htags : m0.tags = []) :
    ∃ m ∈ dedupMatches ms, m.matchList = m0.matchList ∧ m.tags = [] := by
  refine ⟨⟨m0.matchList, tagsFor ms m0.matchList⟩, ?_, rfl, ?_⟩
  · exact dedupMatches_mem.mpr
      ⟨m0.matchList, contentsOf_mem.mpr ⟨m0, hm0, rfl⟩, rfl⟩
  · show tagsFor ms m0.matchList = []
    rw [List.eq_nil_iff_forall_not_mem]
    intro t ht
    obtain ⟨m2, hm2, hc2, ht2⟩ := tagsFor_mem.mp ht
    have hcoll : flatTaggedCollision ms = true := by
      rw [flatTaggedCollision, List.any_eq_true]
      refine ⟨m0, hm0, ?_⟩
      rw [Bool.and_eq_true]
      constructor
      · rw [htags]
        rfl
      · rw [List.any_eq_true]
        refine ⟨m2, hm2, ?_⟩
        rw [Bool.and_eq_true]
        constructor
        · rcases hmt : m2.tags with _ | ⟨t2, ts⟩
          · rw [hmt] at ht2
            exact absurd ht2 (List.not_mem_nil t)
          · rfl
        · exact beq_iff_eq.mpr hc2.symm
    rw [hnc] at hcoll
    exact Bool.noConfusion hcoll

/-! ### Top-level emitter correctness -/

/-- The emitted match list before hash-consing. -/
def rawMatches (e : expr) (rf : String → Option Nat) : List expr_match :=
  (emitAll 1
    (regroup (((exprClauses e).filterMap (resolveClause rf)).map clauseG))).1

lemma expr_to_matches_fst (e : expr) (rf : String → Option Nat) :
    (expr_to_matches e rf).1 = dedupMatches (rawMatches e rf) := rfl

lemma gsSem_map_clauseG (p : String → Nat) :
    ∀ l : List (List MAtom),
      gsSem p (l.map clauseG) = l.any (fun ms => ms.all (matchAtom p)) := by
  intro l
  induction l with
  | nil => rfl
  | cons ms l ih =>
    show (gSem p (clauseG ms) || gsSem p (l.map clauseG)) = _
    rw [ih, clauseG_sem, List.any_cons]

lemma gsSem_raw (p : String → Nat) (rf : String → Option Nat) {e : expr}
    (hw : wfe e = true) (hn : expr_is_normalized e = true) :
    gsSem p
      (regroup (((exprClauses e).filterMap (resolveClause rf)).map clauseG)) =
      eval p rf e := by
  rw [regroup_sem, gsSem_map_clauseG,
    resolved_sem p (exprClauses e) (exprClauses_wfe e hw) (exprClauses_eq e hn),
    ← exprClauses_sem p rf e hn]

/-- Soundness: every packet accepted by the emitted matches satisfies
    the normalized expression. -/
theorem to_matches_sound {e : expr} {rf : String → Option Nat}
    {p : String → Nat} (hw : wfe e = true)
    (hn : expr_is_normalized e = true)
    (h : matchesSem p (expr_to_matches e rf).1 = true) :
    eval p rf e = true := by
  rw [expr_to_matches_fst] at h
  rw [matchesSem, Bool.or_eq_true] at h
  rw [← gsSem_raw p rf hw hn]
  rcases h with h | h
  · rw [List.any_eq_true] at h
    obtain ⟨m, hm, hmm⟩ := h
    rw [Bool.and_eq_true, List.isEmpty_iff] at hmm
    obtain ⟨m0, hm0, hmc, htags0⟩ := dedupMatches_flat_src hm hmm.1
    refine emitAll_flat_sound p _ 1 m0 hm0 htags0 ?_
    rw [hmc]
    exact hmm.2
  · rw [List.any_eq_true] at h
    obtain ⟨ik, _, hik⟩ := h
    rw [Bool.and_eq_true, decide_eq_true_eq] at hik
    refine emitAll_conj_sound p _ 1 ik.1 ik.2 hik.1 ?_
    intro d hd1 hdk
    have hd0 : d - 1 ∈ List.range ik.2 := by
      rw [List.mem_range]
      omega
    have := List.all_eq_true.mp hik.2 (d - 1) hd0
    rw [List.any_eq_true] at this
    obtain ⟨m, hm, hmm⟩ := this
    rw [Bool.and_eq_true] at hmm
    have htm : (⟨ik.1, d - 1 + 1, ik.2⟩ : ConjTag) ∈ m.tags := by
      have := hmm.1
      rw [List.contains_eq_any_beq, List.any_eq_true] at this
      obtain ⟨t, ht, hbeq⟩ := this
      rw [eq_of_beq hbeq]
      exact ht
    have harith : d - 1 + 1 = d := by omega
    rw [harith] at htm
    obtain ⟨m0, hm0, hmc, ht0⟩ := dedupMatches_tag_src hm htm
    refine ⟨m0, hm0, ht0, ?_⟩
    rw [hmc]
    exact hmm.2

/-- Completeness under no flat/tagged hash-cons collision: every packet
    satisfying the normalized expression is accepted by the emitted
    matches. -/
theorem to_matches_complete {e : expr} {rf : String → Option Nat}
    {p : String → Nat} (hw : wfe e = true)
    (hn : expr_is_normalized e = true)
    (hnc : flatTaggedCollision (rawMatches e rf) = false)
    (h : eval p rf e = true) :
    matchesSem p (expr_to_matches e rf).1 = true := by
  rw [expr_to_matches_fst]
  rw [← gsSem_raw p rf hw hn] at h
  rw [matchesSem, Bool.or_eq_true]
  rcases emitAll_complete p _ 1 h with ⟨m0, hm0, htags, hmm⟩ |
    ⟨id, k, hk, hall⟩
  · left
    rw [List.any_eq_true]
    obtain ⟨m, hm, hmc, hmt⟩ := dedupMatches_flat_lift hnc hm0 htags
    refine ⟨m, hm, ?_⟩
    rw [Bool.and_eq_true, List.isEmpty_iff]
    refine ⟨hmt, ?_⟩
    rw [hmc]
    exact hmm
  · right
    rw [List.any_eq_true]
    obtain ⟨m1, hm1t, ht1, hmm1⟩ := hall 1 (by omega) (by omega)
    obtain ⟨md1, hmd1, hmc1, htd1⟩ := dedupMatches_tag_lift hm1t ht1
    refine ⟨(id, k), ?_, ?_⟩
    · rw [tagPairs, List.mem_dedup, List.mem_flatMap]
      exact ⟨md1, hmd1, List.mem_map.mpr ⟨⟨id, 1, k⟩, htd1, rfl⟩⟩
    · rw [Bool.and_eq_true, decide_eq_true_eq]
      refine ⟨by omega, ?_⟩
      rw [List.all_eq_true]
      intro d hd
      rw [List.mem_range] at hd
      obtain ⟨m0, hm0, ht0, hmm0⟩ := hall (d + 1) (by omega) (by omega)
      obtain ⟨m, hm, hmc, htd⟩ := dedupMatches_tag_lift hm0 ht0
      rw [List.any_eq_true]
      refine ⟨m, hm, ?_⟩
      rw [Bool.and_eq_true]
      constructor
      · rw [List.contains_eq_any_beq, List.any_eq_true]
        exact ⟨⟨id, d + 1, k⟩, htd, beq_iff_eq.mpr rfl⟩
      · rw [hmc]
        exact hmm0

/-! ### C7 -/

/-- A 4-bit Ordinal field named `x`. -/
def symX4 : expr_symbol := ⟨"x", 4, none, none, .ordinal, none, false⟩

/-- A 4-bit Ordinal field named `y`. -/
def symY4 : expr_symbol := ⟨"y", 4, none, none, .ordinal, none, false⟩

/-- Input for the C7 counterexample: a normalized disjunction whose
    first clause `x == 2` collides, after emission, with the
    dimension-1 conjunction match of the grouped remaining clauses. -/
def e7c : expr :=
  .eor [.cmp symX4 .eq (.num 2 15),
        .eand [.cmp symX4 .eq (.num 2 15), .cmp symY4 .eq (.num 4 15)],
        .eand [.cmp symX4 .eq (.num 2 15), .cmp symY4 .eq (.num 5 15)],
        .eand [.cmp symX4 .eq (.num 3 15), .cmp symY4 .eq (.num 4 15)],
        .eand [.cmp symX4 .eq (.num 3 15), .cmp symY4 .eq (.num 5 15)]]

/-- The packet `x = 2, y = 7`. -/
def p7c : String → Nat := fun s => if s = "x" then 2 else 7

/-- C7 counterexample: on this well-formed normalized tree the
    hash-consing step merges the flat match of the clause `x == 2` into
    the conjunction-annotated match with identical contents, so the
    merged record is no longer flat; the packet `x=2, y=7` satisfies
    the expression but is accepted by no emitted match, and the union
    of matched packets is strictly smaller than the satisfying set. -/
theorem C7_counterexample :
    wfe e7c = true ∧ expr_is_normalized e7c = true ∧
    eval p7c (fun _ => none) e7c = true ∧
    matchesSem p7c (expr_to_matches e7c (fun _ => none)).1 = false :=
  ⟨by decide, by decide, by decide, by decide⟩

/-- C7 (amended): `expr_to_matches` on `false` emits no matches with
    conjunction count 0; on `true` exactly one all-wildcard match with
    count 0; and for a well-formed normalized tree the emitted set is
    sound — every accepted packet satisfies the expression — and,
    provided hash-consing merges no flat match with a
    conjunction-annotated match of identical contents, also complete,
    so the union of accepted packets equals the satisfying set. -/
theorem C7_to_matches :
    (∀ rf : String → Option Nat, expr_to_matches (.bool false) rf = ([], 0)) ∧
    (∀ rf : String → Option Nat,
      expr_to_matches (.bool true) rf = ([⟨[], []⟩], 0)) ∧
    (∀ (e : expr) (rf : String → Option Nat) (p : String → Nat),
      wfe e = true → expr_is_normalized e = true →
      (matchesSem p (expr_to_matches e rf).1 = true → eval p rf e = true) ∧
      (flatTaggedCollision (rawMatches e rf) = false →
        eval p rf e = true →
        matchesSem p (expr_to_matches e rf).1 = true)) := by
  refine ⟨fun rf => rfl, fun rf => rfl, ?_⟩
  intro e rf p hw hn
  exact ⟨to_matches_sound hw hn, to_matches_complete hw hn⟩

/-- C7 (amended) at a concrete input: the normalized single-clause tree
    `x == 2 && s0 == "p1"` with the port name `"p1"` resolving to 7,
    and the packet `x = 2, s0 = 7` — exercising the string-equality
    atoms and the port-name resolver of §4.6. -/
theorem C7_to_matches_witness :
    matchesSem (fun s => if s = "x" then 2 else 7)
      (expr_to_matches
        (.eand [.cmp symX4 .eq (.num 2 15), .cmp symStr0 .eq (.str "p1")])
        (fun t => if t = "p1" then some 7 else none)).1 = true :=
  (C7_to_matches.2.2
    (.eand [.cmp symX4 .eq (.num 2 15), .cmp symStr0 .eq (.str "p1")])
    (fun t => if t = "p1" then some 7 else none)
    (fun s => if s = "x" then 2 else 7)
    (by decide) (by decide)).2 (by decide) (by decide)

/-! ### C6 -/

lemma combos_cover :
    ∀ (g : GClause) (c : List MAtom), c ∈ combos g →
      ∀ en ∈ g, ∃ a ∈ c, a.sym = en.1 := by
  intro g
  induction g with
  | nil =>
    intro c _ en hen
    exact absurd hen (List.not_mem_nil en)
  | cons e0 g ih =>
    obtain ⟨s0, vs⟩ := e0
    intro c hc en hen
    rw [combos, List.mem_flatMap] at hc
    obtain ⟨rest, hrest, hmap⟩ := hc
    rw [List.mem_map] at hmap
    obtain ⟨vm, hvm, rfl⟩ := hmap
    rcases List.mem_cons.mp hen with hen | hen
    · subst hen
      exact ⟨⟨s0, vm.1, vm.2⟩, List.mem_cons_self _ _, rfl⟩
    · obtain ⟨a, ha, has⟩ := ih rest hrest en hen
      exact ⟨a, List.mem_cons_of_mem _ ha, has⟩

/-- C6: a symbol whose `must_crossproduct` flag is set is never an
    independent conjunctive-match dimension — no dimension entry of any
    grouped clause carries such a symbol — and whenever a grouped
    clause constrains such a symbol, every match emitted for that
    clause materializes one of the symbol's `(value, mask)`
    alternatives directly in the match contents rather than delegating
    it to a conjunction dimension. -/
theorem C6_must_crossproduct (id : Nat) (g : GClause) (s : expr_symbol)
    (hmcp : s.must_crossproduct = true) :
    (∀ en ∈ g.filter isDim, en.1.must_crossproduct = false) ∧
    ((∃ en ∈ g, en.1 = s) →
      ∀ m ∈ (emitG id g).1, ∃ a ∈ m.matchList, a.sym = s) := by
  constructor
  · intro en hen
    rw [List.mem_filter, isDim, Bool.and_eq_true, Bool.not_eq_true'] at hen
    exact hen.2.1
  · rintro ⟨en, hen, hens⟩ m hm
    have hnd : isDim en = false := by
      rw [isDim, hens, hmcp]
      rfl
    rw [emitG] at hm
    by_cases hlen : (g.filter isDim).length < 2
    · rw [if_pos hlen] at hm
      rw [List.mem_map] at hm
      obtain ⟨c, hc, rfl⟩ := hm
      obtain ⟨a, ha, has⟩ := combos_cover g c hc en hen
      rw [hens] at has
      exact ⟨a, ha, has⟩
    · rw [if_neg hlen] at hm
      obtain ⟨j, hj, vm, hvm, c, hc, rfl⟩ :=
        (emitDims_mem id (g.filter isDim).length _ (g.filter isDim) 1 _).mp hm
      have henr : en ∈ g.filter (fun x => !(isDim x)) := by
        rw [List.mem_filter, hnd]
        exact ⟨hen, rfl⟩
      obtain ⟨a, ha, has⟩ := combos_cover _ c hc en henr
      rw [hens] at has
      exact ⟨a, List.mem_cons_of_mem _ ha, has⟩

/-- A 4-bit Ordinal field named `m` marked must-crossproduct. -/
def symM4 : expr_symbol := ⟨"m", 4, none, none, .ordinal, none, true⟩

/-- C6 at a concrete grouped clause: the must-crossproduct symbol `m`
    is materialized in an emitted match. -/
theorem C6_must_crossproduct_witness :
    ∃ a ∈ (⟨[⟨symM4, 1, 15⟩, ⟨symX4, 3, 15⟩], []⟩ : expr_match).matchList,
      a.sym = symM4 :=
  (C6_must_crossproduct 1
      [(symM4, [(1, 15), (2, 15)]), (symX4, [(3, 15), (4, 15)])]
      symM4 (by decide)).2
    ⟨(symM4, [(1, 15), (2, 15)]), by decide, rfl⟩
    ⟨[⟨symM4, 1, 15⟩, ⟨symX4, 3, 15⟩], []⟩ (by decide)

/-! ### C4 -/

/-- Scenario symtab (§8): `eth.type`, 16-bit Ordinal,
    must-crossproduct. -/
def symEthType : expr_symbol :=
  ⟨"eth.type", 16, some ⟨10, 16, true⟩, none, .ordinal, none, true⟩

/-- Scenario symtab: `ip.proto`, 8-bit Ordinal. -/
def symIpProto : expr_symbol :=
  ⟨"ip.proto", 8, some ⟨11, 8, true⟩, none, .ordinal, none, false⟩

/-- Scenario symtab: predicate `ip4 = (eth.type == 0x800)`. -/
def symIp4 : expr_symbol :=
  ⟨"ip4", 1, none, some (.scmp "eth.type" .eq (.int 2048)), .boolean, none,
    false⟩

/-- Scenario symtab: predicate `tcp = (ip4 && ip.proto == 6)`. -/
def symTcp : expr_symbol :=
  ⟨"tcp", 1, none,
    some (.sand (.bare "ip4") (.scmp "ip.proto" .eq (.int 6))), .boolean,
    none, false⟩

/-- Scenario symtab: `tcp.src`, 16-bit Ordinal with prerequisite
    `tcp`. -/
def symTcpSrc : expr_symbol :=
  ⟨"tcp.src", 16, some ⟨12, 16, true⟩, none, .ordinal, some (.bare "tcp"),
    false⟩

/-- The scenario symbol table of §8. -/
def stScen : Symtab := [symEthType, symIpProto, symIp4, symTcp, symTcpSrc]

/-- C4: the simplifier lowers `<`, `<=`, `>`, `>=` on Ordinal
    (full-mask) comparisons to a disjunction of `(value, mask)`
    equalities denoting the same function; the `ltAtoms` prefix-mask
    decomposition covers the range `[0, c)` exactly; in particular for
    width 16 and bound 1024 the decomposition is the single prefix
    equality `value 0, mask 0xfc00`, `tcp.src < 1024` simplifies to
    that one equality, the mask covers exactly `[0, 1024)`, and the
    §8 scenario pipeline emits exactly one match (carrying the
    prerequisites) with no conjunction. -/
theorem C4_relational_lowering :
    (∀ (p : String → Nat) (r : String → Option Nat) (s : expr_symbol)
        (op : expr_relop) (v : Nat), 0 < s.width →
        relopIsRelational op = true → v < 2 ^ s.width →
        eval p r (expr_simplify (.cmp s op (.num v (fullmask s.width)))) =
          relopEval op (p s.name &&& fullmask s.width) v) ∧
    (∀ w c x : Nat, c < 2 ^ w → x < 2 ^ w →
      ((∃ vm ∈ ltAtoms w c, x &&& vm.2 = vm.1) ↔ x < c)) ∧
    ltAtoms 16 1024 = [(0, 64512)] ∧
    expr_simplify (.cmp symTcpSrc .lt (.num 1024 (fullmask 16))) =
      .cmp symTcpSrc .eq (.num 0 64512) ∧
    (∀ x : Nat, x < 2 ^ 16 → ((x &&& 64512 == 0) = decide (x < 1024))) ∧
    (pipeline stScen true true true (.scmp "tcp.src" .lt (.int 1024))).map
        (fun e => ((expr_to_matches e (fun _ => none)).1.length,
                   (expr_to_matches e (fun _ => none)).2)) = .ok (1, 0) := by
  refine ⟨?_, ?_, by decide, by rfl, ?_, by rfl⟩
  · intro p r s op v hw hrel hv
    exact expr_simplify_relational_sem p r hw hrel hv
  · intro w c x hc hx
    exact ltAtoms_covers hc hx
  · intro x hx
    have hcov := ltAtoms_covers (show (1024 : Nat) < 2 ^ 16 by norm_num) hx
    rw [show ltAtoms 16 1024 = [(0, 64512)] from by decide] at hcov
    by_cases hxc : x < 1024
    · rw [decide_eq_true hxc]
      obtain ⟨vm, hvm, heq⟩ := hcov.mpr hxc
      rw [List.mem_singleton] at hvm
      subst hvm
      exact beq_iff_eq.mpr heq
    · rw [decide_eq_false hxc, Bool.eq_false_iff]
      intro hbeq
      exact hxc (hcov.mp
        ⟨(0, 64512), List.mem_singleton.mpr rfl, beq_iff_eq.mp hbeq⟩)

/-- C4 at a concrete packet: the lowered `tcp.src < 1024` evaluates as
    the original comparison on the packet with `tcp.src = 3`. -/
theorem C4_relational_lowering_witness :
    eval (fun _ => 3) (fun _ => none)
      (expr_simplify (.cmp symTcpSrc .lt (.num 1024 (fullmask 16)))) =
      relopEval .lt (3 &&& fullmask 16) 1024 :=
  C4_relational_lowering.1 (fun _ => 3) (fun _ => none) symTcpSrc .lt 1024
    (by decide) (by decide) (by decide)

/-! ### C8: canonical formatting -/

/-- Is this node a Boolean literal? -/
def isBoolNode : expr → Bool
  | .bool _ => true
  | _ => false

/-- Canonical rendering of one comparison (§6): Boolean predicates
    print a Boolean literal, full-mask values print a plain integer,
    partial masks print `value/mask`, strings print a string
    literal. -/
def fmtCmp (s : expr_symbol) (op : expr_relop) : Operand → Surface
  | .num v m =>
    if s.level = .boolean then .scmp s.name op (.bool (v == 1))
    else if m = fullmask s.width then .scmp s.name op (.int v)
    else .scmp s.name op (.masked v m)
  | .str t => .scmp s.name op (.str t)

mutual

/-- Modelled from the spec: `expr_format` (declared at `expr.h:343`;
    body not in the sources), §6: a canonical textual rendering that
    round-trips through `expr_parse`.  The lexer being external, the
    model renders to the grammar tree. -/
def expr_format : expr → Surface
  | .cmp s op o => fmtCmp s op o
  | .bool b => .lit b
  | .eand [] => .lit true
  | .eand (e :: es) => fmtFold .sand (expr_format e) es
  | .eor [] => .lit false
  | .eor (e :: es) => fmtFold .sor (expr_format e) es

/-- Left fold of a connective over the rendered children. -/
def fmtFold (k : Surface → Surface → Surface) (acc : Surface) :
    List expr → Surface
  | [] => acc
  | e :: es => fmtFold k (k acc (expr_format e)) es

end

mutual

/-- The side conditions under which the canonical rendering reparses to
    the identical tree: every symbol resolves to itself in the symbol
    table, a partial mask occurs only on an Ordinal symbol (the grammar
    accepts `value/mask` only there), and no connective has a Boolean
    literal child (`expr_combine` would fold it away). -/
def fmtOk (st : Symtab) : expr → Bool
  | .cmp s _ o =>
    (symtabLookup st s.name == some s) &&
      (match o with
       | .num _ m => (m == fullmask s.width) || decide (s.level = .ordinal)
       | .str _ => true)
  | .bool _ => true
  | .eand es => es.all (fun c => !(isBoolNode c)) && fmtOkList st es
  | .eor es => es.all (fun c => !(isBoolNode c)) && fmtOkList st es

/-- `fmtOk` over a child list. -/
def fmtOkList (st : Symtab) : List expr → Bool
  | [] => true
  | e :: es => fmtOk st e && fmtOkList st es

end

lemma fmtOkList_iff {st : Symtab} {es : List expr} :
    fmtOkList st es = true ↔ ∀ c ∈ es, fmtOk st c = true := by
  induction es with
  | nil => simp [fmtOkList]
  | cons a as ih => simp [fmtOkList, ih]

lemma expr_combine_eand_shape : ∀ {a b : expr}, isBoolNode a = false →
    isBoolNode b = false →
    expr_combine .eand a b = .eand (andKids a ++ andKids b) := by
  intro a b ha hb
  match a with
  | .bool c => exact Bool.noConfusion ha
  | .cmp s op o =>
    match b with
    | .bool c => exact Bool.noConfusion hb
    | .cmp s2 op2 o2 => rfl
    | .eand es => rfl
    | .eor es => rfl
  | .eand es1 =>
    match b with
    | .bool c => exact Bool.noConfusion hb
    | .cmp s2 op2 o2 => rfl
    | .eand es => rfl
    | .eor es => rfl
  | .eor es1 =>
    match b with
    | .bool c => exact Bool.noConfusion hb
    | .cmp s2 op2 o2 => rfl
    | .eand es => rfl
    | .eor es => rfl

lemma expr_combine_eor_shape : ∀ {a b : expr}, isBoolNode a = false →
    isBoolNode b = false →
    expr_combine .eor a b = .eor (orKids a ++ orKids b) := by
  intro a b ha hb
  match a with
  | .bool c => exact Bool.noConfusion ha
  | .cmp s op o =>
    match b with
    | .bool c => exact Bool.noConfusion hb
    | .cmp s2 op2 o2 => rfl
    | .eand es => rfl
    | .eor es => rfl
  | .eand es1 =>
    match b with
    | .bool c => exact Bool.noConfusion hb
    | .cmp s2 op2 o2 => rfl
    | .eand es => rfl
    | .eor es => rfl
  | .eor es1 =>
    match b with
    | .bool c => exact Bool.noConfusion hb
    | .cmp s2 op2 o2 => rfl
    | .eand es => rfl
    | .eor es => rfl

lemma fmtCmp_parse {st : Symtab} {s : expr_symbol} {op : expr_relop}
    {o : Operand} (hw : wfe (.cmp s op o) = true)
    (hf : fmtOk st (.cmp s op o) = true) :
    expr_parse st (fmtCmp s op o) = .ok (.cmp s op o) := by
  have hop := (wfe_cmp_iff.mp hw).2
  match o with
  | .str t =>
    have hf2 : ((symtabLookup st s.name == some s) && true) = true := hf
    rw [Bool.and_eq_true] at hf2
    have hlk : symtabLookup st s.name = some s := eq_of_beq hf2.1
    rw [cmpWf] at hop
    simp only [Bool.and_eq_true, Bool.or_eq_true, decide_eq_true_eq] at hop
    show parseCmp st s.name op (.str t) = .ok (.cmp s op (.str t))
    rw [parseCmp, hlk]
    dsimp only
    rw [if_pos ?hleg]
    case hleg =>
      rw [cmpLegal]
      simp only [Bool.and_eq_true, Bool.or_eq_true, decide_eq_true_eq]
      exact hop
    rfl
  | .num v m =>
    have hf2 : ((symtabLookup st s.name == some s) &&
        ((m == fullmask s.width) || decide (s.level = .ordinal))) = true := hf
    rw [Bool.and_eq_true] at hf2
    have hlk : symtabLookup st s.name = some s := eq_of_beq hf2.1
    rw [cmpWf] at hop
    simp only [Bool.and_eq_true, Bool.or_eq_true, Bool.not_eq_true',
      decide_eq_true_eq, decide_eq_false_iff_not, bne_iff_ne, ne_eq,
      beq_iff_eq] at hop
    obtain ⟨⟨⟨⟨⟨hwpos, hm0⟩, hvm⟩, hmw⟩, hrel⟩, hbool⟩ := hop
    have hvw : v < 2 ^ s.width := by
      have hle : v ≤ m := by
        rw [← hvm]
        exact Nat.and_le_right
      omega
    rw [fmtCmp]
    by_cases hlev : s.level = .boolean
    · rw [if_pos hlev]
      rcases hbool with hnb | ⟨hm1, hopen⟩
      · exact absurd hlev hnb
      show parseCmp st s.name op (.bool (v == 1)) = .ok (.cmp s op (.num v m))
      rw [parseCmp, hlk]
      dsimp only
      rw [if_pos ?hlegb]
      case hlegb =>
        rw [cmpLegal]
        simp only [Bool.and_eq_true, Bool.or_eq_true, decide_eq_true_eq]
        exact ⟨hlev, hopen⟩
      have hv01 : v = 0 ∨ v = 1 := by
        have hle : v ≤ 1 := by
          rw [hm1] at hvm
          rw [← hvm]
          exact Nat.and_le_right
        omega
      rw [mkCmp, hm1]
      rcases hv01 with hv | hv <;> rw [hv] <;> rfl
    · rw [if_neg hlev]
      by_cases hfm : m = fullmask s.width
      · rw [if_pos hfm]
        show parseCmp st s.name op (.int v) = .ok (.cmp s op (.num v m))
        rw [parseCmp, hlk]
        dsimp only
        rw [if_pos ?hlegi]
        case hlegi =>
          rw [cmpLegal]
          simp only [Bool.and_eq_true, Bool.or_eq_true, Bool.not_eq_true',
            decide_eq_true_eq, decide_eq_false_iff_not, ne_eq]
          refine ⟨⟨⟨by omega, hlev⟩, ?_⟩, hvw⟩
          rcases hrel with hr | hr
          · exact Or.inl hr
          · exact Or.inr hr.1
        rw [mkCmp, hfm]
      · rw [if_neg hfm]
        have hord : s.level = .ordinal := by
          have hor := hf2.2
          rw [Bool.or_eq_true] at hor
          rcases hor with hx | hx
          · exact absurd (beq_iff_eq.mp hx) hfm
          · exact of_decide_eq_true hx
        show parseCmp st s.name op (.masked v m) = .ok (.cmp s op (.num v m))
        rw [parseCmp, hlk]
        dsimp only
        rw [if_pos ?hlegm]
        case hlegm =>
          rw [cmpLegal]
          simp only [Bool.and_eq_true, Bool.or_eq_true, Bool.not_eq_true',
            decide_eq_true_eq, decide_eq_false_iff_not, ne_eq]
          refine ⟨⟨⟨⟨⟨by omega, hord⟩, ?_⟩, hm0⟩, hvw⟩, hmw⟩
          rcases hrel with hr | hr
          · exact hr
          · exact absurd hr.2 hfm
        rw [mkCmp, hvm]

lemma parse_fmtFold_and {st : Symtab} :
    ∀ (rest : List expr) (c : expr) (acc : Surface) (A : expr),
      expr_parse st acc = .ok A → isBoolNode A = false →
      (∀ e ∈ c :: rest, expr_parse st (expr_format e) = .ok e ∧
        isBoolNode e = false ∧ isAnd e = false) →
      expr_parse st (fmtFold .sand acc (c :: rest)) =
        .ok (.eand (andKids A ++ c :: rest)) := by
  intro rest
  induction rest with
  | nil =>
    intro c acc A hacc hAb hkids
    obtain ⟨hc, hcb, hca⟩ := hkids c (List.mem_cons_self c [])
    show expr_parse st (.sand acc (expr_format c)) = _
    rw [expr_parse, hacc, except_bind_ok, hc, except_bind_ok]
    rw [expr_combine_eand_shape hAb hcb]
    have hkc : andKids c = [c] := by
      match c with
      | .cmp s op o => rfl
      | .eor es => rfl
      | .bool b => exact Bool.noConfusion hcb
      | .eand es => exact Bool.noConfusion hca
    rw [hkc]
    rfl
  | cons c2 rest ih =>
    intro c acc A hacc hAb hkids
    obtain ⟨hc, hcb, hca⟩ := hkids c (List.mem_cons_self c _)
    show expr_parse st (fmtFold .sand (.sand acc (expr_format c))
      (c2 :: rest)) = _
    have hstep : expr_parse st (.sand acc (expr_format c)) =
        .ok (.eand (andKids A ++ [c])) := by
      rw [expr_parse, hacc, except_bind_ok, hc, except_bind_ok,
        expr_combine_eand_shape hAb hcb]
      have hkc : andKids c = [c] := by
        match c with
        | .cmp s op o => rfl
        | .eor es => rfl
        | .bool b => exact Bool.noConfusion hcb
        | .eand es => exact Bool.noConfusion hca
      rw [hkc]
      rfl
    have := ih c2 (.sand acc (expr_format c)) (.eand (andKids A ++ [c]))
      hstep (by rfl)
      (fun e he => hkids e (List.mem_cons_of_mem c he))
    rw [this]
    show Except.ok (expr.eand ((andKids A ++ [c]) ++ c2 :: rest)) = _
    rw [List.append_assoc]
    rfl

lemma parse_fmtFold_or {st : Symtab} :
    ∀ (rest : List expr) (c : expr) (acc : Surface) (A : expr),
      expr_parse st acc = .ok A → isBoolNode A = false →
      (∀ e ∈ c :: rest, expr_parse st (expr_format e) = .ok e ∧
        isBoolNode e = false ∧ isOr e = false) →
      expr_parse st (fmtFold .sor acc (c :: rest)) =
        .ok (.eor (orKids A ++ c :: rest)) := by
  intro rest
  induction rest with
  | nil =>
    intro c acc A hacc hAb hkids
    obtain ⟨hc, hcb, hca⟩ := hkids c (List.mem_cons_self c [])
    show expr_parse st (.sor acc (expr_format c)) = _
    rw [expr_parse, hacc, except_bind_ok, hc, except_bind_ok]
    rw [expr_combine_eor_shape hAb hcb]
    have hkc : orKids c = [c] := by
      match c with
      | .cmp s op o => rfl
      | .eand es => rfl
      | .bool b => exact Bool.noConfusion hcb
      | .eor es => exact Bool.noConfusion hca
    rw [hkc]
    rfl
  | cons c2 rest ih =>
    intro c acc A hacc hAb hkids
    obtain ⟨hc, hcb, hca⟩ := hkids c (List.mem_cons_self c _)
    show expr_parse st (fmtFold .sor (.sor acc (expr_format c))
      (c2 :: rest)) = _
    have hstep : expr_parse st (.sor acc (expr_format c)) =
        .ok (.eor (orKids A ++ [c])) := by
      rw [expr_parse, hacc, except_bind_ok, hc, except_bind_ok,
        expr_combine_eor_shape hAb hcb]
      have hkc : orKids c = [c] := by
        match c with
        | .cmp s op o => rfl
        | .eand es => rfl
        | .bool b => exact Bool.noConfusion hcb
        | .eor es => exact Bool.noConfusion hca
      rw [hkc]
      rfl
    have := ih c2 (.sor acc (expr_format c)) (.eor (orKids A ++ [c]))
      hstep (by rfl)
      (fun e he => hkids e (List.mem_cons_of_mem c he))
    rw [this]
    show Except.ok (expr.eor ((orKids A ++ [c]) ++ c2 :: rest)) = _
    rw [List.append_assoc]
    rfl

mutual

/-- Reparsing the canonical rendering restores the tree exactly. -/
theorem expr_format_parse {st : Symtab} : ∀ e : expr, wfe e = true →
    fmtOk st e = true → expr_parse st (expr_format e) = .ok e
  | .cmp s op o, hw, hf => fmtCmp_parse hw hf
  | .bool b, _, _ => rfl
  | .eand [], hw, _ => by
    rw [wfe_eand_iff] at hw
    have := hw.1
    simp at this
  | .eand (e1 :: es), hw, hf => by
    have hw2 := wfe_eand_iff.mp hw
    have hf2 : (((e1 :: es).all (fun c => !(isBoolNode c))) &&
        fmtOkList st (e1 :: es)) = true := hf
    rw [Bool.and_eq_true, List.all_eq_true] at hf2
    have hkids := expr_format_parse_list (e1 :: es)
      (fun c hc => (hw2.2 c hc).2) (fmtOkList_iff.mp hf2.2)
    match es, hw2 with
    | e2 :: rest, hw2 =>
      show expr_parse st (fmtFold .sand (expr_format e1) (e2 :: rest)) = _
      have he1 := hkids e1 (List.mem_cons_self e1 _)
      have he1b : isBoolNode e1 = false := by
        have := hf2.1 e1 (List.mem_cons_self e1 _)
        rw [Bool.not_eq_true'] at this
        exact this
      have := parse_fmtFold_and rest e2 (expr_format e1) e1 he1 he1b ?hrest
      case hrest =>
        intro e he
        refine ⟨hkids e (List.mem_cons_of_mem e1 he), ?_, ?_⟩
        · have := hf2.1 e (List.mem_cons_of_mem e1 he)
          rw [Bool.not_eq_true'] at this
          exact this
        · exact (hw2.2 e (List.mem_cons_of_mem e1 he)).1
      rw [this]
      have hk1 : andKids e1 = [e1] := by
        match e1, he1b, hw2 with
        | .cmp s op o, _, _ => rfl
        | .eor es0, _, _ => rfl
        | .bool b, hb, _ => exact Bool.noConfusion hb
        | .eand es0, _, hw2 =>
          exact absurd (hw2.2 (.eand es0) (List.mem_cons_self _ _)).1
            (by intro h2; exact Bool.noConfusion h2)
      rw [hk1]
      rfl
  | .eor [], hw, _ => by
    rw [wfe_eor_iff] at hw
    have := hw.1
    simp at this
  | .eor (e1 :: es), hw, hf => by
    have hw2 := wfe_eor_iff.mp hw
    have hf2 : (((e1 :: es).all (fun c => !(isBoolNode c))) &&
        fmtOkList st (e1 :: es)) = true := hf
    rw [Bool.and_eq_true, List.all_eq_true] at hf2
    have hkids := expr_format_parse_list (e1 :: es)
      (fun c hc => (hw2.2 c hc).2) (fmtOkList_iff.mp hf2.2)
    match es, hw2 with
    | e2 :: rest, hw2 =>
      show expr_parse st (fmtFold .sor (expr_format e1) (e2 :: rest)) = _
      have he1 := hkids e1 (List.mem_cons_self e1 _)
      have he1b : isBoolNode e1 = false := by
        have := hf2.1 e1 (List.mem_cons_self e1 _)
        rw [Bool.not_eq_true'] at this
        exact this
      have := parse_fmtFold_or rest e2 (expr_format e1) e1 he1 he1b ?hrest
      case hrest =>
        intro e he
        refine ⟨hkids e (List.mem_cons_of_mem e1 he), ?_, ?_⟩
        · have := hf2.1 e (List.mem_cons_of_mem e1 he)
          rw [Bool.not_eq_true'] at this
          exact this
        · exact (hw2.2 e (List.mem_cons_of_mem e1 he)).1
      rw [this]
      have hk1 : orKids e1 = [e1] := by
        match e1, he1b, hw2 with
        | .cmp s op o, _, _ => rfl
        | .eand es0, _, _ => rfl
        | .bool b, hb, _ => exact Bool.noConfusion hb
        | .eor es0, _, hw2 =>
          exact absurd (hw2.2 (.eor es0) (List.mem_cons_self _ _)).1
            (by intro h2; exact Bool.noConfusion h2)
      rw [hk1]
      rfl

/-- List form of `expr_format_parse`. -/
theorem expr_format_parse_list {st : Symtab} : ∀ es : List expr,
    (∀ c ∈ es, wfe c = true) → (∀ c ∈ es, fmtOk st c = true) →
    ∀ c ∈ es, expr_parse st (expr_format c) = .ok c
  | [], _, _ => by
    intro c hc
    exact absurd hc (List.not_mem_nil c)
  | e :: es, hw, hf => by
    intro c hc
    rcases List.mem_cons.mp hc with h1 | h1
    · subst h1
      exact expr_format_parse c (hw c hc) (hf c hc)
    · exact expr_format_parse_list es
        (fun x hx => hw x (List.mem_cons_of_mem e hx))
        (fun x hx => hf x (List.mem_cons_of_mem e hx)) c h1

end

/-- C8 counterexample: the claim quantifies over every AST, but the
    round trip fails on a pipeline-reachable tree.  Parsing `a != 3`
    over an 8-bit Nominal symbol is legal (Nominal admits `!=`), and
    normalization expands it per bit into eight equality comparisons
    with single-bit (partial) masks — still on the Nominal symbol.
    The canonical rendering of a partial mask is a masked literal
    `value/mask`, which the grammar's legality rules (§4.2) accept only
    on an Ordinal symbol, so reparsing the rendering errors instead of
    returning the tree. -/
theorem C8_counterexample :
    pipeline stW false false true (.scmp "a" .ne (.int 3)) =
      .ok (expr_normalize (.cmp symNom8 .ne (.num 3 (fullmask 8)))) ∧
    wfe (expr_normalize (.cmp symNom8 .ne (.num 3 (fullmask 8)))) = true ∧
    isErr (expr_parse stW (expr_format
      (expr_normalize (.cmp symNom8 .ne (.num 3 (fullmask 8)))))) = true :=
  ⟨by rfl, by decide, by decide⟩

/-- C8 (amended): `expr_format` then `expr_parse` is the identity for
    every well-formed tree whose symbols resolve to themselves in the
    symbol table, whose partial masks sit on Ordinal symbols, and whose
    connectives have no Boolean-literal children: parsing the canonical
    rendering succeeds and returns the identical AST — in particular an
    AST equivalent up to child ordering and canonical mask/value
    encoding, as the rendering itself is canonical.  The Ordinal
    condition is forced by the counterexample: a partial mask on a
    non-Ordinal symbol renders as a masked literal, which only an
    Ordinal symbol may carry (§4.2). -/
theorem C8_format_parse_identity {st : Symtab} {a : expr}
    (hw : wfe a = true) (hf : fmtOk st a = true) :
    expr_parse st (expr_format a) = .ok a :=
  expr_format_parse a hw hf

/-- Concrete tree for the C8 witness: `o >= 7 && a == 3`. -/
def C8ex : expr :=
  .eand [.cmp symOrd8 .ge (.num 7 (fullmask 8)),
         .cmp symNom8 .eq (.num 3 (fullmask 8))]

/-- C8 (amended) at a concrete tree over the witness symbol table. -/
theorem C8_format_parse_identity_witness :
    expr_parse stW (expr_format C8ex) = .ok C8ex :=
  C8_format_parse_identity (by decide) (by decide)

end Ovn
